import Mathlib

/-!
# BlurDetect: a shallow embedding of src/blurdetect.cpp

The five stages of the blur-detection pipeline (gaussian_blur, sobel's direction
classifier, non_maximum_suppression, double_threshold, edge_width / calculate_blur)
are translated function by function.

Conventions of the embedding
* A buffer is a function from element offsets (relative to its base pointer) to
  unsigned sample values; a store is Function.update.  Pointer bumps such as
  dst += width are replaced by the offset they amount to (row * width).
* int / ptrdiff_t values are Int.  Values of the sample type T (uint8_t or
  uint16_t) are Nat; a store that narrows a wider value to T reduces it
  modulo 2 ^ bits, where bits is the storage width of T.
* The edge widths and the block sums (a float and a double accumulator) are exact
  rationals (0.7f is 7/10, 0.001f is 1/1000).  The store of a block average into the
  float array blks and the pooling tail of calculate_blur (lines 335-349) are
  evaluated in binary32: f32 rounds a rational to the nearest value with a 24-bit
  significand, ties to even.
* A for loop whose body neither breaks nor changes the loop variable is forLoop.
-/

namespace BlurDetect

/-! ## Data model -/

/-- A buffer of unsigned samples, addressed by element offset from its base pointer. -/
abbrev Buf := Int → Nat

/-- Enumerator DIRECTION_45UP of RoundedDirection. -/
abbrev DIRECTION_45UP : Nat := 0
/-- Enumerator DIRECTION_45DOWN of RoundedDirection. -/
abbrev DIRECTION_45DOWN : Nat := 1
/-- Enumerator DIRECTION_HORIZONTAL of RoundedDirection. -/
abbrev DIRECTION_HORIZONTAL : Nat := 2
/-- Enumerator DIRECTION_VERTICAL of RoundedDirection. -/
abbrev DIRECTION_VERTICAL : Nat := 3

/-- The configuration record (struct blurdetect); the plane selection and the two
function pointers play no part in the per-plane arithmetic and are left out. -/
structure blurdetect where
  low : Int
  high : Int
  radius : Int
  block_pct : Int
  block_width : Int
  block_height : Int
  scale_coef : Int
  scale_coef1 : Int
  scale_coef2 : Int
  peak : Nat

/-- The loop for (int v = lo; v < hi; ++v) body, threading the state s through the
iterations v = lo, lo + 1, ..., hi - 1. -/
def forLoop {σ : Type} (lo hi : Int) (body : Int → σ → σ) (s : σ) : σ :=
  (List.range (hi - lo).toNat).foldl (fun (s : σ) (k : Nat) => body (lo + (k : Int)) s) s

/-- Two's-complement reduction of an integer to the range of a 32-bit int. -/
def wrap32 (v : Int) : Int := (v + 2 ^ 31) % 2 ^ 32 - 2 ^ 31

/-! ## Create_blurdetect: the bit-depth switch (lines 500-556) -/

/-- The scale coefficients and the peak that the switch over the bit depth stores
into the record.  The thresholds low and high come from floating-point input and
are kept as given. -/
def Create_blurdetect_profile (bits_per_component : Int) (d : blurdetect) : blurdetect :=
  if bits_per_component = 8 then
    { d with scale_coef := 2 ^ 16, scale_coef1 := 27146, scale_coef2 := 158218, peak := 255 }
  else if bits_per_component = 10 then
    { d with scale_coef := 2 ^ 14, scale_coef1 := 6786, scale_coef2 := 39554, peak := 1023 }
  else if bits_per_component = 12 then
    { d with scale_coef := 2 ^ 12, scale_coef1 := 1697, scale_coef2 := 9887, peak := 4095 }
  else if bits_per_component = 14 then
    { d with scale_coef := 2 ^ 10, scale_coef1 := 424, scale_coef2 := 2472, peak := 16383 }
  else
    { d with scale_coef := 2 ^ 8, scale_coef1 := 106, scale_coef2 := 618, peak := 65535 }

/-! ## get_rounded_direction (lines 38-71) -/

/-- Quantised gradient direction.  Every int operation is followed by wrap32, so the
definition also says what a wrapping machine does outside the no-overflow range. -/
def get_rounded_direction (gx gy : Int) (d : blurdetect) : Nat :=
  if gx ≠ 0 then
    let gx1 := if gx < 0 then wrap32 (-gx) else gx
    let gy1 := if gx < 0 then wrap32 (-gy) else gy
    let gy2 := wrap32 (gy1 * d.scale_coef)
    let tanpi8gx := wrap32 (d.scale_coef1 * gx1)
    let tan3pi8gx := wrap32 (d.scale_coef2 * gx1)
    if gy2 > wrap32 (-tan3pi8gx) ∧ gy2 < wrap32 (-tanpi8gx) then DIRECTION_45UP
    else if gy2 > wrap32 (-tanpi8gx) ∧ gy2 < tanpi8gx then DIRECTION_HORIZONTAL
    else if gy2 > tanpi8gx ∧ gy2 < tan3pi8gx then DIRECTION_45DOWN
    else DIRECTION_VERTICAL
  else DIRECTION_VERTICAL

/-- The exact integer value of every int operation that get_rounded_direction carries
out on (gx, gy), before its reduction to 32 bits: the two negations of line 54 when
gx < 0, the products of lines 55, 57 and 58, and the negations of the two products in
the comparisons of lines 60 and 62.  Nothing is computed when gx = 0. -/
def get_rounded_direction_values (gx gy : Int) (d : blurdetect) : List Int :=
  if gx ≠ 0 then
    let gx1 := if gx < 0 then wrap32 (-gx) else gx
    let gy1 := if gx < 0 then wrap32 (-gy) else gy
    let tanpi8gx := wrap32 (d.scale_coef1 * gx1)
    let tan3pi8gx := wrap32 (d.scale_coef2 * gx1)
    (if gx < 0 then [-gx, -gy] else []) ++
      [gy1 * d.scale_coef, d.scale_coef1 * gx1, d.scale_coef2 * gx1, -tan3pi8gx, -tanpi8gx]
  else []

/-! ## gaussian_blur (lines 102-155) -/

/-- The call memcpy(dstp, srcp, n * sizeof(T)) with dstp = dst + doff and
srcp = src + soff: n samples are copied. -/
def memcpy (dst : Buf) (doff : Int) (src : Buf) (soff : Int) (n : Int) : Buf :=
  forLoop 0 n (fun i dst => Function.update dst (doff + i) (src (soff + i))) dst

/-- The weighted sum that the statement in the column loop (lines 124-140) divides
by 159, with srcp the offset of the current source row.  The samples are promoted to
int; the sum of 159 weighted samples of at most 16 bits stays below 2 ^ 31. -/
def gaussian_sum (src : Buf) (srcp src_pitch i : Int) : Nat :=
  (src (srcp + (-2 * src_pitch + (i - 2))) + src (srcp + (2 * src_pitch + (i - 2)))) * 2
    + (src (srcp + (-2 * src_pitch + (i - 1))) + src (srcp + (2 * src_pitch + (i - 1)))) * 4
    + (src (srcp + (-2 * src_pitch + i)) + src (srcp + (2 * src_pitch + i))) * 5
    + (src (srcp + (-2 * src_pitch + (i + 1))) + src (srcp + (2 * src_pitch + (i + 1)))) * 4
    + (src (srcp + (-2 * src_pitch + (i + 2))) + src (srcp + (2 * src_pitch + (i + 2)))) * 2
    + (src (srcp + (-src_pitch + (i - 2))) + src (srcp + (src_pitch + (i - 2)))) * 4
    + (src (srcp + (-src_pitch + (i - 1))) + src (srcp + (src_pitch + (i - 1)))) * 9
    + (src (srcp + (-src_pitch + i)) + src (srcp + (src_pitch + i))) * 12
    + (src (srcp + (-src_pitch + (i + 1))) + src (srcp + (src_pitch + (i + 1)))) * 9
    + (src (srcp + (-src_pitch + (i + 2))) + src (srcp + (src_pitch + (i + 2)))) * 4
    + src (srcp + (i - 2)) * 5
    + src (srcp + (i - 1)) * 12
    + src (srcp + i) * 15
    + src (srcp + (i + 1)) * 12
    + src (srcp + (i + 2)) * 5

/-- The body of the row loop (lines 118-147) in iteration j, where dstp is
dst + j * width and srcp is src + j * src_pitch. -/
def gaussian_row (bits : Nat) (src : Buf) (src_pitch width j : Int) (dst : Buf) : Buf :=
  let dstp := j * width
  let srcp := j * src_pitch
  let dst := Function.update dst (dstp + 0) (src (srcp + 0))
  let dst := Function.update dst (dstp + 1) (src (srcp + 1))
  let dst := forLoop 2 (width - 2) (fun i dst =>
    Function.update dst (dstp + i) (gaussian_sum src srcp src_pitch i / 159 % 2 ^ bits)) dst
  let dst := Function.update dst (dstp + (width - 2)) (src (srcp + (width - 2)))
  Function.update dst (dstp + (width - 1)) (src (srcp + (width - 1)))

/-- The 5x5 smoothing stage.  The row loop runs for j = 2, ..., height - 3; after it
both pointers have advanced by 2 + max (height - 4) 0 rows. -/
def gaussian_blur (bits : Nat) (dst : Buf) (src : Buf) (src_pitch width height : Int) : Buf :=
  let dst := memcpy dst 0 src 0 width
  let dst := memcpy dst width src src_pitch width
  let dst := forLoop 2 (height - 2) (gaussian_row bits src src_pitch width) dst
  let rows : Int := 2 + ((height - 2 - 2).toNat : Int)
  let dst := memcpy dst (rows * width) src (rows * src_pitch) width
  memcpy dst ((rows + 1) * width) src ((rows + 1) * src_pitch) width

/-! ## non_maximum_suppression (lines 157-191) -/

/-- The lambda COPY_MAXIMA, with dst, src advanced to the row at offset row. -/
def COPY_MAXIMA (bits : Nat) (src : Buf) (row width : Int) (peak : Nat)
    (ay ax by_ bx i : Int) (dst : Buf) : Buf :=
  if src (row + i) > src (row + (ay * width + i + ax)) ∧
      src (row + i) > src (row + (by_ * width + i + bx)) then
    Function.update dst (row + i) (min (src (row + i)) peak % 2 ^ bits)
  else dst

/-- Non-maximum suppression; the switch has no default, so a direction value outside
the enumeration writes nothing. -/
def non_maximum_suppression (bits : Nat) (dst : Buf) (dir : Buf) (src : Buf)
    (width height : Int) (peak : Nat) : Buf :=
  forLoop 1 (height - 1) (fun j dst =>
    let row := j * width
    forLoop 1 (width - 1) (fun i dst =>
      if dir (row + i) = DIRECTION_45UP then COPY_MAXIMA bits src row width peak 1 (-1) (-1) 1 i dst
      else if dir (row + i) = DIRECTION_45DOWN then
        COPY_MAXIMA bits src row width peak (-1) (-1) 1 1 i dst
      else if dir (row + i) = DIRECTION_HORIZONTAL then
        COPY_MAXIMA bits src row width peak 0 (-1) 0 1 i dst
      else if dir (row + i) = DIRECTION_VERTICAL then
        COPY_MAXIMA bits src row width peak (-1) 0 1 0 i dst
      else dst) dst) dst

/-! ## double_threshold (lines 193-225) -/

/-- Double thresholding from src into a distinct buffer dst.  In iteration j both
pointers are at offset j * width. -/
def double_threshold (dst : Buf) (src : Buf) (d : blurdetect) (width height : Int) : Buf :=
  forLoop 0 height (fun j dst =>
    let row := j * width
    forLoop 0 width (fun i dst =>
      if (src (row + i) : Int) > d.high then
        Function.update dst (row + i) (src (row + i))
      else if ¬(i = 0 ∨ i = width - 1 ∨ j = 0 ∨ j = height - 1) ∧
          (src (row + i) : Int) > d.low ∧
          ((src (row + (-width + i - 1)) : Int) > d.high ∨
            (src (row + (-width + i)) : Int) > d.high ∨
            (src (row + (-width + i + 1)) : Int) > d.high ∨
            (src (row + (i - 1)) : Int) > d.high ∨
            (src (row + (i + 1)) : Int) > d.high ∨
            (src (row + (width + i - 1)) : Int) > d.high ∨
            (src (row + (width + i)) : Int) > d.high ∨
            (src (row + (width + i + 1)) : Int) > d.high) then
        Function.update dst (row + i) (src (row + i))
      else
        Function.update dst (row + i) 0) dst) dst

/-! ## edge_width (lines 227-291) -/

/-- The step dX chosen by the switch over dir. -/
def edge_dX (dir : Nat) : Int :=
  if dir = DIRECTION_HORIZONTAL then 1
  else if dir = DIRECTION_VERTICAL then 0
  else if dir = DIRECTION_45UP then 1
  else if dir = DIRECTION_45DOWN then 1
  else 1

/-- The step dY chosen by the switch over dir. -/
def edge_dY (dir : Nat) : Int :=
  if dir = DIRECTION_HORIZONTAL then 0
  else if dir = DIRECTION_VERTICAL then 1
  else if dir = DIRECTION_45UP then -1
  else if dir = DIRECTION_45DOWN then 1
  else 1

/-- The search loop in direction -(dX, dY), entered with counter k and n iterations
left (n = radius - k).  The result none is the early return 0; some k is the value
of the counter when the loop is left. -/
def edge_width_neg (src : Buf) (i j dX dY w h sign : Int) : Nat → Int → Option Int
  | 0, k => some k
  | n + 1, k =>
    let x := i - k * dX
    let y := j - k * dY
    let p1 := y * w + x
    let x := x - dX
    let y := y - dY
    let p2 := y * w + x
    if x < 0 ∨ x ≥ w ∨ y < 0 ∨ y ≥ h then none
    else
      let tmp := ((src p1 : Int) - (src p2 : Int)) * sign
      if tmp ≤ 0 then some k
      else edge_width_neg src i j dX dY w h sign n (k + 1)

/-- The search loop in direction +(dX, dY), as edge_width_neg. -/
def edge_width_pos (src : Buf) (i j dX dY w h sign : Int) : Nat → Int → Option Int
  | 0, k => some k
  | n + 1, k =>
    let x := i + k * dX
    let y := j + k * dY
    let p1 := y * w + x
    let x := x + dX
    let y := y + dY
    let p2 := y * w + x
    if x < 0 ∨ x ≥ w ∨ y < 0 ∨ y ≥ h then none
    else
      let tmp := ((src p1 : Int) - (src p2 : Int)) * sign
      if tmp ≥ 0 then some k
      else edge_width_pos src i j dX dY w h sign n (k + 1)

/-- The initial slope sign read by edge_width. -/
def edge_sign (src : Buf) (i j : Int) (dir : Nat) (w : Int) : Int :=
  if src (j * w + i) > src ((j - edge_dY dir) * w + i - edge_dX dir) then 1 else -1

/-- Edge width of the pixel (i, j): the distance between the surrounding extrema
along the direction dir, 0 when a search leaves the plane. -/
def edge_width (src : Buf) (i j : Int) (dir : Nat) (w h : Int) (radius : Int) : ℚ :=
  let dX := edge_dX dir
  let dY := edge_dY dir
  let sign := edge_sign src i j dir w
  match edge_width_neg src i j dX dY w h sign radius.toNat 0 with
  | none => 0
  | some k1 =>
    let width : ℚ := 0 + (k1 : ℚ)
    match edge_width_pos src i j dX dY w h sign radius.toNat 0 with
    | none => 0
    | some k2 =>
      let width : ℚ := width + (k2 : ℚ)
      if dir = DIRECTION_45UP ∨ dir = DIRECTION_45DOWN then width * (7 / 10) else width

/-! ## Values of type float -/

/-- The integer nearest to q, the even one of the two when q lies half-way between
two integers. -/
def round_half_even (q : ℚ) : Int :=
  if q - ⌊q⌋ < 1 / 2 then ⌊q⌋
  else if q - ⌊q⌋ > 1 / 2 then ⌊q⌋ + 1
  else if ⌊q⌋ % 2 = 0 then ⌊q⌋ else ⌊q⌋ + 1

/-- The value of type float (IEEE 754 binary32) nearest to q, ties to even: q is
rounded to 24 significant bits.  The exponent range is left out: the values that
calculate_blur rounds are 0, a count, or a width or quotient of widths and counts of a
plane, far from the smallest and the largest float. -/
def f32 (q : ℚ) : ℚ :=
  if q = 0 then 0
  else (round_half_even (q / 2 ^ (Int.log 2 |q| - 23)) : ℚ) * 2 ^ (Int.log 2 |q| - 23)

/-! ## calculate_blur (lines 293-350) -/

/-- The value block_width of calculate_blur (-1 selects the plane width). -/
def eff_block_width (d : blurdetect) (width : Int) : Int :=
  if d.block_width = -1 then width else d.block_width

/-- The value block_height of calculate_blur (-1 selects the plane height). -/
def eff_block_height (d : blurdetect) (height : Int) : Int :=
  if d.block_height = -1 then height else d.block_height

/-- The two innermost loops (lines 309-330) for the block (blki, blkj): the pair
(block_total_width, block_count). -/
def block_accumulate (dir dst src : Buf) (d : blurdetect) (width height : Int)
    (blkj blki : Int) : ℚ × Nat :=
  let block_width := eff_block_width d width
  let block_height := eff_block_height d height
  forLoop 0 block_height (fun inj acc =>
    forLoop 0 block_width (fun ini acc =>
      let i := blki * block_width + ini
      let j := blkj * block_height + inj
      if dst (j * width + i) > 0 then
        let width_ := edge_width src i j (dir (j * width + i)) width height d.radius
        if width_ > 1 / 1000 then (acc.1 + width_, acc.2 + 1) else acc
      else acc) acc) (0, 0)

/-- The block loops (lines 305-338): the written part blks[0 .. blkcnt) of the array
blks, in the order in which the entries are stored.  The quotient is narrowed to
float by the store. -/
def block_scores (dir dst src : Buf) (d : blurdetect) (width height : Int) : List ℚ :=
  let block_width := eff_block_width d width
  let block_height := eff_block_height d height
  let brows := Int.tdiv height block_height
  let bcols := Int.tdiv width block_width
  forLoop 0 brows (fun blkj blks =>
    forLoop 0 bcols (fun blki blks =>
      let acc := block_accumulate dir dst src d width height blkj blki
      if acc.1 ≥ 2 ∧ acc.2 ≠ 0 then blks ++ [f32 (acc.1 / (acc.2 : ℚ))] else blks) blks) []

/-- The new value of blkcnt (line 342): ceilf (blkcnt * (block_pct / 100.0f)), where
both ints are converted to float and the quotient and the product are rounded to
float. -/
def kept_count (blkcnt : Nat) (block_pct : Int) : Int :=
  ⌈f32 (f32 (blkcnt : ℚ) * f32 (f32 (block_pct : ℚ) / 100))⌉

/-- The pooling tail (lines 340-349) applied to the written blocks: sort, cut to
kept_count entries, add them up in the float total_width and divide by the count
converted to float.  Array cells beyond the written part hold their initial value 0. -/
def pool_blocks (blks : List ℚ) (block_pct : Int) : ℚ :=
  let sorted := blks.insertionSort (fun a b => a ≤ b)
  let blkcnt : Int := kept_count blks.length block_pct
  let total_width : ℚ := forLoop 0 blkcnt (fun i t => f32 (t + sorted.getD i.toNat 0)) 0
  if blkcnt = 0 then 0 else f32 (total_width / f32 (blkcnt : ℚ))

/-- The blur score of a plane.  The result none stands for the two ways the function
can fail before its loops: a division by a zero block dimension, and a negative
element count handed to the allocation of blks. -/
def calculate_blur (dir dst src : Buf) (d : blurdetect) (width height : Int) : Option ℚ :=
  let block_width := eff_block_width d width
  let block_height := eff_block_height d height
  if block_height = 0 ∨ block_width = 0 then none
  else if Int.tdiv width block_width * Int.tdiv height block_height < 0 then none
  else some (pool_blocks (block_scores dir dst src d width height) d.block_pct)


/-! ## sobel (lines 73-100) -/

/-- The horizontal response gx at column i of the row at offset row.  The samples
are promoted to int; six terms of at most 2 * 65535 cannot overflow it. -/
def sobel_gx (src : Buf) (row width i : Int) : Int :=
  -1 * (src (row + (-width + (i - 1))) : Int) + 1 * (src (row + (-width + (i + 1))) : Int)
    - 2 * (src (row + (i - 1)) : Int) + 2 * (src (row + (i + 1)) : Int)
    - 1 * (src (row + (width + (i - 1))) : Int) + 1 * (src (row + (width + (i + 1))) : Int)

/-- The vertical response gy at column i of the row at offset row. -/
def sobel_gy (src : Buf) (row width i : Int) : Int :=
  -1 * (src (row + (-width + (i - 1))) : Int) + 1 * (src (row + (width + (i - 1))) : Int)
    - 2 * (src (row + (-width + i)) : Int) + 2 * (src (row + (width + i)) : Int)
    - 1 * (src (row + (-width + (i + 1))) : Int) + 1 * (src (row + (width + (i + 1))) : Int)

/-- The gradient stage: the state is the pair (dst, dir) of the magnitude buffer and
the direction buffer.  In iteration j the three pointers are at offset j * width. -/
def sobel (dst dir : Buf) (src : Buf) (d : blurdetect) (width height : Int) : Buf × Buf :=
  forLoop 1 (height - 1) (fun j st =>
    let row := j * width
    forLoop 1 (width - 1) (fun i st =>
      let gx := sobel_gx src row width i
      let gy := sobel_gy src row width i
      (Function.update st.1 (row + i) (|gx| + |gy|).toNat,
        Function.update st.2 (row + i) (get_rounded_direction gx gy d))) st) (dst, dir)

/-! ## double_threshold called with dst = src (line 407) -/

/-- The call double_threshold(tmpbuf, tmpbuf, ...): the loop of double_threshold with
every read taken from the buffer in its current state, so that the neighbours above
and to the left have already been overwritten when they are read. -/
def double_threshold_inplace (buf : Buf) (d : blurdetect) (width height : Int) : Buf :=
  forLoop 0 height (fun j buf =>
    let row := j * width
    forLoop 0 width (fun i buf =>
      if (buf (row + i) : Int) > d.high then
        Function.update buf (row + i) (buf (row + i))
      else if ¬(i = 0 ∨ i = width - 1 ∨ j = 0 ∨ j = height - 1) ∧
          (buf (row + i) : Int) > d.low ∧
          ((buf (row + (-width + i - 1)) : Int) > d.high ∨
            (buf (row + (-width + i)) : Int) > d.high ∨
            (buf (row + (-width + i + 1)) : Int) > d.high ∨
            (buf (row + (i - 1)) : Int) > d.high ∨
            (buf (row + (i + 1)) : Int) > d.high ∨
            (buf (row + (width + i - 1)) : Int) > d.high ∨
            (buf (row + (width + i)) : Int) > d.high ∨
            (buf (row + (width + i + 1)) : Int) > d.high) then
        Function.update buf (row + i) (buf (row + i))
      else
        Function.update buf (row + i) 0) buf) buf

/-! ## get_frame_blurdetect: the stages of one plane (lines 387-409) -/

/-- A freshly allocated buffer: make_unique value-initialises every element. -/
def zero_buf : Buf := fun _ => 0

/-- The buffer filterbuf after gaussian_blur (line 397). -/
def stage_filterbuf (bits : Nat) (src : Buf) (src_pitch width height : Int) : Buf :=
  gaussian_blur bits zero_buf src src_pitch width height

/-- The buffers gradients and directions after sobel (line 400). -/
def stage_sobel (bits : Nat) (src : Buf) (src_pitch width height : Int) (d : blurdetect) :
    Buf × Buf :=
  sobel zero_buf zero_buf (stage_filterbuf bits src src_pitch width height) d width height

/-- The buffer tmpbuf after non_maximum_suppression (line 404). -/
def stage_suppressed (bits : Nat) (src : Buf) (src_pitch width height : Int)
    (d : blurdetect) : Buf :=
  non_maximum_suppression bits zero_buf (stage_sobel bits src src_pitch width height d).2
    (stage_sobel bits src src_pitch width height d).1 width height d.peak

/-- The buffer tmpbuf after double_threshold (line 407). -/
def stage_thresholded (bits : Nat) (src : Buf) (src_pitch width height : Int)
    (d : blurdetect) : Buf :=
  double_threshold_inplace (stage_suppressed bits src src_pitch width height d) d width height

/-- The score stored for the plane (line 409). -/
def plane_score (bits : Nat) (src : Buf) (src_pitch width height : Int) (d : blurdetect) :
    Option ℚ :=
  calculate_blur (stage_sobel bits src src_pitch width height d).2
    (stage_thresholded bits src src_pitch width height d)
    (stage_filterbuf bits src src_pitch width height) d width height

/-! ## Create_blurdetect: the range checks (lines 467-480) -/

/-- The range checks on the arguments, in order: the error message of the first
check that fails, none when the configuration is accepted.  The floats low and high
are the normalised thresholds as given by the caller. -/
def Create_blurdetect_check (low high : ℚ) (d : blurdetect) : Option String :=
  if low < 0 ∨ low > 1 then some ("BlurDetect: low must be between 0.0..1.0.")
  else if high < 0 ∨ high > 1 then some ("BlurDetect: high must be between 0.0..1.0.")
  else if low > high then some ("BlurDetect: low must be less than or equal to high.")
  else if d.radius < 1 ∨ d.radius > 100 then
    some ("BlurDetect: radius must be between 1..100.")
  else if d.block_pct < 1 ∨ d.block_pct > 100 then
    some ("BlurDetect: block_pct must be between 1..100.")
  else if d.block_width < -1 then
    some ("BlurDetect: block_width must be equal to or greater than -1.")
  else if d.block_height < -1 then
    some ("BlurDetect: block_height must be equal to or greater than -1.")
  else none

/-! ## The samples read by edge_width and the pixels visited by calculate_blur -/

/-- The plane coordinates (x, y) of the samples src[p1], src[p2] read by the search
loop in direction -(dX, dY), following edge_width_neg step by step. -/
def edge_reads_neg (src : Buf) (i j dX dY w h sign : Int) : Nat → Int → List (Int × Int)
  | 0, _ => []
  | n + 1, k =>
    let x := i - k * dX
    let y := j - k * dY
    let p1 := y * w + x
    let x2 := x - dX
    let y2 := y - dY
    let p2 := y2 * w + x2
    if x2 < 0 ∨ x2 ≥ w ∨ y2 < 0 ∨ y2 ≥ h then []
    else
      let tmp := ((src p1 : Int) - (src p2 : Int)) * sign
      (x, y) :: (x2, y2) ::
        (if tmp ≤ 0 then [] else edge_reads_neg src i j dX dY w h sign n (k + 1))

/-- The plane coordinates of the samples read by the search loop in direction
+(dX, dY), following edge_width_pos step by step. -/
def edge_reads_pos (src : Buf) (i j dX dY w h sign : Int) : Nat → Int → List (Int × Int)
  | 0, _ => []
  | n + 1, k =>
    let x := i + k * dX
    let y := j + k * dY
    let p1 := y * w + x
    let x2 := x + dX
    let y2 := y + dY
    let p2 := y2 * w + x2
    if x2 < 0 ∨ x2 ≥ w ∨ y2 < 0 ∨ y2 ≥ h then []
    else
      let tmp := ((src p1 : Int) - (src p2 : Int)) * sign
      (x, y) :: (x2, y2) ::
        (if tmp ≥ 0 then [] else edge_reads_pos src i j dX dY w h sign n (k + 1))

/-- The plane coordinates of every sample edge_width reads: the two reads of the
initial slope test (line 246), then those of the first loop and, unless that loop
returned early, those of the second. -/
def edge_width_reads (src : Buf) (i j : Int) (dir : Nat) (w h : Int) (radius : Int) :
    List (Int × Int) :=
  let dX := edge_dX dir
  let dY := edge_dY dir
  let sign := edge_sign src i j dir w
  [(i, j), (i - dX, j - dY)] ++ edge_reads_neg src i j dX dY w h sign radius.toNat 0 ++
    (match edge_width_neg src i j dX dY w h sign radius.toNat 0 with
      | none => []
      | some _ => edge_reads_pos src i j dX dY w h sign radius.toNat 0)

/-- The pixel coordinates (i, j) at which the loops of calculate_blur read dst, in
the order of the four nested loops (lines 305-319). -/
def calculate_blur_visits (d : blurdetect) (width height : Int) : List (Int × Int) :=
  let block_width := eff_block_width d width
  let block_height := eff_block_height d height
  let brows := Int.tdiv height block_height
  let bcols := Int.tdiv width block_width
  forLoop 0 brows (fun blkj acc =>
    forLoop 0 bcols (fun blki acc =>
      forLoop 0 block_height (fun inj acc =>
        forLoop 0 block_width (fun ini acc =>
          acc ++ [(blki * block_width + ini, blkj * block_height + inj)]) acc) acc) acc) []

/-! ## Vocabulary of the specification -/

/-- The sample of a plane of the given width at (row, col). -/
def sample (b : Buf) (width row col : Int) : Nat := b (row * width + col)

/-- A pixel that lies in neither the first nor the last row or column. -/
def interior (width height row col : Int) : Prop :=
  0 < col ∧ col < width - 1 ∧ 0 < row ∧ row < height - 1

instance (width height row col : Int) : Decidable (interior width height row col) := by
  unfold interior; infer_instance

/-- The offsets (row, column) of the 8 immediate neighbours of a pixel. -/
def neighbours8 : List (Int × Int) :=
  [(-1, -1), (-1, 0), (-1, 1), (0, -1), (0, 1), (1, -1), (1, 0), (1, 1)]

/-- Some immediate neighbour of (row, col) has a sample above high. -/
def strong_neighbour (src : Buf) (high width row col : Int) : Prop :=
  ∃ o ∈ neighbours8, (sample src width (row + o.1) (col + o.2) : Int) > high

instance (src : Buf) (high width row col : Int) :
    Decidable (strong_neighbour src high width row col) := by
  unfold strong_neighbour; infer_instance

/-- The pixels the hysteresis contract keeps: strong ones, and weak interior ones
with a strong immediate neighbour. -/
def threshold_keeps (src : Buf) (d : blurdetect) (width height row col : Int) : Prop :=
  (sample src width row col : Int) > d.high ∨
    (interior width height row col ∧ (sample src width row col : Int) > d.low ∧
      strong_neighbour src d.high width row col)

instance (src : Buf) (d : blurdetect) (width height row col : Int) :
    Decidable (threshold_keeps src d width height row col) := by
  unfold threshold_keeps; infer_instance

/-- The sample the hysteresis contract assigns to a pixel: the input if the pixel is
kept, 0 otherwise. -/
def threshold_value (src : Buf) (d : blurdetect) (width height row col : Int) : Nat :=
  if threshold_keeps src d width height row col then sample src width row col else 0

/-- The two neighbour offsets (row, column) that suppression compares a pixel with,
by direction, as tabulated in the specification. -/
def suppression_neighbours (dir : Nat) : (Int × Int) × (Int × Int) :=
  if dir = DIRECTION_45UP then ((1, -1), (-1, 1))
  else if dir = DIRECTION_45DOWN then ((-1, -1), (1, 1))
  else if dir = DIRECTION_HORIZONTAL then ((0, -1), (0, 1))
  else ((-1, 0), (1, 0))

/-- The magnitude at (row, col) is strictly greater than the magnitudes of both
neighbours selected by the direction of the pixel. -/
def strict_maximum (dir src : Buf) (width row col : Int) : Prop :=
  sample src width row col >
      sample src width (row + (suppression_neighbours (sample dir width row col)).1.1)
        (col + (suppression_neighbours (sample dir width row col)).1.2) ∧
    sample src width row col >
      sample src width (row + (suppression_neighbours (sample dir width row col)).2.1)
        (col + (suppression_neighbours (sample dir width row col)).2.2)

instance (dir src : Buf) (width row col : Int) :
    Decidable (strict_maximum dir src width row col) := by
  unfold strict_maximum; infer_instance

/-- A direction value that is one of the four enumerators. -/
def is_direction (v : Nat) : Prop :=
  v = DIRECTION_45UP ∨ v = DIRECTION_45DOWN ∨ v = DIRECTION_HORIZONTAL ∨ v = DIRECTION_VERTICAL

instance (v : Nat) : Decidable (is_direction v) := by
  unfold is_direction; infer_instance

/-- A pixel at least two rows and two columns away from the edge of the plane: all
of its 8 immediate neighbours are interior. -/
def deep_interior (width height row col : Int) : Prop :=
  2 ≤ col ∧ col ≤ width - 3 ∧ 2 ≤ row ∧ row ≤ height - 3

instance (width height row col : Int) : Decidable (deep_interior width height row col) := by
  unfold deep_interior; infer_instance

/-- The 5x5 smoothing kernel of the specification, row by row. -/
def gaussian_kernel : List (List Nat) :=
  [[2, 4, 5, 4, 2], [4, 9, 12, 9, 4], [5, 12, 15, 12, 5], [4, 9, 12, 9, 4], [2, 4, 5, 4, 2]]

/-- The kernel weight in row dy and column dx of the kernel. -/
def kernel_weight (dy dx : Nat) : Nat := (gaussian_kernel.getD dy []).getD dx 0

/-- The kernel-weighted sum over the 5x5 neighbourhood of (row, col) in a plane whose
rows are pitch samples apart. -/
def neighbourhood_sum (src : Buf) (pitch row col : Int) : Nat :=
  ((List.range 5).map (fun dy => ((List.range 5).map (fun dx =>
    kernel_weight dy dx *
      sample src pitch (row + (dy : Int) - 2) (col + (dx : Int) - 2))).sum)).sum

/-- The no-overflow range of get_rounded_direction: the gradient components and the
three products the function computes all have absolute value below 2 ^ 31, so every
int operation of the function (the negations included) is exact. -/
def no_overflow (gx gy : Int) (d : blurdetect) : Prop :=
  |gx| < 2 ^ 31 ∧ |gy| < 2 ^ 31 ∧ |gy * d.scale_coef| < 2 ^ 31 ∧
    |d.scale_coef1 * gx| < 2 ^ 31 ∧ |d.scale_coef2 * gx| < 2 ^ 31

instance (gx gy : Int) (d : blurdetect) : Decidable (no_overflow gx gy d) := by
  unfold no_overflow; infer_instance

/-- The horizontal component after the sign normalisation of the specification
(both signs are flipped when gx < 0). -/
def flip_x (gx : Int) : Int := if gx < 0 then -gx else gx

/-- The vertical component after the sign normalisation of the specification. -/
def flip_y (gx gy : Int) : Int := if gx < 0 then -gy else gy

/-- A position outside the w x h plane. -/
def outside (w h x y : Int) : Prop := x < 0 ∨ x ≥ w ∨ y < 0 ∨ y ≥ h

instance (w h x y : Int) : Decidable (outside w h x y) := by
  unfold outside; infer_instance

/-- The signed difference the walk in direction -(dX, dY) looks at in its step k: the
sample k steps from (i, j) minus the sample k + 1 steps from it, times the initial
slope sign.  The walk stops at a local extremum when this is <= 0. -/
def slope_neg (src : Buf) (i j : Int) (dir : Nat) (w k : Int) : Int :=
  ((sample src w (j - k * edge_dY dir) (i - k * edge_dX dir) : Int) -
    (sample src w (j - (k + 1) * edge_dY dir) (i - (k + 1) * edge_dX dir) : Int)) *
    edge_sign src i j dir w

/-- The signed difference the walk in direction +(dX, dY) looks at in its step k; the
walk stops at a local extremum when this is >= 0. -/
def slope_pos (src : Buf) (i j : Int) (dir : Nat) (w k : Int) : Int :=
  ((sample src w (j + k * edge_dY dir) (i + k * edge_dX dir) : Int) -
    (sample src w (j + (k + 1) * edge_dY dir) (i + (k + 1) * edge_dX dir) : Int)) *
    edge_sign src i j dir w

/-- The edge width credited to the pixel (i, j): edge_width for a pixel that is
non-zero after thresholding, 0 for a zeroed one. -/
def pixel_width (dir dst src : Buf) (d : blurdetect) (width height i j : Int) : ℚ :=
  if sample dst width j i > 0 then
    edge_width src i j (sample dir width j i) width height d.radius
  else 0

/-- The edge widths above 0.001 found in the block (blki, blkj), pixel by pixel in
row-major order. -/
def block_widths (dir dst src : Buf) (d : blurdetect) (width height blkj blki : Int) :
    List ℚ :=
  ((List.range (eff_block_height d height).toNat).flatMap (fun (inj : Nat) =>
    (List.range (eff_block_width d width).toNat).map (fun (ini : Nat) =>
      pixel_width dir dst src d width height (blki * eff_block_width d width + (ini : Int))
        (blkj * eff_block_height d height + (inj : Int))))).filter
    (fun x => decide (x > 1 / 1000))

/-- A qualifying block: at least one pixel with edge width above 0.001, and the sum
of those widths at least 2. -/
def block_qualifies (dir dst src : Buf) (d : blurdetect) (width height blkj blki : Int) :
    Prop :=
  block_widths dir dst src d width height blkj blki ≠ [] ∧
    (block_widths dir dst src d width height blkj blki).sum ≥ 2

instance (dir dst src : Buf) (d : blurdetect) (width height blkj blki : Int) :
    Decidable (block_qualifies dir dst src d width height blkj blki) := by
  unfold block_qualifies; infer_instance

/-- The value of a block: the sum of its edge widths above 0.001 divided by their
number. -/
def block_value (dir dst src : Buf) (d : blurdetect) (width height blkj blki : Int) : ℚ :=
  (block_widths dir dst src d width height blkj blki).sum /
    ((block_widths dir dst src d width height blkj blki).length : ℚ)

/-- The blocks (blkj, blki) of the plane, row by row: height / block_height rows of
width / block_width blocks. -/
def block_grid (d : blurdetect) (width height : Int) : List (Int × Int) :=
  (List.range (Int.tdiv height (eff_block_height d height)).toNat).flatMap (fun (blkj : Nat) =>
    (List.range (Int.tdiv width (eff_block_width d width)).toNat).map (fun (blki : Nat) =>
      ((blkj : Int), (blki : Int))))

/-- The values of the qualifying blocks of the plane. -/
def qualifying_values (dir dst src : Buf) (d : blurdetect) (width height : Int) : List ℚ :=
  ((block_grid d width height).filter
    (fun b => decide (block_qualifies dir dst src d width height b.1 b.2))).map
    (fun b => block_value dir dst src d width height b.1 b.2)

/-- The sum of a list as a float accumulator computes it: from the left, each
addition rounded to float. -/
def float_sum (l : List ℚ) : ℚ := l.foldl (fun t b => f32 (t + b)) 0

/-- The values of the qualifying blocks as the array blks holds them, each rounded to
float. -/
def stored_values (dir dst src : Buf) (d : blurdetect) (width height : Int) : List ℚ :=
  (qualifying_values dir dst src d width height).map f32

/-- A configuration in the ranges of the interface of the specification:
0 <= low <= high, radius and block_pct in their ranges, block dimensions -1 or >= 1. -/
def valid_config (d : blurdetect) : Prop :=
  0 ≤ d.low ∧ d.low ≤ d.high ∧ (1 ≤ d.radius ∧ d.radius ≤ 100) ∧
    (1 ≤ d.block_pct ∧ d.block_pct ≤ 100) ∧ (d.block_width = -1 ∨ 1 ≤ d.block_width) ∧
    (d.block_height = -1 ∨ 1 ≤ d.block_height)

instance (d : blurdetect) : Decidable (valid_config d) := by
  unfold valid_config; infer_instance

/-! ## Concrete inputs of the witnesses -/

/-- A 4x4 plane with one strong sample at (1, 2) and a weak one at (1, 1). -/
def plane_a : Buf := fun idx => if idx = 6 then 200 else if idx = 5 then 20 else 0

/-- An 8-bit configuration with thresholds 15 and 30 and the default radius,
percentile and block size. -/
def config_a : blurdetect :=
  { low := 15, high := 30, radius := 50, block_pct := 80, block_width := -1,
    block_height := -1, scale_coef := 2 ^ 16, scale_coef1 := 27146, scale_coef2 := 158218,
    peak := 255 }

/-- A 5x5 plane that is 0 except for the sample 159 in its centre. -/
def plane_b : Buf := fun idx => if idx = 12 then 159 else 0

/-- An 8-column plane whose rows all rise by 10 per column. -/
def plane_c : Buf := fun idx => (idx % 8).toNat * 10

/-- An 8-column plane whose rows all hold the ramp 0, 0, 10, 20, 30, 30, 30, 30. -/
def plane_d : Buf := fun idx =>
  if idx % 8 = 2 then 10 else if idx % 8 = 3 then 20 else if idx % 8 ≤ 1 then 0 else 30

/-- A thresholded 8x3 plane whose only non-zero sample is at row 1, column 3. -/
def edges_d : Buf := fun idx => if idx = 11 then 200 else 0

/-- A 3x3 plane of 8-bit samples: 0 in the upper left half, 255 at (1, 2), (2, 1)
and (2, 2). -/
def plane_e : Buf := fun idx => if idx = 5 ∨ idx = 7 ∨ idx = 8 then 255 else 0

/-- A 3x3 magnitude buffer with the single non-zero value 5 in its centre. -/
def grad_a : Buf := fun idx => if idx = 4 then 5 else 0

/-- The buffer grad_a with the border pixel (0, 1) raised to 10. -/
def grad_b : Buf := fun idx => if idx = 4 then 5 else if idx = 1 then 10 else 0

/-- The default configuration with block_width = 0. -/
def config_zero : blurdetect := { config_a with block_width := 0 }

theorem foldl_range_inv {σ : Type} (P : σ → Prop) (f : σ → Nat → σ) (n : Nat) (s : σ)
    (hstep : ∀ k s, k < n → P s → P (f s k)) (hs : P s) :
    P ((List.range n).foldl f s) := by
  induction n with
  | zero => simpa using hs
  | succ n ih =>
    rw [List.range_succ, List.foldl_append]
    simp only [List.foldl_cons, List.foldl_nil]
    exact hstep n _ (Nat.lt_succ_self n)
      (ih (fun k s hk hP => hstep k s (Nat.lt_succ_of_lt hk) hP))

/-- An invariant kept by every iteration is kept by the loop. -/
theorem forLoop_inv {σ : Type} (P : σ → Prop) (lo hi : Int) (body : Int → σ → σ) (s : σ)
    (hstep : ∀ v s, lo ≤ v → v < hi → P s → P (body v s)) (hs : P s) :
    P (forLoop lo hi body s) := by
  unfold forLoop
  apply foldl_range_inv P _ _ _ _ hs
  intro k s hk hP
  apply hstep _ _ _ _ hP <;> omega

/-- A loop none of whose iterations changes an observation leaves it unchanged. -/
theorem forLoop_frame {σ α : Type} (read : σ → α) (lo hi : Int) (body : Int → σ → σ) (s : σ)
    (hstep : ∀ v s, lo ≤ v → v < hi → read (body v s) = read s) :
    read (forLoop lo hi body s) = read s :=
  forLoop_inv (fun t => read t = read s) lo hi body s
    (fun v t h1 h2 ht => (hstep v t h1 h2).trans ht) rfl

theorem foldl_range_at {σ α : Type} (read : σ → α) (f : σ → Nat → σ) (g : α → α)
    (n k0 : Nat) (s : σ) (hk0 : k0 < n)
    (hother : ∀ k s, k < n → k ≠ k0 → read (f s k) = read s)
    (hit : ∀ s, read (f s k0) = g (read s)) :
    read ((List.range n).foldl f s) = g (read s) := by
  induction n with
  | zero => omega
  | succ n ih =>
    rw [List.range_succ, List.foldl_append]
    simp only [List.foldl_cons, List.foldl_nil]
    by_cases h : k0 = n
    · subst h
      rw [hit]
      congr 1
      exact foldl_range_inv (fun t => read t = read s) f k0 s
        (fun k t hk ht => (hother k t (Nat.lt_succ_of_lt hk) (Nat.ne_of_lt hk)).trans ht) rfl
    · rw [hother n _ (Nat.lt_succ_self n) (fun e => h e.symm)]
      exact ih (by omega) (fun k s hk hne => hother k s (Nat.lt_succ_of_lt hk) hne)

/-- If exactly one iteration v0 touches an observation, transforming it by g, the
loop transforms it by g. -/
theorem forLoop_at {σ α : Type} (read : σ → α) (lo hi v0 : Int) (body : Int → σ → σ)
    (g : α → α) (s : σ) (hlo : lo ≤ v0) (hhi : v0 < hi)
    (hother : ∀ v s, lo ≤ v → v < hi → v ≠ v0 → read (body v s) = read s)
    (hit : ∀ s, read (body v0 s) = g (read s)) :
    read (forLoop lo hi body s) = g (read s) := by
  unfold forLoop
  apply foldl_range_at read _ g _ (v0 - lo).toNat s
  · omega
  · intro k s hk hne
    apply hother <;> omega
  · intro s
    have : lo + (((v0 - lo).toNat : Nat) : Int) = v0 := by omega
    rw [this]
    exact hit s

/-- Row-major offsets of a plane of width w determine the row and the column. -/
theorem raster_inj (w j i j0 i0 : Int) (hi : 0 ≤ i) (hiw : i < w) (hi0 : 0 ≤ i0)
    (hi0w : i0 < w) (h : j * w + i = j0 * w + i0) : j = j0 ∧ i = i0 := by
  have hj : j = j0 := by
    rcases lt_trichotomy j j0 with hlt | heq | hgt
    · exfalso
      have : (j + 1) * w ≤ j0 * w := Int.mul_le_mul_of_nonneg_right (by omega) (by omega)
      linarith
    · exact heq
    · exfalso
      have : (j0 + 1) * w ≤ j * w := Int.mul_le_mul_of_nonneg_right (by omega) (by omega)
      linarith
  subst hj
  exact ⟨rfl, by linarith⟩

theorem raster_ne_row (w j i j0 i0 : Int) (hi : 0 ≤ i) (hiw : i < w) (hi0 : 0 ≤ i0)
    (hi0w : i0 < w) (hne : j ≠ j0) : j * w + i ≠ j0 * w + i0 :=
  fun h => hne (raster_inj w j i j0 i0 hi hiw hi0 hi0w h).1

theorem raster_ne_col (w j i i0 : Int) (hne : i ≠ i0) : j * w + i ≠ j * w + i0 :=
  fun h => hne (by linarith)

/-! ## Values of type float -/

/-- An integer is rounded to itself. -/
theorem round_half_even_int (n : Int) : round_half_even (n : ℚ) = n := by
  unfold round_half_even
  simp

/-- Rounding to the nearest integer is monotone. -/
theorem round_half_even_mono (x y : ℚ) (h : x ≤ y) : round_half_even x ≤ round_half_even y := by
  have hx1 : ⌊x⌋ ≤ round_half_even x := by
    unfold round_half_even
    split_ifs <;> omega
  have hx2 : round_half_even x ≤ ⌊x⌋ + 1 := by
    unfold round_half_even
    split_ifs <;> omega
  have hy1 : ⌊y⌋ ≤ round_half_even y := by
    unfold round_half_even
    split_ifs <;> omega
  have hfl : ⌊x⌋ ≤ ⌊y⌋ := Int.floor_mono h
  rcases hfl.lt_or_eq with hlt | heq
  · omega
  · unfold round_half_even
    rw [← heq]
    have hxy : x - ⌊x⌋ ≤ y - ⌊x⌋ := by linarith
    split_ifs <;> first | omega | (exfalso; linarith)

/-- The exponent of the binade of a positive rational. -/
theorem log_eq_of_binade (x : ℚ) (E : Int) (h1 : (2 : ℚ) ^ E ≤ x) (h2 : x < (2 : ℚ) ^ (E + 1)) :
    Int.log 2 x = E := by
  have hx : 0 < x := lt_of_lt_of_le (by positivity) h1
  have a : E ≤ Int.log 2 x := by
    rw [← Int.zpow_le_iff_le_log (by norm_num) hx]
    exact_mod_cast h1
  have b : Int.log 2 x < E + 1 := by
    rw [← Int.lt_zpow_iff_log_lt (by norm_num) hx]
    exact_mod_cast h2
  omega

/-- A positive rational lies in the binade of its binary logarithm. -/
theorem binade_of_pos (x : ℚ) (hx : 0 < x) :
    (2 : ℚ) ^ (Int.log 2 x) ≤ x ∧ x < (2 : ℚ) ^ (Int.log 2 x + 1) := by
  have a : ((2 : Nat) : ℚ) ^ (Int.log 2 x) ≤ x := Int.zpow_log_le_self (by norm_num) hx
  have b : x < ((2 : Nat) : ℚ) ^ (Int.log 2 x + 1) :=
    Int.lt_zpow_succ_log_self (by norm_num) x
  exact ⟨by exact_mod_cast a, by exact_mod_cast b⟩

/-- Zero is a value of type float. -/
theorem f32_zero : f32 0 = 0 := by
  unfold f32
  simp

/-- The rounding of a value whose binade is known. -/
theorem f32_of_binade (x : ℚ) (E : Int) (h1 : (2 : ℚ) ^ E ≤ x) (h2 : x < (2 : ℚ) ^ (E + 1)) :
    f32 x = (round_half_even (x / 2 ^ (E - 23)) : ℚ) * 2 ^ (E - 23) := by
  have hx : 0 < x := lt_of_lt_of_le (by positivity) h1
  unfold f32
  rw [if_neg hx.ne', abs_of_pos hx, log_eq_of_binade x E h1 h2]

/-- The scaled significand of a positive rational lies between 2 ^ 23 and 2 ^ 24. -/
theorem significand_bounds (x : ℚ) (E : Int) (h1 : (2 : ℚ) ^ E ≤ x)
    (h2 : x < (2 : ℚ) ^ (E + 1)) :
    (2 : ℚ) ^ (23 : Nat) ≤ x / 2 ^ (E - 23) ∧ x / 2 ^ (E - 23) < (2 : ℚ) ^ (24 : Nat) := by
  have hp : (0 : ℚ) < 2 ^ (E - 23) := by positivity
  have e1 : (2 : ℚ) ^ E = 2 ^ (23 : Nat) * 2 ^ (E - 23) := by
    rw [← zpow_natCast, ← zpow_add₀ (by norm_num)]
    congr 1
    omega
  have e2 : (2 : ℚ) ^ (E + 1) = 2 ^ (24 : Nat) * 2 ^ (E - 23) := by
    rw [← zpow_natCast, ← zpow_add₀ (by norm_num)]
    congr 1
    omega
  constructor
  · rw [le_div_iff₀ hp, ← e1]
    exact h1
  · rw [div_lt_iff₀ hp, ← e2]
    exact h2

/-- Rounding keeps a positive value within its binade. -/
theorem f32_binade_bounds (x : ℚ) (E : Int) (h1 : (2 : ℚ) ^ E ≤ x)
    (h2 : x < (2 : ℚ) ^ (E + 1)) : (2 : ℚ) ^ E ≤ f32 x ∧ f32 x ≤ (2 : ℚ) ^ (E + 1) := by
  obtain ⟨s1, s2⟩ := significand_bounds x E h1 h2
  have hp : (0 : ℚ) < 2 ^ (E - 23) := by positivity
  have e1 : (2 : ℚ) ^ E = 2 ^ (23 : Nat) * 2 ^ (E - 23) := by
    rw [← zpow_natCast, ← zpow_add₀ (by norm_num)]
    congr 1
    omega
  have e2 : (2 : ℚ) ^ (E + 1) = 2 ^ (24 : Nat) * 2 ^ (E - 23) := by
    rw [← zpow_natCast, ← zpow_add₀ (by norm_num)]
    congr 1
    omega
  have r1 : ((2 ^ 23 : Int) : ℚ) ≤ (round_half_even (x / 2 ^ (E - 23)) : ℚ) := by
    have := round_half_even_mono ((2 ^ 23 : Int) : ℚ) (x / 2 ^ (E - 23))
      (by push_cast; exact s1)
    rw [round_half_even_int] at this
    exact_mod_cast this
  have r2 : (round_half_even (x / 2 ^ (E - 23)) : ℚ) ≤ ((2 ^ 24 : Int) : ℚ) := by
    have := round_half_even_mono (x / 2 ^ (E - 23)) ((2 ^ 24 : Int) : ℚ)
      (by push_cast; exact s2.le)
    rw [round_half_even_int] at this
    exact_mod_cast this
  rw [f32_of_binade x E h1 h2, e1, e2]
  push_cast at r1 r2
  exact ⟨mul_le_mul_of_nonneg_right r1 hp.le, mul_le_mul_of_nonneg_right r2 hp.le⟩

/-- Rounding a positive value gives a positive value. -/
theorem f32_pos (x : ℚ) (hx : 0 < x) : 0 < f32 x := by
  obtain ⟨h1, h2⟩ := binade_of_pos x hx
  exact lt_of_lt_of_le (by positivity) (f32_binade_bounds x _ h1 h2).1

/-- Rounding a non-negative value gives a non-negative value. -/
theorem f32_nonneg (x : ℚ) (hx : 0 ≤ x) : 0 ≤ f32 x := by
  rcases hx.lt_or_eq with h | h
  · exact (f32_pos x h).le
  · rw [← h, f32_zero]

/-- A value m * 2 ^ e with a significand m of at most 24 bits is a value of type
float. -/
theorem f32_dyadic (m : Nat) (e : Int) (hm : m ≤ 2 ^ 24) :
    f32 ((m : ℚ) * 2 ^ e) = (m : ℚ) * 2 ^ e := by
  rcases Nat.eq_zero_or_pos m with h0 | hpos
  · subst h0
    simp [f32_zero]
  · have hL1 : 2 ^ Nat.log 2 m ≤ m := Nat.pow_log_le_self 2 hpos.ne'
    have hL2 : m < 2 ^ (Nat.log 2 m + 1) := Nat.lt_pow_succ_log_self (by norm_num) m
    have hL : Nat.log 2 m ≤ 24 := by
      by_contra hc
      have : 2 ^ 25 ≤ 2 ^ Nat.log 2 m := Nat.pow_le_pow_right (by norm_num) (by omega)
      omega
    generalize Nat.log 2 m = L at *
    have hp : (0 : ℚ) < 2 ^ e := by positivity
    have h1 : (2 : ℚ) ^ ((L : Int) + e) ≤ (m : ℚ) * 2 ^ e := by
      rw [zpow_add₀ (by norm_num), zpow_natCast]
      apply mul_le_mul_of_nonneg_right _ hp.le
      exact_mod_cast hL1
    have h2 : (m : ℚ) * 2 ^ e < (2 : ℚ) ^ ((L : Int) + e + 1) := by
      have e3 : (L : Int) + e + 1 = ((L + 1 : Nat) : Int) + e := by push_cast; ring
      rw [e3, zpow_add₀ (by norm_num), zpow_natCast]
      apply mul_lt_mul_of_pos_right _ hp
      exact_mod_cast hL2
    rw [f32_of_binade _ _ h1 h2]
    rcases hL.lt_or_eq with hlt | heq
    · have e4 : (m : ℚ) * 2 ^ e / 2 ^ ((L : Int) + e - 23) = ((m * 2 ^ (23 - L) : Nat) : Int) := by
        rw [div_eq_iff (by positivity)]
        push_cast
        rw [mul_assoc, ← zpow_natCast, ← zpow_add₀ (by norm_num)]
        congr 2
        omega
      rw [e4, round_half_even_int]
      push_cast
      rw [mul_assoc, ← zpow_natCast, ← zpow_add₀ (by norm_num)]
      congr 2
      omega
    · subst heq
      have hm2 : m = 2 ^ 24 := by omega
      subst hm2
      have e4 : (((2 ^ 24 : Nat) : ℚ)) * 2 ^ e / 2 ^ (((24 : Nat) : Int) + e - 23) =
          ((2 ^ 23 : Nat) : Int) := by
        rw [div_eq_iff (by positivity)]
        push_cast
        have e5 : (24 : Int) + e - 23 = e + 1 := by omega
        rw [e5, zpow_add_one₀ (by norm_num)]
        ring
      rw [e4, round_half_even_int]
      push_cast
      have e5 : (24 : Int) + e - 23 = e + 1 := by omega
      rw [e5, zpow_add_one₀ (by norm_num)]
      ring

/-- Every value of type float is rounded to itself. -/
theorem f32_idem (x : ℚ) (hx : 0 ≤ x) : f32 (f32 x) = f32 x := by
  rcases hx.lt_or_eq with hpos | h0
  · obtain ⟨a1, a2⟩ := binade_of_pos x hpos
    obtain ⟨s1, s2⟩ := significand_bounds x _ a1 a2
    have r0 : (0 : Int) ≤ round_half_even (x / 2 ^ (Int.log 2 x - 23)) := by
      have := round_half_even_mono ((0 : Int) : ℚ) (x / 2 ^ (Int.log 2 x - 23))
        (by push_cast; linarith [pow_pos (by norm_num : (0 : ℚ) < 2) 23])
      rwa [round_half_even_int] at this
    have r2 : round_half_even (x / 2 ^ (Int.log 2 x - 23)) ≤ 2 ^ 24 := by
      have := round_half_even_mono (x / 2 ^ (Int.log 2 x - 23)) ((2 ^ 24 : Int) : ℚ)
        (by push_cast; exact s2.le)
      rwa [round_half_even_int] at this
    rw [f32_of_binade x _ a1 a2]
    generalize round_half_even (x / 2 ^ (Int.log 2 x - 23)) = r at *
    obtain ⟨m, rfl⟩ := Int.eq_ofNat_of_zero_le r0
    have := f32_dyadic m (Int.log 2 x - 23) (by omega)
    exact_mod_cast this
  · rw [← h0, f32_zero, f32_zero]

/-- What one iteration of the column loop of double_threshold stores at its pixel. -/
theorem double_threshold_body (dst src : Buf) (d : blurdetect) (width height j i : Int) :
    (if (src (j * width + i) : Int) > d.high then
        Function.update dst (j * width + i) (src (j * width + i))
      else if ¬(i = 0 ∨ i = width - 1 ∨ j = 0 ∨ j = height - 1) ∧
          (src (j * width + i) : Int) > d.low ∧
          ((src (j * width + (-width + i - 1)) : Int) > d.high ∨
            (src (j * width + (-width + i)) : Int) > d.high ∨
            (src (j * width + (-width + i + 1)) : Int) > d.high ∨
            (src (j * width + (i - 1)) : Int) > d.high ∨
            (src (j * width + (i + 1)) : Int) > d.high ∨
            (src (j * width + (width + i - 1)) : Int) > d.high ∨
            (src (j * width + (width + i)) : Int) > d.high ∨
            (src (j * width + (width + i + 1)) : Int) > d.high) then
        Function.update dst (j * width + i) (src (j * width + i))
      else
        Function.update dst (j * width + i) 0) =
    Function.update dst (j * width + i)
      (if (src (j * width + i) : Int) > d.high ∨
          (¬(i = 0 ∨ i = width - 1 ∨ j = 0 ∨ j = height - 1) ∧
          (src (j * width + i) : Int) > d.low ∧
          ((src (j * width + (-width + i - 1)) : Int) > d.high ∨
            (src (j * width + (-width + i)) : Int) > d.high ∨
            (src (j * width + (-width + i + 1)) : Int) > d.high ∨
            (src (j * width + (i - 1)) : Int) > d.high ∨
            (src (j * width + (i + 1)) : Int) > d.high ∨
            (src (j * width + (width + i - 1)) : Int) > d.high ∨
            (src (j * width + (width + i)) : Int) > d.high ∨
            (src (j * width + (width + i + 1)) : Int) > d.high)) then src (j * width + i)
        else 0) := by
  by_cases h1 : (src (j * width + i) : Int) > d.high
  · simp [h1]
  · simp only [h1, if_false, false_or]
    split_ifs <;> rfl

/-- The sample double_threshold leaves at pixel (i, j), as a formula over the source. -/
theorem double_threshold_read (dst src : Buf) (d : blurdetect) (width height i j : Int)
    (hi0 : 0 ≤ i) (hiw : i < width) (hj0 : 0 ≤ j) (hjh : j < height) :
    double_threshold dst src d width height (j * width + i) =
      (if (src (j * width + i) : Int) > d.high ∨
          (¬(i = 0 ∨ i = width - 1 ∨ j = 0 ∨ j = height - 1) ∧
          (src (j * width + i) : Int) > d.low ∧
          ((src (j * width + (-width + i - 1)) : Int) > d.high ∨
            (src (j * width + (-width + i)) : Int) > d.high ∨
            (src (j * width + (-width + i + 1)) : Int) > d.high ∨
            (src (j * width + (i - 1)) : Int) > d.high ∨
            (src (j * width + (i + 1)) : Int) > d.high ∨
            (src (j * width + (width + i - 1)) : Int) > d.high ∨
            (src (j * width + (width + i)) : Int) > d.high ∨
            (src (j * width + (width + i + 1)) : Int) > d.high)) then src (j * width + i)
        else 0) := by
  unfold double_threshold
  refine forLoop_at (fun b : Buf => b (j * width + i)) 0 height j _ (fun _ => _) dst hj0 hjh
    ?_ ?_
  · intro v s _ _ hne
    refine forLoop_frame (fun b : Buf => b (j * width + i)) 0 width _ s ?_
    intro u t hu0 huw
    simp only [double_threshold_body]
    exact Function.update_noteq (raster_ne_row width j i v u hi0 hiw hu0 huw (Ne.symm hne)) _ _
  · intro s
    refine forLoop_at (fun b : Buf => b (j * width + i)) 0 width i _ (fun _ => _) s hi0 hiw
      ?_ ?_
    · intro u t _ _ hne
      simp only [double_threshold_body]
      exact Function.update_noteq (raster_ne_col width j i u (Ne.symm hne)) _ _
    · intro t
      simp only [double_threshold_body]
      exact Function.update_same _ _ _

/-- The if-condition of double_threshold is the keep condition of the contract. -/
theorem threshold_keeps_iff (src : Buf) (d : blurdetect) (width height i j : Int)
    (hi0 : 0 ≤ i) (hiw : i < width) (hj0 : 0 ≤ j) (hjh : j < height) :
    ((src (j * width + i) : Int) > d.high ∨
          (¬(i = 0 ∨ i = width - 1 ∨ j = 0 ∨ j = height - 1) ∧
          (src (j * width + i) : Int) > d.low ∧
          ((src (j * width + (-width + i - 1)) : Int) > d.high ∨
            (src (j * width + (-width + i)) : Int) > d.high ∨
            (src (j * width + (-width + i + 1)) : Int) > d.high ∨
            (src (j * width + (i - 1)) : Int) > d.high ∨
            (src (j * width + (i + 1)) : Int) > d.high ∨
            (src (j * width + (width + i - 1)) : Int) > d.high ∨
            (src (j * width + (width + i)) : Int) > d.high ∨
            (src (j * width + (width + i + 1)) : Int) > d.high))) ↔
      threshold_keeps src d width height j i := by
  have e1 : j * width + (-width + i - 1) = (j + -1) * width + (i + -1) := by ring
  have e2 : j * width + (-width + i) = (j + -1) * width + (i + 0) := by ring
  have e3 : j * width + (-width + i + 1) = (j + -1) * width + (i + 1) := by ring
  have e4 : j * width + (i - 1) = (j + 0) * width + (i + -1) := by ring
  have e5 : j * width + (i + 1) = (j + 0) * width + (i + 1) := by ring
  have e6 : j * width + (width + i - 1) = (j + 1) * width + (i + -1) := by ring
  have e7 : j * width + (width + i) = (j + 1) * width + (i + 0) := by ring
  have e8 : j * width + (width + i + 1) = (j + 1) * width + (i + 1) := by ring
  have hint : ¬(i = 0 ∨ i = width - 1 ∨ j = 0 ∨ j = height - 1) ↔
      interior width height j i := by
    unfold interior
    constructor <;> intro h <;> omega
  rw [e1, e2, e3, e4, e5, e6, e7, e8, hint]
  simp only [threshold_keeps, strong_neighbour, neighbours8, sample, List.mem_cons,
    List.mem_singleton, exists_eq_or_imp, exists_eq_left, List.not_mem_nil, false_and,
    exists_false, or_false]

/-- The output sample of double_threshold in terms of the keep condition. -/
theorem double_threshold_sample (dst src : Buf) (d : blurdetect) (width height i j : Int)
    (hi : 0 ≤ i ∧ i < width) (hj : 0 ≤ j ∧ j < height) :
    sample (double_threshold dst src d width height) width j i =
      if threshold_keeps src d width height j i then sample src width j i else 0 := by
  have hread := double_threshold_read dst src d width height i j hi.1 hi.2 hj.1 hj.2
  rw [if_congr (threshold_keeps_iff src d width height i j hi.1 hi.2 hj.1 hj.2) rfl rfl]
    at hread
  exact hread

/-- A kept pixel is still kept when the output of double_threshold is thresholded
again. -/
theorem threshold_keeps_output (dst src : Buf) (d : blurdetect) (width height i j : Int)
    (hi : 0 ≤ i ∧ i < width) (hj : 0 ≤ j ∧ j < height)
    (h : threshold_keeps src d width height j i) :
    threshold_keeps (double_threshold dst src d width height) d width height j i := by
  have hp : sample (double_threshold dst src d width height) width j i =
      sample src width j i := by
    rw [double_threshold_sample dst src d width height i j hi hj, if_pos h]
  rcases h with h | ⟨hint, hlow, o, ho, hgt⟩
  · left
    rw [hp]
    exact h
  · right
    refine ⟨hint, by rw [hp]; exact hlow, o, ho, ?_⟩
    have hrange : (0 ≤ i + o.2 ∧ i + o.2 < width) ∧ (0 ≤ j + o.1 ∧ j + o.1 < height) := by
      unfold interior at hint
      simp only [neighbours8, List.mem_cons, List.mem_singleton, List.not_mem_nil,
        or_false] at ho
      rcases ho with e | e | e | e | e | e | e | e <;> subst e <;> simp only <;> omega
    have hq : threshold_keeps src d width height (j + o.1) (i + o.2) := Or.inl hgt
    rw [double_threshold_sample dst src d width height (i + o.2) (j + o.1) hrange.1
      hrange.2, if_pos hq]
    exact hgt

/-- C2. double_threshold, read from a source buffer distinct from its destination:
for every pixel of a width x height grid the output equals the input if the pixel is
kept (input > high, or interior with input > low and one of the 8 immediate neighbours
> high) and 0 in every other case; so a border pixel that is not > high is zeroed, and
so is a pixel that is not > high and whose 8 neighbours are all <= high, whatever
became of the weak pixels next to it. -/
theorem double_threshold_contract (dst src : Buf) (d : blurdetect) (width height i j : Int)
    (hi : 0 ≤ i ∧ i < width) (hj : 0 ≤ j ∧ j < height) :
    (threshold_keeps src d width height j i →
      sample (double_threshold dst src d width height) width j i = sample src width j i) ∧
    (¬ threshold_keeps src d width height j i →
      sample (double_threshold dst src d width height) width j i = 0) ∧
    (¬ interior width height j i → ¬ (sample src width j i : Int) > d.high →
      sample (double_threshold dst src d width height) width j i = 0) ∧
    (¬ (sample src width j i : Int) > d.high →
      (∀ o ∈ neighbours8, (sample src width (j + o.1) (i + o.2) : Int) ≤ d.high) →
      sample (double_threshold dst src d width height) width j i = 0) := by
  have hread := double_threshold_sample dst src d width height i j hi hj
  have hdrop : ¬ threshold_keeps src d width height j i →
      sample (double_threshold dst src d width height) width j i = 0 := by
    intro h
    rw [hread, if_neg h]
  refine ⟨fun h => by rw [hread, if_pos h], hdrop, ?_, ?_⟩
  · intro hb hs
    apply hdrop
    rintro (h | ⟨h, _⟩)
    · exact hs h
    · exact hb h
  · intro hs hn
    apply hdrop
    rintro (h | ⟨_, _, o, ho, hgt⟩)
    · exact hs h
    · exact absurd (hn o ho) (not_le.mpr hgt)

/-- C2, on plane_a: the strong pixel (1, 2) is kept. -/
theorem double_threshold_contract_witness :
    ((0 : Int) ≤ 2 ∧ (2 : Int) < 4) ∧ ((0 : Int) ≤ 1 ∧ (1 : Int) < 4) ∧
      sample (double_threshold (fun _ => 7) plane_a config_a 4 4) 4 1 2 = 200 :=
  ⟨by decide, by decide,
    (double_threshold_contract (fun _ => 7) plane_a config_a 4 4 2 1 (by decide)
      (by decide)).1 (Or.inl (by decide))⟩

/-- C10. double_threshold is idempotent: thresholding its own output again with the
same thresholds gives, at every pixel of the grid, exactly that output.  This holds
for all thresholds, in particular for 0 <= low <= high. -/
theorem double_threshold_idempotent (dst dst2 src : Buf) (d : blurdetect)
    (width height i j : Int) (hi : 0 ≤ i ∧ i < width) (hj : 0 ≤ j ∧ j < height) :
    sample (double_threshold dst2 (double_threshold dst src d width height) d width height)
        width j i =
      sample (double_threshold dst src d width height) width j i := by
  rw [double_threshold_sample dst2 _ d width height i j hi hj]
  split_ifs with h2
  · rfl
  · rw [double_threshold_sample dst src d width height i j hi hj]
    split_ifs with h1
    · exact absurd (threshold_keeps_output dst src d width height i j hi hj h1) h2
    · rfl

/-- C10, on plane_a: the weak pixel (1, 1) next to the strong one comes out of the
second pass as it came out of the first. -/
theorem double_threshold_idempotent_witness :
    ((0 : Int) ≤ 1 ∧ (1 : Int) < 4) ∧ ((0 : Int) ≤ 1 ∧ (1 : Int) < 4) ∧
      sample (double_threshold (fun _ => 3)
        (double_threshold (fun _ => 7) plane_a config_a 4 4) config_a 4 4) 4 1 1 =
      sample (double_threshold (fun _ => 7) plane_a config_a 4 4) 4 1 1 :=
  ⟨by decide, by decide,
    double_threshold_idempotent (fun _ => 7) (fun _ => 3) plane_a config_a 4 4 1 1
      (by decide) (by decide)⟩

/-! ## non_maximum_suppression -/

/-- One iteration of the column loop of non_maximum_suppression either stores the
clipped magnitude at its pixel or stores nothing. -/
theorem nms_body (bits : Nat) (dir src : Buf) (width : Int) (peak : Nat) (j i : Int)
    (hd : is_direction (sample dir width j i)) (dst : Buf) :
    (if dir (j * width + i) = DIRECTION_45UP then
        COPY_MAXIMA bits src (j * width) width peak 1 (-1) (-1) 1 i dst
      else if dir (j * width + i) = DIRECTION_45DOWN then
        COPY_MAXIMA bits src (j * width) width peak (-1) (-1) 1 1 i dst
      else if dir (j * width + i) = DIRECTION_HORIZONTAL then
        COPY_MAXIMA bits src (j * width) width peak 0 (-1) 0 1 i dst
      else if dir (j * width + i) = DIRECTION_VERTICAL then
        COPY_MAXIMA bits src (j * width) width peak (-1) 0 1 0 i dst
      else dst) =
    if strict_maximum dir src width j i then
      Function.update dst (j * width + i) (min (sample src width j i) peak % 2 ^ bits)
    else dst := by
  have e1 : j * width + (1 * width + i + -1) = (j + 1) * width + (i + -1) := by ring
  have e2 : j * width + (-1 * width + i + 1) = (j + -1) * width + (i + 1) := by ring
  have e3 : j * width + (-1 * width + i + -1) = (j + -1) * width + (i + -1) := by ring
  have e4 : j * width + (1 * width + i + 1) = (j + 1) * width + (i + 1) := by ring
  have e5 : j * width + (0 * width + i + -1) = (j + 0) * width + (i + -1) := by ring
  have e6 : j * width + (0 * width + i + 1) = (j + 0) * width + (i + 1) := by ring
  have e7 : j * width + (-1 * width + i + 0) = (j + -1) * width + (i + 0) := by ring
  have e8 : j * width + (1 * width + i + 0) = (j + 1) * width + (i + 0) := by ring
  unfold is_direction sample at hd
  unfold COPY_MAXIMA strict_maximum suppression_neighbours sample
  rw [e1, e2, e3, e4, e5, e6, e7, e8]
  rcases hd with h | h | h | h <;>
    simp [h, DIRECTION_45UP, DIRECTION_45DOWN, DIRECTION_HORIZONTAL, DIRECTION_VERTICAL]

/-- One iteration of the column loop of non_maximum_suppression changes no sample
other than the one of its pixel. -/
theorem nms_body_other (bits : Nat) (dir src : Buf) (width : Int) (peak : Nat) (j i : Int)
    (dst : Buf) (idx : Int) (hne : idx ≠ j * width + i) :
    (if dir (j * width + i) = DIRECTION_45UP then
        COPY_MAXIMA bits src (j * width) width peak 1 (-1) (-1) 1 i dst
      else if dir (j * width + i) = DIRECTION_45DOWN then
        COPY_MAXIMA bits src (j * width) width peak (-1) (-1) 1 1 i dst
      else if dir (j * width + i) = DIRECTION_HORIZONTAL then
        COPY_MAXIMA bits src (j * width) width peak 0 (-1) 0 1 i dst
      else if dir (j * width + i) = DIRECTION_VERTICAL then
        COPY_MAXIMA bits src (j * width) width peak (-1) 0 1 0 i dst
      else dst) idx = dst idx := by
  unfold COPY_MAXIMA
  split_ifs <;> first | rfl | exact Function.update_noteq hne _ _

/-- The sample non_maximum_suppression leaves at an interior pixel. -/
theorem nms_read_interior (bits : Nat) (dst dir src : Buf) (width height : Int) (peak : Nat)
    (i j : Int) (hint : interior width height j i)
    (hd : is_direction (sample dir width j i)) :
    sample (non_maximum_suppression bits dst dir src width height peak) width j i =
      if strict_maximum dir src width j i then min (sample src width j i) peak % 2 ^ bits
      else sample dst width j i := by
  unfold interior at hint
  unfold non_maximum_suppression
  show (fun b : Buf => b (j * width + i)) _ = _
  refine (forLoop_at (fun b : Buf => b (j * width + i)) 1 (height - 1) j _
    (fun x => if strict_maximum dir src width j i then
      min (sample src width j i) peak % 2 ^ bits else x) dst (by omega) (by omega) ?_ ?_)
  · intro v s _ _ hne
    refine forLoop_frame (fun b : Buf => b (j * width + i)) 1 (width - 1) _ s ?_
    intro u t hu0 huw
    exact nms_body_other bits dir src width peak v u t _
      (Ne.symm (raster_ne_row width v u j i (by omega) (by omega) (by omega) (by omega) hne))
  · intro s
    refine forLoop_at (fun b : Buf => b (j * width + i)) 1 (width - 1) i _
      (fun x => if strict_maximum dir src width j i then
        min (sample src width j i) peak % 2 ^ bits else x) s (by omega) (by omega) ?_ ?_
    · intro u t _ _ hne
      exact nms_body_other bits dir src width peak j u t _
        (Ne.symm (raster_ne_col width j u i hne))
    · intro t
      simp only [nms_body bits dir src width peak j i hd t]
      split_ifs
      · exact Function.update_same _ _ _
      · rfl

/-- Non_maximum_suppression stores nothing at a border pixel. -/
theorem nms_read_border (bits : Nat) (dst dir src : Buf) (width height : Int) (peak : Nat)
    (i j : Int) (hi : 0 ≤ i ∧ i < width) (hb : ¬ interior width height j i) :
    sample (non_maximum_suppression bits dst dir src width height peak) width j i =
      sample dst width j i := by
  unfold interior at hb
  unfold non_maximum_suppression
  show (fun b : Buf => b (j * width + i)) _ = _
  refine forLoop_frame (fun b : Buf => b (j * width + i)) 1 (height - 1) _ dst ?_
  intro v s hv0 hvh
  refine forLoop_frame (fun b : Buf => b (j * width + i)) 1 (width - 1) _ s ?_
  intro u t hu0 huw
  apply nms_body_other
  intro h
  have := raster_inj width j i v u hi.1 hi.2 (by omega) (by omega) h
  omega

/-- The output of non_maximum_suppression into a zeroed buffer at any pixel of the
grid: the clipped magnitude at an interior strict maximum, 0 elsewhere. -/
theorem nms_sample (bits : Nat) (dst dir src : Buf) (width height : Int) (peak : Nat)
    (i j : Int) (hi : 0 ≤ i ∧ i < width)
    (hzero : ∀ r c, sample dst width r c = 0)
    (hd : is_direction (sample dir width j i)) :
    sample (non_maximum_suppression bits dst dir src width height peak) width j i =
      if interior width height j i ∧ strict_maximum dir src width j i then
        min (sample src width j i) peak % 2 ^ bits
      else 0 := by
  by_cases hint : interior width height j i
  · rw [nms_read_interior bits dst dir src width height peak i j hint hd, hzero]
    simp only [hint, true_and]
  · rw [nms_read_border bits dst dir src width height peak i j hi hint, hzero]
    simp only [hint, false_and, if_false]

/-- C3. non_maximum_suppression on a zero-initialised destination, with every
direction value one of the four enumerators and a peak that fits the sample type:
at an interior pixel the output is min(magnitude, peak) if the magnitude is strictly
greater than the magnitudes of both neighbours selected by the direction, and 0
otherwise; at a border pixel the output is 0; and the output never exceeds the input
magnitude. -/
theorem non_maximum_suppression_contract (bits : Nat) (dst dir src : Buf)
    (width height : Int) (peak : Nat) (i j : Int)
    (hi : 0 ≤ i ∧ i < width) (hj : 0 ≤ j ∧ j < height)
    (hzero : ∀ r c, sample dst width r c = 0)
    (hdir : ∀ r c, is_direction (sample dir width r c))
    (hpeak : peak < 2 ^ bits) :
    (interior width height j i → strict_maximum dir src width j i →
      sample (non_maximum_suppression bits dst dir src width height peak) width j i =
        min (sample src width j i) peak) ∧
    (interior width height j i → ¬ strict_maximum dir src width j i →
      sample (non_maximum_suppression bits dst dir src width height peak) width j i = 0) ∧
    (¬ interior width height j i →
      sample (non_maximum_suppression bits dst dir src width height peak) width j i = 0) ∧
    sample (non_maximum_suppression bits dst dir src width height peak) width j i ≤
      sample src width j i := by
  have hs := nms_sample bits dst dir src width height peak i j hi hzero (hdir j i)
  have hmod : min (sample src width j i) peak % 2 ^ bits = min (sample src width j i) peak :=
    Nat.mod_eq_of_lt (lt_of_le_of_lt (min_le_right _ _) hpeak)
  have _ := hj
  refine ⟨fun h1 h2 => ?_, fun h1 h2 => ?_, fun h1 => ?_, ?_⟩
  · rw [hs, if_pos ⟨h1, h2⟩, hmod]
  · rw [hs, if_neg (fun h => h2 h.2)]
  · rw [hs, if_neg (fun h => h1 h.1)]
  · rw [hs]
    split_ifs
    · rw [hmod]
      exact min_le_left _ _
    · exact Nat.zero_le _

/-- C3, on plane_a with every direction HORIZONTAL: the magnitude 200 at (1, 2) exceeds
both horizontal neighbours and is stored unclipped. -/
theorem non_maximum_suppression_contract_witness :
    ((0 : Int) ≤ 2 ∧ (2 : Int) < 4) ∧ ((0 : Int) ≤ 1 ∧ (1 : Int) < 4) ∧ 255 < 2 ^ 8 ∧
      sample (non_maximum_suppression 8 (fun _ => 0) (fun _ => DIRECTION_HORIZONTAL)
        plane_a 4 4 255) 4 1 2 = 200 :=
  ⟨by decide, by decide, by decide,
    (non_maximum_suppression_contract 8 (fun _ => 0) (fun _ => DIRECTION_HORIZONTAL)
      plane_a 4 4 255 2 1 (by decide) (by decide) (fun _ _ => rfl)
      (fun _ _ => Or.inr (Or.inr (Or.inl rfl))) (by decide)).1 (by decide) (by decide)⟩

/-! ## gaussian_blur -/

/-- The weighted sum of the code is the kernel-weighted neighbourhood sum. -/
theorem gaussian_sum_eq (src : Buf) (src_pitch row col : Int) :
    gaussian_sum src (row * src_pitch) src_pitch col = neighbourhood_sum src src_pitch row col := by
  unfold gaussian_sum neighbourhood_sum
  simp only [List.range_succ, List.range_zero, List.nil_append, List.cons_append, List.map_cons,
    List.map_nil, List.sum_cons, List.sum_nil, kernel_weight, gaussian_kernel, sample,
    List.getD_cons_zero, List.getD_cons_succ]
  push_cast
  ring_nf

/-- Memcpy stores the source sample at every offset of the copied range. -/
theorem memcpy_read_in (dst src : Buf) (doff soff n c : Int) (hc0 : 0 ≤ c) (hcn : c < n) :
    memcpy dst doff src soff n (doff + c) = src (soff + c) := by
  unfold memcpy
  refine forLoop_at (fun b : Buf => b (doff + c)) 0 n c _ (fun _ => src (soff + c)) dst hc0 hcn
    ?_ ?_
  · intro v s _ _ hne
    exact Function.update_noteq (fun h => hne (by linarith)) _ _
  · intro s
    exact Function.update_same _ _ _

/-- Memcpy changes nothing outside the copied range. -/
theorem memcpy_read_out (dst src : Buf) (doff soff n idx : Int)
    (h : ∀ c, 0 ≤ c → c < n → idx ≠ doff + c) :
    memcpy dst doff src soff n idx = dst idx := by
  unfold memcpy
  refine forLoop_frame (fun b : Buf => b idx) 0 n _ dst ?_
  intro v s hv0 hvn
  exact Function.update_noteq (h v hv0 hvn) _ _

/-- An iteration of the row loop of gaussian_blur changes nothing outside its row. -/
theorem gaussian_row_out (bits : Nat) (src : Buf) (src_pitch width j : Int) (dst : Buf)
    (idx : Int) (hw : 2 ≤ width) (h : ∀ c, 0 ≤ c → c < width → idx ≠ j * width + c) :
    gaussian_row bits src src_pitch width j dst idx = dst idx := by
  unfold gaussian_row
  rw [Function.update_noteq (h (width - 1) (by omega) (by omega)),
    Function.update_noteq (h (width - 2) (by omega) (by omega))]
  rw [forLoop_frame (fun b : Buf => b idx) 2 (width - 2) _ _
    (fun v s hv0 hvn => Function.update_noteq (h v (by omega) (by omega)) _ _)]
  rw [Function.update_noteq (h 1 (by omega) (by omega)),
    Function.update_noteq (h 0 (by omega) (by omega))]

/-- What an iteration of the row loop of gaussian_blur stores in its row. -/
theorem gaussian_row_in (bits : Nat) (src : Buf) (src_pitch width j : Int) (dst : Buf)
    (c : Int) (hc0 : 0 ≤ c) (hcw : c < width) :
    gaussian_row bits src src_pitch width j dst (j * width + c) =
      if 2 ≤ c ∧ c < width - 2 then gaussian_sum src (j * src_pitch) src_pitch c / 159 % 2 ^ bits
      else src (j * src_pitch + c) := by
  unfold gaussian_row
  by_cases h4 : c = width - 1
  · subst h4
    rw [Function.update_same, if_neg (by omega)]
  rw [Function.update_noteq (raster_ne_col width j c (width - 1) h4)]
  by_cases h3 : c = width - 2
  · subst h3
    rw [Function.update_same, if_neg (by omega)]
  rw [Function.update_noteq (raster_ne_col width j c (width - 2) h3)]
  by_cases hin : 2 ≤ c ∧ c < width - 2
  · rw [if_pos hin]
    refine forLoop_at (fun b : Buf => b (j * width + c)) 2 (width - 2) c _
      (fun _ => gaussian_sum src (j * src_pitch) src_pitch c / 159 % 2 ^ bits) _ hin.1 hin.2
      ?_ ?_
    · intro v s _ _ hne
      exact Function.update_noteq (raster_ne_col width j c v (Ne.symm hne)) _ _
    · intro s
      exact Function.update_same _ _ _
  · rw [if_neg hin]
    rw [forLoop_frame (fun b : Buf => b (j * width + c)) 2 (width - 2) _ _
      (fun v s hv0 hvn => Function.update_noteq
        (raster_ne_col width j c v (by omega)) _ _)]
    by_cases h1 : c = 1
    · subst h1
      rw [Function.update_same]
    rw [Function.update_noteq (raster_ne_col width j c 1 h1)]
    have h0 : c = 0 := by omega
    subst h0
    rw [Function.update_same]

/-- The output of gaussian_blur at any pixel of a plane of at least 4 rows and 4
columns. -/
theorem gaussian_read (bits : Nat) (dst src : Buf) (src_pitch width height : Int)
    (row col : Int) (hw : 4 ≤ width) (hh : 4 ≤ height)
    (hc : 0 ≤ col ∧ col < width) (hr : 0 ≤ row ∧ row < height) :
    sample (gaussian_blur bits dst src src_pitch width height) width row col =
      if 2 ≤ row ∧ row < height - 2 ∧ 2 ≤ col ∧ col < width - 2 then
        gaussian_sum src (row * src_pitch) src_pitch col / 159 % 2 ^ bits
      else sample src src_pitch row col := by
  have hrows : (2 + ((height - 2 - 2).toNat : Int)) = height - 2 := by omega
  have hne : ∀ r : Int, r ≠ row → ∀ c, 0 ≤ c → c < width → row * width + col ≠ r * width + c :=
    fun r hr c hc0 hcw => raster_ne_row width row col r c hc.1 hc.2 hc0 hcw (Ne.symm hr)
  unfold gaussian_blur sample
  simp only [hrows]
  by_cases h5 : row = height - 2 + 1
  · subst h5
    rw [memcpy_read_in _ _ _ _ _ _ hc.1 hc.2, if_neg (by omega)]
  rw [memcpy_read_out _ _ _ _ _ _ (hne _ (Ne.symm h5))]
  by_cases h4 : row = height - 2
  · subst h4
    rw [memcpy_read_in _ _ _ _ _ _ hc.1 hc.2, if_neg (by omega)]
  rw [memcpy_read_out _ _ _ _ _ _ (hne _ (Ne.symm h4))]
  by_cases hin : 2 ≤ row
  · rw [forLoop_at (fun b : Buf => b (row * width + col)) 2 (height - 2) row _
      (fun _ => if 2 ≤ col ∧ col < width - 2 then
        gaussian_sum src (row * src_pitch) src_pitch col / 159 % 2 ^ bits
        else src (row * src_pitch + col)) _ hin (by omega)
      (fun v s _ _ hv => gaussian_row_out bits src src_pitch width v s _ (by omega)
        (hne v hv))
      (fun s => gaussian_row_in bits src src_pitch width row s col hc.1 hc.2)]
    have hr2 : row < height - 2 := by omega
    simp only [hin, hr2, true_and]
  · rw [forLoop_frame (fun b : Buf => b (row * width + col)) 2 (height - 2) _ _
      (fun v s hv0 _ => gaussian_row_out bits src src_pitch width v s _ (by omega)
        (hne v (by omega)))]
    rw [if_neg (by omega)]
    by_cases h1 : row = 1
    · subst h1
      have e1 : (1 : Int) * width + col = width + col := by ring
      have e2 : (1 : Int) * src_pitch + col = src_pitch + col := by ring
      rw [e1, e2, memcpy_read_in _ _ _ _ _ _ hc.1 hc.2]
    have h0 : row = 0 := by omega
    subst h0
    rw [memcpy_read_out _ _ _ _ _ _ (fun c hc0 hcw => by
      have := hne 1 (by omega) c hc0 hcw
      intro h; apply this; rw [h]; ring)]
    have e1 : (0 : Int) * width + col = 0 + col := by ring
    have e2 : (0 : Int) * src_pitch + col = 0 + col := by ring
    rw [e1, e2, memcpy_read_in _ _ _ _ _ _ hc.1 hc.2]

/-- A kernel-weighted sum of 25 values below B, divided by 159, is below B. -/
theorem weighted_quotient_lt (B s0 s1 s2 s3 s4 s5 s6 s7 s8 s9 s10 s11 s12 s13 s14 s15 s16 s17
    s18 s19 s20 s21 s22 s23 s24 : Nat)
    (h0 : s0 < B) (h1 : s1 < B) (h2 : s2 < B) (h3 : s3 < B) (h4 : s4 < B) (h5 : s5 < B)
    (h6 : s6 < B) (h7 : s7 < B) (h8 : s8 < B) (h9 : s9 < B) (h10 : s10 < B) (h11 : s11 < B)
    (h12 : s12 < B) (h13 : s13 < B) (h14 : s14 < B) (h15 : s15 < B) (h16 : s16 < B)
    (h17 : s17 < B) (h18 : s18 < B) (h19 : s19 < B) (h20 : s20 < B) (h21 : s21 < B)
    (h22 : s22 < B) (h23 : s23 < B) (h24 : s24 < B) :
    ((s0 + s1) * 2 + (s2 + s3) * 4 + (s4 + s5) * 5 + (s6 + s7) * 4 + (s8 + s9) * 2
      + (s10 + s11) * 4 + (s12 + s13) * 9 + (s14 + s15) * 12 + (s16 + s17) * 9
      + (s18 + s19) * 4 + s20 * 5 + s21 * 12 + s22 * 15 + s23 * 12 + s24 * 5) / 159 < B := by
  rw [Nat.div_lt_iff_lt_mul (by norm_num)]
  linarith

/-- The quotient stored by the column loop fits the sample type when the source
samples do, so narrowing it changes nothing. -/
theorem gaussian_quotient_fits (bits : Nat) (src : Buf) (src_pitch row col : Int)
    (hT : ∀ idx, src idx < 2 ^ bits) :
    gaussian_sum src (row * src_pitch) src_pitch col / 159 % 2 ^ bits =
      gaussian_sum src (row * src_pitch) src_pitch col / 159 :=
  Nat.mod_eq_of_lt (weighted_quotient_lt (2 ^ bits) _ _ _ _ _ _ _ _ _ _ _ _ _ _ _ _ _ _ _ _
    _ _ _ _ _
    (hT (row * src_pitch + (-2 * src_pitch + (col - 2))))
    (hT (row * src_pitch + (2 * src_pitch + (col - 2))))
    (hT (row * src_pitch + (-2 * src_pitch + (col - 1))))
    (hT (row * src_pitch + (2 * src_pitch + (col - 1))))
    (hT (row * src_pitch + (-2 * src_pitch + col)))
    (hT (row * src_pitch + (2 * src_pitch + col)))
    (hT (row * src_pitch + (-2 * src_pitch + (col + 1))))
    (hT (row * src_pitch + (2 * src_pitch + (col + 1))))
    (hT (row * src_pitch + (-2 * src_pitch + (col + 2))))
    (hT (row * src_pitch + (2 * src_pitch + (col + 2))))
    (hT (row * src_pitch + (-src_pitch + (col - 2))))
    (hT (row * src_pitch + (src_pitch + (col - 2))))
    (hT (row * src_pitch + (-src_pitch + (col - 1))))
    (hT (row * src_pitch + (src_pitch + (col - 1))))
    (hT (row * src_pitch + (-src_pitch + col)))
    (hT (row * src_pitch + (src_pitch + col)))
    (hT (row * src_pitch + (-src_pitch + (col + 1))))
    (hT (row * src_pitch + (src_pitch + (col + 1))))
    (hT (row * src_pitch + (-src_pitch + (col + 2))))
    (hT (row * src_pitch + (src_pitch + (col + 2))))
    (hT (row * src_pitch + (col - 2)))
    (hT (row * src_pitch + (col - 1)))
    (hT (row * src_pitch + col))
    (hT (row * src_pitch + (col + 1)))
    (hT (row * src_pitch + (col + 2))))

/-- C4. gaussian_blur on a plane of unsigned samples of the storage width, with
width >= 5 and height >= 5: at every interior pixel (2 <= row <= height - 3,
2 <= col <= width - 3) the output sample is floor(S / 159), S being the sum over the
5x5 neighbourhood of the input samples weighted by the kernel rows [2,4,5,4,2],
[4,9,12,9,4], [5,12,15,12,5], [4,9,12,9,4], [2,4,5,4,2], whose weights sum to 159. -/
theorem gaussian_blur_interior (bits : Nat) (dst src : Buf) (src_pitch width height : Int)
    (row col : Int) (hw : 5 ≤ width) (hh : 5 ≤ height)
    (hr : 2 ≤ row ∧ row ≤ height - 3) (hc : 2 ≤ col ∧ col ≤ width - 3)
    (hT : ∀ idx, src idx < 2 ^ bits) :
    sample (gaussian_blur bits dst src src_pitch width height) width row col =
        neighbourhood_sum src src_pitch row col / 159 ∧
      (gaussian_kernel.map List.sum).sum = 159 := by
  refine ⟨?_, by decide⟩
  rw [gaussian_read bits dst src src_pitch width height row col (by omega) (by omega)
    (by omega) (by omega), if_pos (by omega), gaussian_quotient_fits bits src src_pitch row col hT,
    gaussian_sum_eq]

/-- C4, on plane_b: the centre of the 5x5 plane carries weight 15 of 159. -/
theorem gaussian_blur_interior_witness :
    ((5 : Int) ≤ 5) ∧ ((2 : Int) ≤ 2 ∧ (2 : Int) ≤ 5 - 3) ∧
      sample (gaussian_blur 8 (fun _ => 0) plane_b 5 5 5) 5 2 2 = 15 :=
  ⟨by decide, by decide,
    (gaussian_blur_interior 8 (fun _ => 0) plane_b 5 5 5 2 2 (by decide) (by decide)
      (by decide) (by decide)
      (fun idx => by unfold plane_b; split_ifs <;> decide)).1⟩

/-- C5. gaussian_blur on a plane with width >= 5 and height >= 5: every pixel in the
outermost 2 rows or the outermost 2 columns has an output sample equal to its input
sample. -/
theorem gaussian_blur_border (bits : Nat) (dst src : Buf) (src_pitch width height : Int)
    (row col : Int) (hw : 5 ≤ width) (hh : 5 ≤ height)
    (hc : 0 ≤ col ∧ col < width) (hr : 0 ≤ row ∧ row < height)
    (hb : row < 2 ∨ row ≥ height - 2 ∨ col < 2 ∨ col ≥ width - 2) :
    sample (gaussian_blur bits dst src src_pitch width height) width row col =
      sample src src_pitch row col := by
  rw [gaussian_read bits dst src src_pitch width height row col (by omega) (by omega) hc hr,
    if_neg (by omega)]

/-- C5, on plane_a read as a 5x5 plane: the sample 200 of row 1, column 1 lies in the
second row and is copied. -/
theorem gaussian_blur_border_witness :
    ((5 : Int) ≤ 5) ∧ ((0 : Int) ≤ 1 ∧ (1 : Int) < 5) ∧
      ((1 : Int) < 2 ∨ (1 : Int) ≥ 5 - 2 ∨ (1 : Int) < 2 ∨ (1 : Int) ≥ 5 - 2) ∧
      sample (gaussian_blur 8 (fun _ => 0) plane_a 5 5 5) 5 1 1 = 200 :=
  ⟨by decide, by decide, by decide,
    gaussian_blur_border 8 (fun _ => 0) plane_a 5 5 5 1 1 (by decide) (by decide)
      (by decide) (by decide) (by decide)⟩

/-! ## get_rounded_direction -/

/-- Wrap32 leaves a value of absolute value below 2 ^ 31 unchanged. -/
theorem wrap32_eq (v : Int) (h : |v| < 2 ^ 31) : wrap32 v = v := by
  have h := abs_lt.mp h
  unfold wrap32
  norm_num at h ⊢
  omega

/-- Negating both gradient components does not change the direction. -/
theorem direction_neg (gx gy : Int) (d : blurdetect) (hx : |gx| < 2 ^ 31)
    (hy : |gy| < 2 ^ 31) :
    get_rounded_direction (-gx) (-gy) d = get_rounded_direction gx gy d := by
  have wx := wrap32_eq gx hx
  have wy := wrap32_eq gy hy
  have wnx := wrap32_eq (-gx) (by rwa [abs_neg])
  have wny := wrap32_eq (-gy) (by rwa [abs_neg])
  unfold get_rounded_direction
  rcases lt_trichotomy gx 0 with h | h | h
  · have h1 : ¬ (-gx < 0) := by omega
    have h2 : gx ≠ 0 := by omega
    have h3 : -gx ≠ 0 := by omega
    simp only [h, h1, h2, h3, ne_eq, not_false_eq_true, if_true, if_false, wnx, wny]
  · subst h
    simp
  · have h1 : -gx < 0 := by omega
    have h2 : gx ≠ 0 := by omega
    have h3 : -gx ≠ 0 := by omega
    have h4 : ¬ (gx < 0) := by omega
    simp only [h4, h1, h2, h3, ne_eq, not_false_eq_true, if_true, if_false, neg_neg, wx, wy]

/-- In the no-overflow range and for a positive gx, the function compares the exact
products. -/
theorem direction_pos (x y : Int) (d : blurdetect) (hx : 0 < x) (hno : no_overflow x y d) :
    get_rounded_direction x y d =
      if y * d.scale_coef > -(d.scale_coef2 * x) ∧ y * d.scale_coef < -(d.scale_coef1 * x) then
        DIRECTION_45UP
      else if y * d.scale_coef > -(d.scale_coef1 * x) ∧ y * d.scale_coef < d.scale_coef1 * x then
        DIRECTION_HORIZONTAL
      else if y * d.scale_coef > d.scale_coef1 * x ∧ y * d.scale_coef < d.scale_coef2 * x then
        DIRECTION_45DOWN
      else DIRECTION_VERTICAL := by
  obtain ⟨_, _, h3, h4, h5⟩ := hno
  have w3 := wrap32_eq _ h3
  have w4 := wrap32_eq _ h4
  have w5 := wrap32_eq _ h5
  have w6 := wrap32_eq (-(d.scale_coef1 * x)) (by rwa [abs_neg])
  have w7 := wrap32_eq (-(d.scale_coef2 * x)) (by rwa [abs_neg])
  have h1 : x ≠ 0 := by omega
  have h2 : ¬ (x < 0) := by omega
  unfold get_rounded_direction
  simp only [h1, h2, ne_eq, not_false_eq_true, if_true, if_false, w3, w4, w5, w6, w7]

/-- The band classification for a positive gx and a non-negative scale_coef1. -/
theorem direction_bands_pos (x y : Int) (d : blurdetect) (hx : 0 < x)
    (hc : 0 ≤ d.scale_coef1) (hno : no_overflow x y d) :
    (get_rounded_direction x y d = DIRECTION_45UP ↔
      -d.scale_coef2 * x < d.scale_coef * y ∧ d.scale_coef * y < -d.scale_coef1 * x) ∧
    (get_rounded_direction x y d = DIRECTION_HORIZONTAL ↔
      -d.scale_coef1 * x < d.scale_coef * y ∧ d.scale_coef * y < d.scale_coef1 * x) ∧
    (get_rounded_direction x y d = DIRECTION_45DOWN ↔
      d.scale_coef1 * x < d.scale_coef * y ∧ d.scale_coef * y < d.scale_coef2 * x) ∧
    (get_rounded_direction x y d = DIRECTION_VERTICAL ↔
      ¬(-d.scale_coef2 * x < d.scale_coef * y ∧ d.scale_coef * y < -d.scale_coef1 * x) ∧
      ¬(-d.scale_coef1 * x < d.scale_coef * y ∧ d.scale_coef * y < d.scale_coef1 * x) ∧
      ¬(d.scale_coef1 * x < d.scale_coef * y ∧ d.scale_coef * y < d.scale_coef2 * x)) := by
  have hP : 0 ≤ d.scale_coef1 * x := mul_nonneg hc hx.le
  rw [direction_pos x y d hx hno]
  have e1 : d.scale_coef * y = y * d.scale_coef := mul_comm _ _
  simp only [neg_mul, e1, DIRECTION_45UP, DIRECTION_45DOWN, DIRECTION_HORIZONTAL,
    DIRECTION_VERTICAL]
  generalize y * d.scale_coef = A at *
  generalize d.scale_coef1 * x = P at *
  generalize d.scale_coef2 * x = Q at *
  split_ifs <;> refine ⟨?_, ?_, ?_, ?_⟩ <;> constructor <;> intro h <;>
    first | exact False.elim h | omega

/-- The profiles built by Create_blurdetect have a positive scale_coef1. -/
theorem profile_scale_coef1_nonneg (bits_per_component : Int) (d : blurdetect) :
    0 ≤ (Create_blurdetect_profile bits_per_component d).scale_coef1 := by
  unfold Create_blurdetect_profile
  split_ifs <;> simp

/-- The no-overflow range is symmetric under negating both components. -/
theorem no_overflow_neg (gx gy : Int) (d : blurdetect) (h : no_overflow gx gy d) :
    no_overflow (-gx) (-gy) d := by
  unfold no_overflow at h ⊢
  simpa only [abs_neg, neg_mul, mul_neg] using h

/-- C6. get_rounded_direction in the no-overflow range, for each bit-depth profile
built by Create_blurdetect (s = scale_coef, c1 = scale_coef1, c2 = scale_coef2): if
gx = 0 the result is VERTICAL; otherwise, with (x, y) = (gx, gy) when gx > 0 and
(-gx, -gy) when gx < 0, the result is UP-DIAGONAL iff -c2*x < s*y < -c1*x, HORIZONTAL
iff -c1*x < s*y < c1*x, DOWN-DIAGONAL iff c1*x < s*y < c2*x, and VERTICAL iff s*y
lies in none of the three open bands. -/
theorem get_rounded_direction_bands (bits_per_component : Int) (d0 : blurdetect)
    (gx gy : Int)
    (hno : no_overflow gx gy (Create_blurdetect_profile bits_per_component d0)) :
    (gx = 0 →
      get_rounded_direction gx gy (Create_blurdetect_profile bits_per_component d0) =
        DIRECTION_VERTICAL) ∧
    (gx ≠ 0 →
      (get_rounded_direction gx gy (Create_blurdetect_profile bits_per_component d0) =
          DIRECTION_45UP ↔
        -(Create_blurdetect_profile bits_per_component d0).scale_coef2 * flip_x gx <
            (Create_blurdetect_profile bits_per_component d0).scale_coef * flip_y gx gy ∧
          (Create_blurdetect_profile bits_per_component d0).scale_coef * flip_y gx gy <
            -(Create_blurdetect_profile bits_per_component d0).scale_coef1 * flip_x gx) ∧
      (get_rounded_direction gx gy (Create_blurdetect_profile bits_per_component d0) =
          DIRECTION_HORIZONTAL ↔
        -(Create_blurdetect_profile bits_per_component d0).scale_coef1 * flip_x gx <
            (Create_blurdetect_profile bits_per_component d0).scale_coef * flip_y gx gy ∧
          (Create_blurdetect_profile bits_per_component d0).scale_coef * flip_y gx gy <
            (Create_blurdetect_profile bits_per_component d0).scale_coef1 * flip_x gx) ∧
      (get_rounded_direction gx gy (Create_blurdetect_profile bits_per_component d0) =
          DIRECTION_45DOWN ↔
        (Create_blurdetect_profile bits_per_component d0).scale_coef1 * flip_x gx <
            (Create_blurdetect_profile bits_per_component d0).scale_coef * flip_y gx gy ∧
          (Create_blurdetect_profile bits_per_component d0).scale_coef * flip_y gx gy <
            (Create_blurdetect_profile bits_per_component d0).scale_coef2 * flip_x gx) ∧
      (get_rounded_direction gx gy (Create_blurdetect_profile bits_per_component d0) =
          DIRECTION_VERTICAL ↔
        ¬(-(Create_blurdetect_profile bits_per_component d0).scale_coef2 * flip_x gx <
            (Create_blurdetect_profile bits_per_component d0).scale_coef * flip_y gx gy ∧
          (Create_blurdetect_profile bits_per_component d0).scale_coef * flip_y gx gy <
            -(Create_blurdetect_profile bits_per_component d0).scale_coef1 * flip_x gx) ∧
        ¬(-(Create_blurdetect_profile bits_per_component d0).scale_coef1 * flip_x gx <
            (Create_blurdetect_profile bits_per_component d0).scale_coef * flip_y gx gy ∧
          (Create_blurdetect_profile bits_per_component d0).scale_coef * flip_y gx gy <
            (Create_blurdetect_profile bits_per_component d0).scale_coef1 * flip_x gx) ∧
        ¬((Create_blurdetect_profile bits_per_component d0).scale_coef1 * flip_x gx <
            (Create_blurdetect_profile bits_per_component d0).scale_coef * flip_y gx gy ∧
          (Create_blurdetect_profile bits_per_component d0).scale_coef * flip_y gx gy <
            (Create_blurdetect_profile bits_per_component d0).scale_coef2 * flip_x gx))) := by
  have hc := profile_scale_coef1_nonneg bits_per_component d0
  generalize Create_blurdetect_profile bits_per_component d0 = d at *
  constructor
  · intro h
    subst h
    simp [get_rounded_direction]
  · intro h
    unfold flip_x flip_y
    by_cases hneg : gx < 0
    · simp only [hneg, if_true]
      rw [← direction_neg gx gy d hno.1 hno.2.1]
      exact direction_bands_pos (-gx) (-gy) d (by omega) hc (no_overflow_neg gx gy d hno)
    · simp only [hneg, if_false]
      exact direction_bands_pos gx gy d (by omega) hc hno

/-- C6, for the 8-bit profile: the gradient (10, 3) is classified HORIZONTAL. -/
theorem get_rounded_direction_bands_witness :
    no_overflow 10 3 (Create_blurdetect_profile 8 config_a) ∧
      get_rounded_direction 10 3 (Create_blurdetect_profile 8 config_a) =
        DIRECTION_HORIZONTAL :=
  ⟨by decide,
    ((get_rounded_direction_bands 8 config_a 10 3 (by decide)).2 (by decide)).2.1.mpr
      (by decide)⟩

/-- C9. get_rounded_direction is invariant under negating both gradient components:
for every record of scale coefficients (so for every bit-depth profile) and every
pair (gx, gy) in the no-overflow range, direction(gx, gy) = direction(-gx, -gy). -/
theorem get_rounded_direction_symmetric (d : blurdetect) (gx gy : Int)
    (hno : no_overflow gx gy d) :
    get_rounded_direction gx gy d = get_rounded_direction (-gx) (-gy) d :=
  (direction_neg gx gy d hno.1 hno.2.1).symm

/-- C9, for the 8-bit profile and the gradient (10, -10). -/
theorem get_rounded_direction_symmetric_witness :
    no_overflow 10 (-10) (Create_blurdetect_profile 8 config_a) ∧
      get_rounded_direction 10 (-10) (Create_blurdetect_profile 8 config_a) =
        get_rounded_direction (-10) (- -10) (Create_blurdetect_profile 8 config_a) :=
  ⟨by decide,
    get_rounded_direction_symmetric (Create_blurdetect_profile 8 config_a) 10 (-10)
      (by decide)⟩

/-! ## edge_width -/

/-- If the walk in direction -(dX, dY), entered with counter k0, would have to compare
a position outside the plane in a step k it can still take, and has not stopped
before, it returns early. -/
theorem edge_width_neg_none (src : Buf) (i j : Int) (dir : Nat) (w h : Int) (n : Nat) :
    ∀ k0 k : Int, k0 ≤ k → k < k0 + n →
      outside w h (i - (k + 1) * edge_dX dir) (j - (k + 1) * edge_dY dir) →
      (∀ k1, k0 ≤ k1 → k1 < k → slope_neg src i j dir w k1 > 0) →
      edge_width_neg src i j (edge_dX dir) (edge_dY dir) w h (edge_sign src i j dir w) n k0 =
        none := by
  induction n with
  | zero => intro k0 k h1 h2; exfalso; simp at h2; omega
  | succ n ih =>
    intro k0 k h1 h2 hout hgo
    unfold edge_width_neg
    simp only
    have ex : i - k0 * edge_dX dir - edge_dX dir = i - (k0 + 1) * edge_dX dir := by ring
    have ey : j - k0 * edge_dY dir - edge_dY dir = j - (k0 + 1) * edge_dY dir := by ring
    rw [ex, ey]
    by_cases hk : k = k0
    · subst hk
      exact if_pos hout
    · split_ifs with ho ht
      · rfl
      · exfalso
        have := hgo k0 le_rfl (by omega)
        unfold slope_neg sample at this
        omega
      · exact ih (k0 + 1) k (by omega) (by push_cast at h2; omega) hout
          (fun k1 hk1 hk1k => hgo k1 (by omega) hk1k)

/-- The same for the walk in direction +(dX, dY). -/
theorem edge_width_pos_none (src : Buf) (i j : Int) (dir : Nat) (w h : Int) (n : Nat) :
    ∀ k0 k : Int, k0 ≤ k → k < k0 + n →
      outside w h (i + (k + 1) * edge_dX dir) (j + (k + 1) * edge_dY dir) →
      (∀ k1, k0 ≤ k1 → k1 < k → slope_pos src i j dir w k1 < 0) →
      edge_width_pos src i j (edge_dX dir) (edge_dY dir) w h (edge_sign src i j dir w) n k0 =
        none := by
  induction n with
  | zero => intro k0 k h1 h2; exfalso; simp at h2; omega
  | succ n ih =>
    intro k0 k h1 h2 hout hgo
    unfold edge_width_pos
    simp only
    have ex : i + k0 * edge_dX dir + edge_dX dir = i + (k0 + 1) * edge_dX dir := by ring
    have ey : j + k0 * edge_dY dir + edge_dY dir = j + (k0 + 1) * edge_dY dir := by ring
    rw [ex, ey]
    by_cases hk : k = k0
    · subst hk
      exact if_pos hout
    · split_ifs with ho ht
      · rfl
      · exfalso
        have := hgo k0 le_rfl (by omega)
        unfold slope_pos sample at this
        omega
      · exact ih (k0 + 1) k (by omega) (by push_cast at h2; omega) hout
          (fun k1 hk1 hk1k => hgo k1 (by omega) hk1k)

/-- C7. edge_width on an interior pixel (i, j), any direction: if in the walk along
-(dX, dY) or in the walk along +(dX, dY) the next position to be compared lies outside
the plane in some step k < radius, and that walk has not stopped at a local extremum
in an earlier step, then edge_width returns 0, whatever the other walk finds. -/
theorem edge_width_leaves_plane (src : Buf) (i j : Int) (dir : Nat) (w h radius : Int)
    (hint : interior w h j i)
    (hexit :
      (∃ k : Int, 0 ≤ k ∧ k < radius ∧
        outside w h (i - (k + 1) * edge_dX dir) (j - (k + 1) * edge_dY dir) ∧
        ∀ k1, 0 ≤ k1 → k1 < k → slope_neg src i j dir w k1 > 0) ∨
      (∃ k : Int, 0 ≤ k ∧ k < radius ∧
        outside w h (i + (k + 1) * edge_dX dir) (j + (k + 1) * edge_dY dir) ∧
        ∀ k1, 0 ≤ k1 → k1 < k → slope_pos src i j dir w k1 < 0)) :
    edge_width src i j dir w h radius = 0 := by
  have _ := hint
  unfold edge_width
  rcases hexit with ⟨k, hk0, hkr, hout, hgo⟩ | ⟨k, hk0, hkr, hout, hgo⟩
  · simp only [edge_width_neg_none src i j dir w h radius.toNat 0 k hk0 (by omega) hout hgo]
  · simp only [edge_width_pos_none src i j dir w h radius.toNat 0 k hk0 (by omega) hout hgo]
    cases edge_width_neg src i j (edge_dX dir) (edge_dY dir) w h (edge_sign src i j dir w)
      radius.toNat 0 <;> rfl

/-- C7, on plane_c: from the interior pixel (3, 3) the walk to the left climbs down
the ramp for 3 steps and then faces column -1, so the width is 0. -/
theorem edge_width_leaves_plane_witness :
    interior 8 8 3 3 ∧
      outside 8 8 (3 - (3 + 1) * edge_dX DIRECTION_HORIZONTAL)
        (3 - (3 + 1) * edge_dY DIRECTION_HORIZONTAL) ∧
      edge_width plane_c 3 3 DIRECTION_HORIZONTAL 8 8 5 = 0 :=
  ⟨by decide, by decide,
    edge_width_leaves_plane plane_c 3 3 DIRECTION_HORIZONTAL 8 8 5 (by decide)
      (Or.inl ⟨3, by decide, by decide, by decide,
        fun k1 h0 h3 => by interval_cases k1 <;> decide⟩)⟩

/-! ## calculate_blur -/

/-- A loop from 0 is a fold over the list of its iteration numbers. -/
theorem forLoop_zero_eq {σ : Type} (n : Int) (body : Int → σ → σ) (s : σ) :
    forLoop 0 n body s = (List.range n.toNat).foldl (fun s (k : Nat) => body (k : Int) s) s := by
  unfold forLoop
  simp only [sub_zero, zero_add]

/-- A fold over a list produced row by row is a nest of two folds. -/
theorem foldl_flatMap_map {σ α β γ : Type} (l : List α) (m : List β) (f : α → β → γ)
    (step : σ → γ → σ) (s : σ) :
    (l.flatMap (fun a => m.map (fun b => f a b))).foldl step s =
      l.foldl (fun s a => m.foldl (fun s b => step s (f a b)) s) s := by
  induction l generalizing s with
  | nil => rfl
  | cons a t ih =>
    rw [List.flatMap_cons, List.foldl_append, List.foldl_cons, List.foldl_map]
    exact ih _

/-- Summing and counting the values above 0.001 in one pass. -/
theorem foldl_accumulate (l : List ℚ) (acc : ℚ × Nat) :
    l.foldl (fun (acc : ℚ × Nat) x =>
        if x > 1 / 1000 then (acc.1 + x, acc.2 + 1) else acc) acc =
      (acc.1 + (l.filter (fun x => decide (x > 1 / 1000))).sum,
        acc.2 + (l.filter (fun x => decide (x > 1 / 1000))).length) := by
  induction l generalizing acc with
  | nil => simp
  | cons x t ih =>
    rw [List.foldl_cons, ih]
    by_cases hx : x > 1 / 1000
    · simp only [hx, if_true, List.filter_cons, decide_True, List.sum_cons, List.length_cons]
      ext
      · simp only; ring
      · simp only; omega
    · simp only [hx, if_false, List.filter_cons, decide_False]
      simp

/-- Appending the values of the entries that pass a test, in one pass. -/
theorem foldl_collect {α : Type} (l : List α) (q : α → Prop) [DecidablePred q] (v : α → ℚ)
    (init : List ℚ) :
    l.foldl (fun blks b => if q b then blks ++ [v b] else blks) init =
      init ++ (l.filter (fun b => decide (q b))).map v := by
  induction l generalizing init with
  | nil => simp
  | cons x t ih =>
    rw [List.foldl_cons, ih]
    by_cases hx : q x
    · simp [hx]
    · simp [hx]

/-- The innermost statement of calculate_blur in terms of pixel_width. -/
theorem accumulate_step (dir dst src : Buf) (d : blurdetect) (width height i j : Int)
    (acc : ℚ × Nat) :
    (if dst (j * width + i) > 0 then
        if edge_width src i j (dir (j * width + i)) width height d.radius > 1 / 1000 then
          (acc.1 + edge_width src i j (dir (j * width + i)) width height d.radius, acc.2 + 1)
        else acc
      else acc) =
    if pixel_width dir dst src d width height i j > 1 / 1000 then
      (acc.1 + pixel_width dir dst src d width height i j, acc.2 + 1)
    else acc := by
  unfold pixel_width sample
  by_cases h : dst (j * width + i) > 0
  · simp only [h, if_true]
  · simp only [h, if_false]
    norm_num

/-- The two innermost loops compute the sum and the number of the block widths. -/
theorem block_accumulate_eq (dir dst src : Buf) (d : blurdetect) (width height : Int)
    (blkj blki : Int) :
    block_accumulate dir dst src d width height blkj blki =
      ((block_widths dir dst src d width height blkj blki).sum,
        (block_widths dir dst src d width height blkj blki).length) := by
  unfold block_accumulate block_widths
  simp only [forLoop_zero_eq, accumulate_step]
  rw [← foldl_flatMap_map (List.range (eff_block_height d height).toNat)
    (List.range (eff_block_width d width).toNat)
    (fun (inj ini : Nat) => pixel_width dir dst src d width height
      (blki * eff_block_width d width + (ini : Int))
      (blkj * eff_block_height d height + (inj : Int)))
    (fun (acc : ℚ × Nat) x => if x > 1 / 1000 then (acc.1 + x, acc.2 + 1) else acc) (0, 0)]
  rw [foldl_accumulate]
  simp

/-- The block loops store the values of the qualifying blocks, in order, each rounded
to float. -/
theorem block_scores_eq (dir dst src : Buf) (d : blurdetect) (width height : Int) :
    block_scores dir dst src d width height = stored_values dir dst src d width height := by
  unfold block_scores stored_values qualifying_values block_grid
  simp only [forLoop_zero_eq, block_accumulate_eq]
  rw [← foldl_flatMap_map (List.range (Int.tdiv height (eff_block_height d height)).toNat)
    (List.range (Int.tdiv width (eff_block_width d width)).toNat)
    (fun (blkj blki : Nat) => ((blkj : Int), (blki : Int)))
    (fun (blks : List ℚ) (b : Int × Int) =>
      if (block_widths dir dst src d width height b.1 b.2).sum ≥ 2 ∧
          (block_widths dir dst src d width height b.1 b.2).length ≠ 0 then
        blks ++ [f32 ((block_widths dir dst src d width height b.1 b.2).sum /
          ((block_widths dir dst src d width height b.1 b.2).length : ℚ))]
      else blks) []]
  refine (foldl_collect _ (fun b : Int × Int =>
    (block_widths dir dst src d width height b.1 b.2).sum ≥ 2 ∧
      (block_widths dir dst src d width height b.1 b.2).length ≠ 0)
    (fun b => f32 ((block_widths dir dst src d width height b.1 b.2).sum /
      ((block_widths dir dst src d width height b.1 b.2).length : ℚ))) []).trans ?_
  simp only [List.nil_append, List.map_map]
  unfold block_value block_qualifies
  congr 2
  funext b
  simp only [ne_eq, List.length_eq_zero, decide_eq_decide]
  exact and_comm

/-- The float sum of a list extended by one entry. -/
theorem float_sum_concat (l : List ℚ) (b : ℚ) :
    float_sum (l ++ [b]) = f32 (float_sum l + b) := by
  unfold float_sum
  rw [List.foldl_append]
  rfl

/-- The float sum of non-negative entries is non-negative. -/
theorem float_sum_nonneg (l : List ℚ) (h : ∀ b ∈ l, 0 ≤ b) : 0 ≤ float_sum l := by
  induction l using List.reverseRecOn with
  | nil => exact le_rfl
  | append_singleton l b ih =>
    rw [float_sum_concat]
    apply f32_nonneg
    have h1 := ih (fun x hx => h x (List.mem_append_left _ hx))
    have h2 := h b (List.mem_append_right _ (List.mem_singleton_self b))
    linarith

/-- The float sum of non-negative entries is a value of type float. -/
theorem float_sum_idem (l : List ℚ) (h : ∀ b ∈ l, 0 ≤ b) : f32 (float_sum l) = float_sum l := by
  rcases List.eq_nil_or_concat l with rfl | ⟨l2, b, rfl⟩
  · exact f32_zero
  · rw [List.concat_eq_append] at h ⊢
    rw [float_sum_concat]
    apply f32_idem
    have h1 := float_sum_nonneg l2 (fun x hx => h x (List.mem_append_left _ hx))
    have h2 := h b (List.mem_append_right _ (List.mem_singleton_self b))
    linarith

/-- The summation loop over the first n array cells computes the float sum of the
first n entries of the written part (cells beyond it hold 0). -/
theorem foldl_getD_float_sum (l : List ℚ) (hl : ∀ b ∈ l, 0 ≤ b) (n : Nat) :
    (List.range n).foldl (fun (t : ℚ) (k : Nat) => f32 (t + l.getD k 0)) 0 =
      float_sum (l.take n) := by
  induction n with
  | zero => simp [float_sum]
  | succ n ih =>
    rw [List.range_succ, List.foldl_append, ih]
    simp only [List.foldl_cons, List.foldl_nil]
    by_cases h : n < l.length
    · rw [List.take_succ, List.getD_eq_getElem l 0 h, List.getElem?_eq_getElem h]
      simp only [Option.toList_some]
      rw [float_sum_concat]
    · rw [List.take_of_length_le (by omega), List.take_of_length_le (by omega)]
      simp only [List.getD_eq_getElem?_getD]
      rw [List.getElem?_eq_none (by omega)]
      simp only [Option.getD_none, add_zero]
      exact float_sum_idem l hl

/-- The number of blocks kept by the cut is non-negative. -/
theorem kept_count_nonneg (count : Nat) (block_pct : Int) (h0 : 0 ≤ block_pct) :
    0 ≤ kept_count count block_pct := by
  unfold kept_count
  apply Int.ceil_nonneg
  apply f32_nonneg
  apply mul_nonneg (f32_nonneg _ (Nat.cast_nonneg _))
  apply f32_nonneg
  apply div_nonneg (f32_nonneg _ (by exact_mod_cast h0)) (by norm_num)

/-- The cut of an empty array keeps nothing. -/
theorem kept_count_zero (block_pct : Int) : kept_count 0 block_pct = 0 := by
  unfold kept_count
  simp [f32_zero]

/-- The cut keeps at least one block of a non-empty array when block_pct >= 1. -/
theorem kept_count_pos (count : Nat) (block_pct : Int) (hc : 0 < count) (h1 : 1 ≤ block_pct) :
    1 ≤ kept_count count block_pct := by
  unfold kept_count
  have a : (0 : ℚ) < f32 (count : ℚ) := f32_pos _ (Nat.cast_pos.mpr hc)
  have b : (0 : ℚ) < f32 (block_pct : ℚ) :=
    f32_pos _ (by exact_mod_cast (by omega : 0 < block_pct))
  have c : (0 : ℚ) < f32 (f32 (block_pct : ℚ) / 100) := f32_pos _ (by positivity)
  have e : (0 : ℚ) < f32 (f32 (count : ℚ) * f32 (f32 (block_pct : ℚ) / 100)) :=
    f32_pos _ (mul_pos a c)
  have := Int.ceil_pos.mpr e
  omega

/-- The pooling tail returns the float mean of the first k entries of the sorted
values, k being the count kept by the cut. -/
theorem pool_blocks_eq (blks : List ℚ) (block_pct : Int) (h0 : 0 ≤ block_pct)
    (hnn : ∀ b ∈ blks, 0 ≤ b) :
    pool_blocks blks block_pct =
      if (kept_count blks.length block_pct).toNat = 0 then 0
      else f32 (float_sum ((blks.insertionSort (fun a b => a ≤ b)).take
          (kept_count blks.length block_pct).toNat) /
        f32 (((kept_count blks.length block_pct).toNat : Nat) : ℚ)) := by
  have hk0 := kept_count_nonneg blks.length block_pct h0
  have hsn : ∀ b ∈ blks.insertionSort (fun a b => a ≤ b), 0 ≤ b := fun b hb =>
    hnn b ((List.perm_insertionSort _ blks).mem_iff.mp hb)
  unfold pool_blocks
  simp only [forLoop_zero_eq, Int.toNat_ofNat]
  rw [foldl_getD_float_sum _ hsn]
  generalize kept_count blks.length block_pct = k at *
  have hk : ((k.toNat : Nat) : Int) = k := Int.toNat_of_nonneg hk0
  have hz : k = 0 ↔ k.toNat = 0 := by omega
  have hq : (k : ℚ) = ((k.toNat : Nat) : ℚ) := by
    rw [← Int.cast_natCast, hk]
  simp only [hz, hq]

/-- Every qualifying block value is positive. -/
theorem qualifying_values_pos (dir dst src : Buf) (d : blurdetect) (width height : Int)
    (v : ℚ) (hv : v ∈ qualifying_values dir dst src d width height) : 0 < v := by
  unfold qualifying_values at hv
  rw [List.mem_map] at hv
  obtain ⟨b, hb, rfl⟩ := hv
  rw [List.mem_filter] at hb
  have hq : block_qualifies dir dst src d width height b.1 b.2 := of_decide_eq_true hb.2
  unfold block_qualifies at hq
  unfold block_value
  apply div_pos
  · linarith [hq.2]
  · exact Nat.cast_pos.mpr (List.length_pos.mpr hq.1)

/-- Every stored block value is positive. -/
theorem stored_values_pos (dir dst src : Buf) (d : blurdetect) (width height : Int)
    (v : ℚ) (hv : v ∈ stored_values dir dst src d width height) : 0 < v := by
  unfold stored_values at hv
  rw [List.mem_map] at hv
  obtain ⟨x, hx, rfl⟩ := hv
  exact f32_pos x (qualifying_values_pos dir dst src d width height x hx)

/-- With a non-empty plane and positive block dimensions calculate_blur returns the
pooled score of the stored block values. -/
theorem calculate_blur_some (dir dst src : Buf) (d : blurdetect) (width height : Int)
    (hplane : 0 ≤ width ∧ 0 ≤ height)
    (hblock : 0 < eff_block_width d width ∧ 0 < eff_block_height d height) :
    calculate_blur dir dst src d width height =
      some (pool_blocks (stored_values dir dst src d width height) d.block_pct) := by
  unfold calculate_blur
  have h1 : ¬ (eff_block_height d height = 0 ∨ eff_block_width d width = 0) := by omega
  have h2 : ¬ (Int.tdiv width (eff_block_width d width) *
      Int.tdiv height (eff_block_height d height) < 0) := by
    have a := Int.tdiv_nonneg hplane.1 hblock.1.le
    have b := Int.tdiv_nonneg hplane.2 hblock.2.le
    exact not_lt.mpr (mul_nonneg a b)
  simp only [h1, h2, if_false, block_scores_eq]

/-- No value is listed exactly when no block of the grid qualifies. -/
theorem qualifying_values_nil_iff (dir dst src : Buf) (d : blurdetect) (width height : Int) :
    qualifying_values dir dst src d width height = [] ↔
      ∀ b ∈ block_grid d width height,
        ¬ block_qualifies dir dst src d width height b.1 b.2 := by
  unfold qualifying_values
  rw [List.map_eq_nil_iff, List.filter_eq_nil_iff]
  simp only [decide_eq_true_eq]

/-- The float sum of a non-empty list of positive entries is positive. -/
theorem float_sum_pos (l : List ℚ) (hne : l ≠ []) (h : ∀ b ∈ l, 0 < b) : 0 < float_sum l := by
  rcases List.eq_nil_or_concat l with rfl | ⟨l2, b, rfl⟩
  · exact absurd rfl hne
  · rw [List.concat_eq_append] at h ⊢
    rw [float_sum_concat]
    apply f32_pos
    have h1 := float_sum_nonneg l2 (fun x hx => (h x (List.mem_append_left _ hx)).le)
    have h2 := h b (List.mem_append_right _ (List.mem_singleton_self b))
    linarith

/-- C8. On a non-empty plane with positive block dimensions and 1 <= block_pct <= 100
(block widths as exact rationals) calculate_blur returns a score that is non-negative
and is 0 if and only if no block qualifies; when some block qualifies, the percentile
cut keeps at least one block, computed exactly or in float as the code does, and the
score is strictly positive. -/
theorem calculate_blur_sign (dir dst src : Buf) (d : blurdetect) (width height : Int)
    (hpct : 1 ≤ d.block_pct ∧ d.block_pct ≤ 100)
    (hplane : 0 ≤ width ∧ 0 ≤ height)
    (hblock : 0 < eff_block_width d width ∧ 0 < eff_block_height d height) :
    ∃ score : ℚ, calculate_blur dir dst src d width height = some score ∧ 0 ≤ score ∧
      (score = 0 ↔ ∀ b ∈ block_grid d width height,
        ¬ block_qualifies dir dst src d width height b.1 b.2) ∧
      ((∃ b ∈ block_grid d width height,
          block_qualifies dir dst src d width height b.1 b.2) →
        1 ≤ ⌈((qualifying_values dir dst src d width height).length : ℚ) *
            (d.block_pct : ℚ) / 100⌉ ∧
        1 ≤ kept_count (qualifying_values dir dst src d width height).length d.block_pct ∧
        0 < score) := by
  have hsome := calculate_blur_some dir dst src d width height hplane hblock
  have hnn : ∀ b ∈ stored_values dir dst src d width height, 0 ≤ b :=
    fun b hb => (stored_values_pos dir dst src d width height b hb).le
  rw [pool_blocks_eq _ _ (by omega) hnn] at hsome
  have hlen : (stored_values dir dst src d width height).length =
      (qualifying_values dir dst src d width height).length := by
    unfold stored_values
    exact List.length_map _ _
  rw [hlen] at hsome
  have hnil := qualifying_values_nil_iff dir dst src d width height
  have hslen : ((stored_values dir dst src d width height).insertionSort
      (fun a b => a ≤ b)).length = (qualifying_values dir dst src d width height).length := by
    rw [List.length_insertionSort, hlen]
  refine ⟨_, hsome, ?_⟩
  by_cases hq : qualifying_values dir dst src d width height = []
  · rw [hq]
    simp only [List.length_nil, kept_count_zero, Int.toNat_zero, if_true]
    refine ⟨le_rfl, ⟨fun _ => hnil.mp hq, fun _ => trivial⟩, ?_⟩
    rintro ⟨b, hb, hbq⟩
    exact absurd hbq (hnil.mp hq b hb)
  · have hcount : 0 < (qualifying_values dir dst src d width height).length :=
      List.length_pos.mpr hq
    have hk := kept_count_pos _ d.block_pct hcount hpct.1
    have hceil : 1 ≤ ⌈((qualifying_values dir dst src d width height).length : ℚ) *
        (d.block_pct : ℚ) / 100⌉ := by
      have hp : (0 : ℚ) < (d.block_pct : ℚ) := by
        exact_mod_cast (by omega : 0 < d.block_pct)
      have hc : (0 : ℚ) < ((qualifying_values dir dst src d width height).length : ℚ) :=
        Nat.cast_pos.mpr hcount
      have : 0 < ⌈((qualifying_values dir dst src d width height).length : ℚ) *
          (d.block_pct : ℚ) / 100⌉ := Int.ceil_pos.mpr (by positivity)
      omega
    generalize kept_count (qualifying_values dir dst src d width height).length d.block_pct = k
      at *
    have hk2 : ¬ k.toNat = 0 := by omega
    rw [if_neg hk2]
    have hne : List.take k.toNat ((stored_values dir dst src d width height).insertionSort
        (fun a b => a ≤ b)) ≠ [] := by
      intro h
      have := congrArg List.length h
      rw [List.length_take, hslen] at this
      simp only [List.length_nil] at this
      omega
    have hmem : ∀ a ∈ List.take k.toNat
        ((stored_values dir dst src d width height).insertionSort (fun a b => a ≤ b)),
        0 < a := fun a ha =>
      stored_values_pos dir dst src d width height a
        (((List.perm_insertionSort _ _).mem_iff).mp (List.mem_of_mem_take ha))
    have hsum := float_sum_pos _ hne hmem
    have hkq : (0 : ℚ) < f32 ((k.toNat : Nat) : ℚ) := f32_pos _ (Nat.cast_pos.mpr (by omega))
    have hscore := f32_pos _ (div_pos hsum hkq)
    refine ⟨hscore.le, ⟨fun h0 => absurd h0 hscore.ne', fun hall => absurd (hnil.mpr hall) hq⟩,
      fun _ => ⟨hceil, hk, hscore⟩⟩

/-- C8, on the ramp plane_d with one surviving edge pixel of width 3: the score is
defined and non-negative. -/
theorem calculate_blur_sign_witness :
    (1 ≤ config_a.block_pct ∧ config_a.block_pct ≤ 100) ∧ ((0 : Int) ≤ 8 ∧ (0 : Int) ≤ 3) ∧
      (0 < eff_block_width config_a 8 ∧ 0 < eff_block_height config_a 3) ∧
      ∃ score : ℚ,
        calculate_blur (fun _ => DIRECTION_HORIZONTAL) edges_d plane_d config_a 8 3 =
          some score ∧ 0 ≤ score :=
  ⟨by decide, by decide, by decide,
    (calculate_blur_sign (fun _ => DIRECTION_HORIZONTAL) edges_d plane_d config_a 8 3
      (by decide) (by decide) (by decide)).imp (fun _ h => ⟨h.1, h.2.1⟩)⟩

/-! ## sobel -/

/-- The pair sobel stores at an interior pixel: magnitude and rounded direction. -/
theorem sobel_read_interior (dst dir src : Buf) (d : blurdetect) (width height i j : Int)
    (hint : interior width height j i) :
    (sample (sobel dst dir src d width height).1 width j i,
      sample (sobel dst dir src d width height).2 width j i) =
    ((|sobel_gx src (j * width) width i| + |sobel_gy src (j * width) width i|).toNat,
      get_rounded_direction (sobel_gx src (j * width) width i)
        (sobel_gy src (j * width) width i) d) := by
  unfold interior at hint
  unfold sobel sample
  refine forLoop_at (fun st : Buf × Buf => (st.1 (j * width + i), st.2 (j * width + i)))
    1 (height - 1) j _ (fun _ => _) (dst, dir) (by omega) (by omega) ?_ ?_
  · intro v s _ _ hne
    refine forLoop_frame (fun st : Buf × Buf => (st.1 (j * width + i), st.2 (j * width + i)))
      1 (width - 1) _ s ?_
    intro u t hu0 huw
    have hx := raster_ne_row width j i v u (by omega) (by omega) (by omega) (by omega)
      (Ne.symm hne)
    simp only [Function.update_noteq hx]
  · intro s
    refine forLoop_at (fun st : Buf × Buf => (st.1 (j * width + i), st.2 (j * width + i)))
      1 (width - 1) i _ (fun _ => _) s (by omega) (by omega) ?_ ?_
    · intro u t _ _ hne
      have hx := raster_ne_col width j i u (Ne.symm hne)
      simp only [Function.update_noteq hx]
    · intro t
      simp only [Function.update_same]

/-- Sobel stores nothing at a border pixel. -/
theorem sobel_read_border (dst dir src : Buf) (d : blurdetect) (width height i j : Int)
    (hi : 0 ≤ i ∧ i < width) (hb : ¬ interior width height j i) :
    (sample (sobel dst dir src d width height).1 width j i,
      sample (sobel dst dir src d width height).2 width j i) =
    (sample dst width j i, sample dir width j i) := by
  unfold interior at hb
  unfold sobel sample
  refine forLoop_frame (fun st : Buf × Buf => (st.1 (j * width + i), st.2 (j * width + i)))
    1 (height - 1) _ (dst, dir) ?_
  intro v s hv0 hvh
  refine forLoop_frame (fun st : Buf × Buf => (st.1 (j * width + i), st.2 (j * width + i)))
    1 (width - 1) _ s ?_
  intro u t hu0 huw
  have hx : j * width + i ≠ v * width + u := by
    intro h
    have := raster_inj width j i v u hi.1 hi.2 (by omega) (by omega) h
    omega
  simp only [Function.update_noteq hx]

/-- The two responses written in terms of the eight neighbours of the pixel. -/
theorem sobel_responses (src : Buf) (width i j : Int) :
    sobel_gx src (j * width) width i =
        -(sample src width (j - 1) (i - 1) : Int) + sample src width (j - 1) (i + 1)
          - 2 * sample src width j (i - 1) + 2 * sample src width j (i + 1)
          - sample src width (j + 1) (i - 1) + sample src width (j + 1) (i + 1) ∧
      sobel_gy src (j * width) width i =
        -(sample src width (j - 1) (i - 1) : Int) + sample src width (j + 1) (i - 1)
          - 2 * sample src width (j - 1) i + 2 * sample src width (j + 1) i
          - sample src width (j - 1) (i + 1) + sample src width (j + 1) (i + 1) := by
  have e1 : j * width + (-width + (i - 1)) = (j - 1) * width + (i - 1) := by ring
  have e2 : j * width + (-width + (i + 1)) = (j - 1) * width + (i + 1) := by ring
  have e3 : j * width + (-width + i) = (j - 1) * width + i := by ring
  have e4 : j * width + (width + (i - 1)) = (j + 1) * width + (i - 1) := by ring
  have e5 : j * width + (width + (i + 1)) = (j + 1) * width + (i + 1) := by ring
  have e6 : j * width + (width + i) = (j + 1) * width + i := by ring
  unfold sobel_gx sobel_gy sample
  rw [e1, e2, e3, e4, e5, e6]
  constructor <;> ring

/-- With all samples of the plane at most peak, the magnitude |gx| + |gy| of an
interior pixel is at most 6 * peak. -/
theorem sobel_abs_bound (src : Buf) (width height peak i j : Int)
    (hint : interior width height j i)
    (hs : ∀ r c, 0 ≤ r ∧ r < height → 0 ≤ c ∧ c < width → (sample src width r c : Int) ≤ peak) :
    |sobel_gx src (j * width) width i| + |sobel_gy src (j * width) width i| ≤ 6 * peak := by
  unfold interior at hint
  obtain ⟨hx, hy⟩ := sobel_responses src width i j
  have a1 := hs (j - 1) (i - 1) (by omega) (by omega)
  have a2 := hs (j - 1) i (by omega) (by omega)
  have a3 := hs (j - 1) (i + 1) (by omega) (by omega)
  have a4 := hs j (i - 1) (by omega) (by omega)
  have a5 := hs j (i + 1) (by omega) (by omega)
  have a6 := hs (j + 1) (i - 1) (by omega) (by omega)
  have a7 := hs (j + 1) i (by omega) (by omega)
  have a8 := hs (j + 1) (i + 1) (by omega) (by omega)
  have n1 : (0 : Int) ≤ sample src width (j - 1) (i - 1) := Int.ofNat_nonneg _
  have n2 : (0 : Int) ≤ sample src width (j - 1) i := Int.ofNat_nonneg _
  have n3 : (0 : Int) ≤ sample src width (j - 1) (i + 1) := Int.ofNat_nonneg _
  have n4 : (0 : Int) ≤ sample src width j (i - 1) := Int.ofNat_nonneg _
  have n5 : (0 : Int) ≤ sample src width j (i + 1) := Int.ofNat_nonneg _
  have n6 : (0 : Int) ≤ sample src width (j + 1) (i - 1) := Int.ofNat_nonneg _
  have n7 : (0 : Int) ≤ sample src width (j + 1) i := Int.ofNat_nonneg _
  have n8 : (0 : Int) ≤ sample src width (j + 1) (i + 1) := Int.ofNat_nonneg _
  generalize sobel_gx src (j * width) width i = gx at hx ⊢
  generalize sobel_gy src (j * width) width i = gy at hy ⊢
  rcases abs_cases gx with ⟨e1, _⟩ | ⟨e1, _⟩ <;> rcases abs_cases gy with ⟨e2, _⟩ | ⟨e2, _⟩ <;>
    rw [e1, e2] <;> omega

/-- With all samples of the plane at most peak, each of the two responses of an
interior pixel has absolute value at most 4 * peak. -/
theorem sobel_component_bound (src : Buf) (width height peak i j : Int)
    (hint : interior width height j i)
    (hs : ∀ r c, 0 ≤ r ∧ r < height → 0 ≤ c ∧ c < width → (sample src width r c : Int) ≤ peak) :
    |sobel_gx src (j * width) width i| ≤ 4 * peak ∧
      |sobel_gy src (j * width) width i| ≤ 4 * peak := by
  unfold interior at hint
  obtain ⟨hx, hy⟩ := sobel_responses src width i j
  have a1 := hs (j - 1) (i - 1) (by omega) (by omega)
  have a2 := hs (j - 1) i (by omega) (by omega)
  have a3 := hs (j - 1) (i + 1) (by omega) (by omega)
  have a4 := hs j (i - 1) (by omega) (by omega)
  have a5 := hs j (i + 1) (by omega) (by omega)
  have a6 := hs (j + 1) (i - 1) (by omega) (by omega)
  have a7 := hs (j + 1) i (by omega) (by omega)
  have a8 := hs (j + 1) (i + 1) (by omega) (by omega)
  have n1 : (0 : Int) ≤ sample src width (j - 1) (i - 1) := Int.ofNat_nonneg _
  have n2 : (0 : Int) ≤ sample src width (j - 1) i := Int.ofNat_nonneg _
  have n3 : (0 : Int) ≤ sample src width (j - 1) (i + 1) := Int.ofNat_nonneg _
  have n4 : (0 : Int) ≤ sample src width j (i - 1) := Int.ofNat_nonneg _
  have n5 : (0 : Int) ≤ sample src width j (i + 1) := Int.ofNat_nonneg _
  have n6 : (0 : Int) ≤ sample src width (j + 1) (i - 1) := Int.ofNat_nonneg _
  have n7 : (0 : Int) ≤ sample src width (j + 1) i := Int.ofNat_nonneg _
  have n8 : (0 : Int) ≤ sample src width (j + 1) (i + 1) := Int.ofNat_nonneg _
  generalize sobel_gx src (j * width) width i = gx at hx ⊢
  generalize sobel_gy src (j * width) width i = gy at hy ⊢
  constructor
  · rw [abs_le]; omega
  · rw [abs_le]; omega

/-- C11, refuted as stated: on the 3x3 plane plane_e, whose samples lie in [0, 255],
sobel writes the magnitude 1530 = 6 * 255 at the interior pixel (1, 1), which exceeds
4 * 255. -/
theorem sobel_magnitude_exceeds_four_peak :
    (∀ r c : Int, sample plane_e 3 r c ≤ 255) ∧ interior 3 3 1 1 ∧
      sample (sobel zero_buf zero_buf plane_e config_a 3 3).1 3 1 1 = 1530 ∧
      ¬ (sample (sobel zero_buf zero_buf plane_e config_a 3 3).1 3 1 1 ≤ 4 * 255) := by
  refine ⟨fun r c => ?_, by decide, by decide, by decide⟩
  unfold sample plane_e
  split_ifs <;> decide

/-- C11, amended. For every plane whose samples lie in [0, peak] and every interior
pixel, the gradient magnitude written by sobel is |gx| + |gy|, is >= 0 and is bounded
by 6 * peak, and each of |gx| and |gy| alone is bounded by 4 * peak. -/
theorem sobel_magnitude_bound (dst dir src : Buf) (d : blurdetect) (width height : Int)
    (peak : Nat) (i j : Int) (hint : interior width height j i)
    (hs : ∀ r c, 0 ≤ r ∧ r < height → 0 ≤ c ∧ c < width → sample src width r c ≤ peak) :
    (sample (sobel dst dir src d width height).1 width j i : Int) =
        |sobel_gx src (j * width) width i| + |sobel_gy src (j * width) width i| ∧
      0 ≤ |sobel_gx src (j * width) width i| + |sobel_gy src (j * width) width i| ∧
      sample (sobel dst dir src d width height).1 width j i ≤ 6 * peak ∧
      |sobel_gx src (j * width) width i| ≤ 4 * (peak : Int) ∧
      |sobel_gy src (j * width) width i| ≤ 4 * (peak : Int) := by
  have hread := congrArg Prod.fst (sobel_read_interior dst dir src d width height i j hint)
  simp only at hread
  have hnn : 0 ≤ |sobel_gx src (j * width) width i| + |sobel_gy src (j * width) width i| :=
    add_nonneg (abs_nonneg _) (abs_nonneg _)
  have hb := sobel_abs_bound src width height (peak : Int) i j hint
    (fun r c hr hc => by exact_mod_cast hs r c hr hc)
  have hc := sobel_component_bound src width height (peak : Int) i j hint
    (fun r c hr hc => by exact_mod_cast hs r c hr hc)
  refine ⟨?_, hnn, ?_, hc.1, hc.2⟩
  · rw [hread]
    exact Int.toNat_of_nonneg hnn
  · rw [hread]
    omega

/-- C11 amended, on plane_e: at (1, 1) the magnitude is within 6 * 255, which it
reaches, and each response is within 4 * 255. -/
theorem sobel_magnitude_bound_witness :
    interior 3 3 1 1 ∧
      sample (sobel zero_buf zero_buf plane_e config_a 3 3).1 3 1 1 ≤ 6 * 255 ∧
      |sobel_gx plane_e (1 * 3) 3 1| ≤ 4 * 255 ∧ |sobel_gy plane_e (1 * 3) 3 1| ≤ 4 * 255 :=
  ⟨by decide,
    (sobel_magnitude_bound zero_buf zero_buf plane_e config_a 3 3 255 1 1 (by decide)
      (fun r c _ _ => by unfold sample plane_e; split_ifs <;> decide)).2.2⟩

/-! ## double_threshold in place -/

/-- Induction along a fold over the first n numbers. -/
theorem foldl_range_ind {σ : Type} (P : Nat → σ → Prop) (f : σ → Nat → σ) (n : Nat) (s : σ)
    (h0 : P 0 s) (hstep : ∀ k s, k < n → P k s → P (k + 1) (f s k)) :
    P n ((List.range n).foldl f s) := by
  induction n with
  | zero => simpa using h0
  | succ n ih =>
    rw [List.range_succ, List.foldl_append]
    simp only [List.foldl_cons, List.foldl_nil]
    exact hstep n _ (Nat.lt_succ_self n)
      (ih (fun k s hk hP => hstep k s (Nat.lt_succ_of_lt hk) hP))

/-- An invariant indexed by the loop variable: if it holds on entry and every
iteration carries it from v to v + 1, it holds on exit with v = hi. -/
theorem forLoop_ind {σ : Type} (P : Int → σ → Prop) (lo hi : Int) (body : Int → σ → σ)
    (s : σ) (hle : lo ≤ hi) (h0 : P lo s)
    (hstep : ∀ v s, lo ≤ v → v < hi → P v s → P (v + 1) (body v s)) :
    P hi (forLoop lo hi body s) := by
  unfold forLoop
  have key := foldl_range_ind (fun k t => P (lo + (k : Int)) t)
    (fun (s : σ) (k : Nat) => body (lo + (k : Int)) s) (hi - lo).toNat s
    (by simpa using h0)
    (fun k t hk hP => by
      have := hstep (lo + (k : Int)) t (by omega) (by omega) hP
      simpa [add_assoc] using this)
  have e : lo + (((hi - lo).toNat : Nat) : Int) = hi := by omega
  simpa only [e] using key

/-- Whether a sample exceeds high is not changed by thresholding it. -/
theorem threshold_value_strong_iff (src : Buf) (d : blurdetect) (width height r c : Int) :
    (threshold_value src d width height r c : Int) > d.high ↔
      (sample src width r c : Int) > d.high := by
  unfold threshold_value
  by_cases hk : threshold_keeps src d width height r c
  · rw [if_pos hk]
  · rw [if_neg hk]
    have hn : ¬ (sample src width r c : Int) > d.high := fun h => hk (Or.inl h)
    have h0 : (0 : Int) ≤ (sample src width r c : Int) := Int.ofNat_nonneg _
    constructor
    · intro h
      exfalso
      simp only [Nat.cast_zero] at h
      omega
    · intro h
      exact absurd h hn

/-- The state of the in-place run when it is about to process the pixel (j, i): the
pixels before it in raster order hold their thresholded value, all others the
input. -/
theorem inplace_step (buf s : Buf) (d : blurdetect) (width height i j : Int)
    (hi : 0 ≤ i ∧ i < width)
    (hinv : ∀ r c, 0 ≤ c → c < width → sample s width r c =
      if (0 ≤ r ∧ r < j) ∨ (r = j ∧ c < i) then threshold_value buf d width height r c
      else sample buf width r c) :
    threshold_value s d width height j i = threshold_value buf d width height j i := by
  have hown : sample s width j i = sample buf width j i := by
    rw [hinv j i hi.1 hi.2, if_neg (by omega)]
  have hnb : interior width height j i →
      (strong_neighbour s d.high width j i ↔ strong_neighbour buf d.high width j i) := by
    intro hint
    unfold interior at hint
    unfold strong_neighbour
    constructor
    · rintro ⟨o, ho, hgt⟩
      refine ⟨o, ho, ?_⟩
      have hc : 0 ≤ i + o.2 ∧ i + o.2 < width := by
        simp only [neighbours8, List.mem_cons, List.mem_singleton, List.not_mem_nil,
          or_false] at ho
        rcases ho with e | e | e | e | e | e | e | e <;> subst e <;> simp only <;> omega
      rw [hinv _ _ hc.1 hc.2] at hgt
      split_ifs at hgt
      · exact (threshold_value_strong_iff buf d width height _ _).mp hgt
      · exact hgt
    · rintro ⟨o, ho, hgt⟩
      refine ⟨o, ho, ?_⟩
      have hc : 0 ≤ i + o.2 ∧ i + o.2 < width := by
        simp only [neighbours8, List.mem_cons, List.mem_singleton, List.not_mem_nil,
          or_false] at ho
        rcases ho with e | e | e | e | e | e | e | e <;> subst e <;> simp only <;> omega
      rw [hinv _ _ hc.1 hc.2]
      split_ifs
      · exact (threshold_value_strong_iff buf d width height _ _).mpr hgt
      · exact hgt
  have hkeep : threshold_keeps s d width height j i ↔ threshold_keeps buf d width height j i := by
    unfold threshold_keeps
    rw [hown]
    constructor
    · rintro (h | ⟨h1, h2, h3⟩)
      · exact Or.inl h
      · exact Or.inr ⟨h1, h2, (hnb h1).mp h3⟩
    · rintro (h | ⟨h1, h2, h3⟩)
      · exact Or.inl h
      · exact Or.inr ⟨h1, h2, (hnb h1).mpr h3⟩
  unfold threshold_value
  rw [hown]
  by_cases hk : threshold_keeps buf d width height j i
  · rw [if_pos hk, if_pos (hkeep.mpr hk)]
  · rw [if_neg hk, if_neg (fun h => hk (hkeep.mp h))]

/-- One iteration of the in-place loop stores the thresholded value of the current
state at its pixel. -/
theorem inplace_body_eq (t : Buf) (d : blurdetect) (width height i j : Int)
    (hi : 0 ≤ i ∧ i < width) (hj : 0 ≤ j ∧ j < height) :
    (if (t (j * width + i) : Int) > d.high then
        Function.update t (j * width + i) (t (j * width + i))
      else if ¬(i = 0 ∨ i = width - 1 ∨ j = 0 ∨ j = height - 1) ∧
          (t (j * width + i) : Int) > d.low ∧
          ((t (j * width + (-width + i - 1)) : Int) > d.high ∨
            (t (j * width + (-width + i)) : Int) > d.high ∨
            (t (j * width + (-width + i + 1)) : Int) > d.high ∨
            (t (j * width + (i - 1)) : Int) > d.high ∨
            (t (j * width + (i + 1)) : Int) > d.high ∨
            (t (j * width + (width + i - 1)) : Int) > d.high ∨
            (t (j * width + (width + i)) : Int) > d.high ∨
            (t (j * width + (width + i + 1)) : Int) > d.high) then
        Function.update t (j * width + i) (t (j * width + i))
      else
        Function.update t (j * width + i) 0) =
    Function.update t (j * width + i) (threshold_value t d width height j i) := by
  rw [double_threshold_body t t d width height j i,
    if_congr (threshold_keeps_iff t d width height i j hi.1 hi.2 hj.1 hj.2) rfl rfl]
  rfl

/-- The result of the in-place run: every pixel of the grid holds the thresholded
value of the input, every other row is untouched. -/
theorem double_threshold_inplace_inv (buf : Buf) (d : blurdetect) (width height : Int)
    (hw : 0 ≤ width) (hh : 0 ≤ height) :
    ∀ r c, 0 ≤ c → c < width →
      sample (double_threshold_inplace buf d width height) width r c =
        if 0 ≤ r ∧ r < height then threshold_value buf d width height r c
        else sample buf width r c := by
  unfold double_threshold_inplace
  refine forLoop_ind (fun j s => ∀ r c, 0 ≤ c → c < width → sample s width r c =
    if 0 ≤ r ∧ r < j then threshold_value buf d width height r c else sample buf width r c)
    0 height _ buf hh ?_ ?_
  · intro r c _ _
    rw [if_neg (by omega)]
  · intro j s hj0 hjh hP
    have hQ := forLoop_ind (fun i t => ∀ r c, 0 ≤ c → c < width → sample t width r c =
      if (0 ≤ r ∧ r < j) ∨ (r = j ∧ c < i) then threshold_value buf d width height r c
      else sample buf width r c) 0 width
      (fun i t =>
        if (t (j * width + i) : Int) > d.high then
          Function.update t (j * width + i) (t (j * width + i))
        else if ¬(i = 0 ∨ i = width - 1 ∨ j = 0 ∨ j = height - 1) ∧
            (t (j * width + i) : Int) > d.low ∧
            ((t (j * width + (-width + i - 1)) : Int) > d.high ∨
              (t (j * width + (-width + i)) : Int) > d.high ∨
              (t (j * width + (-width + i + 1)) : Int) > d.high ∨
              (t (j * width + (i - 1)) : Int) > d.high ∨
              (t (j * width + (i + 1)) : Int) > d.high ∨
              (t (j * width + (width + i - 1)) : Int) > d.high ∨
              (t (j * width + (width + i)) : Int) > d.high ∨
              (t (j * width + (width + i + 1)) : Int) > d.high) then
          Function.update t (j * width + i) (t (j * width + i))
        else
          Function.update t (j * width + i) 0) s hw
      (by
        intro r c hc0 hcw
        rw [hP r c hc0 hcw]
        have e : ((0 ≤ r ∧ r < j) ∨ (r = j ∧ c < 0)) ↔ (0 ≤ r ∧ r < j) := by omega
        simp only [e])
      (by
        intro i t hi0 hiw hInv r c hc0 hcw
        beta_reduce
        rw [inplace_body_eq t d width height i j ⟨hi0, hiw⟩ ⟨hj0, hjh⟩,
          inplace_step buf t d width height i j ⟨hi0, hiw⟩ hInv]
        unfold sample
        by_cases hrc : r = j ∧ c = i
        · obtain ⟨rfl, rfl⟩ := hrc
          rw [Function.update_same, if_pos (by omega)]
        · have hne : r * width + c ≠ j * width + i := fun h =>
            hrc (raster_inj width r c j i hc0 hcw hi0 hiw h)
          rw [Function.update_noteq hne]
          have := hInv r c hc0 hcw
          unfold sample at this
          rw [this]
          have e : ((0 ≤ r ∧ r < j) ∨ (r = j ∧ c < i + 1)) ↔
              ((0 ≤ r ∧ r < j) ∨ (r = j ∧ c < i)) := by omega
          simp only [e])
    intro r c hc0 hcw
    rw [hQ r c hc0 hcw]
    have e : ((0 ≤ r ∧ r < j) ∨ (r = j ∧ c < width)) ↔ (0 ≤ r ∧ r < j + 1) := by omega
    simp only [e]

/-- The output of the in-place run at a pixel of the grid. -/
theorem double_threshold_inplace_sample (buf : Buf) (d : blurdetect) (width height i j : Int)
    (hi : 0 ≤ i ∧ i < width) (hj : 0 ≤ j ∧ j < height) :
    sample (double_threshold_inplace buf d width height) width j i =
      threshold_value buf d width height j i := by
  rw [double_threshold_inplace_inv buf d width height (by omega) (by omega) j i hi.1 hi.2,
    if_pos hj]

/-- C19. In-place thresholding equals out-of-place thresholding: the run of
double_threshold that reads and writes the same buffer in raster order leaves at every
pixel of the grid the sample that the run into a distinct destination produces from
the untouched input.  This holds for all thresholds, in particular for
0 <= low <= high. -/
theorem double_threshold_inplace_eq (dst buf : Buf) (d : blurdetect) (width height i j : Int)
    (hi : 0 ≤ i ∧ i < width) (hj : 0 ≤ j ∧ j < height) :
    sample (double_threshold_inplace buf d width height) width j i =
      sample (double_threshold dst buf d width height) width j i := by
  rw [double_threshold_inplace_sample buf d width height i j hi hj,
    double_threshold_sample dst buf d width height i j hi hj]
  rfl

/-- C19, on plane_a: at the weak pixel (1, 1), whose strong neighbour lies to its
right, both runs agree. -/
theorem double_threshold_inplace_eq_witness :
    ((0 : Int) ≤ 1 ∧ (1 : Int) < 4) ∧
      sample (double_threshold_inplace plane_a config_a 4 4) 4 1 1 =
        sample (double_threshold zero_buf plane_a config_a 4 4) 4 1 1 :=
  ⟨by decide,
    double_threshold_inplace_eq zero_buf plane_a config_a 4 4 1 1 (by decide) (by decide)⟩

/-! ## non_maximum_suppression and the border of the gradient buffer -/

/-- One iteration of the column loop of non_maximum_suppression, for any direction
value: a store needs an enumerated direction and a strict maximum. -/
theorem nms_body_gen (bits : Nat) (dir src : Buf) (width : Int) (peak : Nat) (j i : Int)
    (dst : Buf) :
    (if dir (j * width + i) = DIRECTION_45UP then
        COPY_MAXIMA bits src (j * width) width peak 1 (-1) (-1) 1 i dst
      else if dir (j * width + i) = DIRECTION_45DOWN then
        COPY_MAXIMA bits src (j * width) width peak (-1) (-1) 1 1 i dst
      else if dir (j * width + i) = DIRECTION_HORIZONTAL then
        COPY_MAXIMA bits src (j * width) width peak 0 (-1) 0 1 i dst
      else if dir (j * width + i) = DIRECTION_VERTICAL then
        COPY_MAXIMA bits src (j * width) width peak (-1) 0 1 0 i dst
      else dst) =
    if is_direction (sample dir width j i) ∧ strict_maximum dir src width j i then
      Function.update dst (j * width + i) (min (sample src width j i) peak % 2 ^ bits)
    else dst := by
  by_cases hd : is_direction (sample dir width j i)
  · rw [nms_body bits dir src width peak j i hd dst]
    simp only [hd, true_and]
  · have hR : (if is_direction (sample dir width j i) ∧ strict_maximum dir src width j i then
        Function.update dst (j * width + i) (min (sample src width j i) peak % 2 ^ bits)
        else dst) = dst := if_neg (fun h => hd h.1)
    rw [hR]
    unfold is_direction sample at hd
    push_neg at hd
    simp only [hd.1, hd.2.1, hd.2.2.1, hd.2.2.2, if_false]

/-- The sample non_maximum_suppression leaves at an interior pixel, for any direction
value. -/
theorem nms_read_interior_gen (bits : Nat) (dst dir src : Buf) (width height : Int)
    (peak : Nat) (i j : Int) (hint : interior width height j i) :
    sample (non_maximum_suppression bits dst dir src width height peak) width j i =
      if is_direction (sample dir width j i) ∧ strict_maximum dir src width j i then
        min (sample src width j i) peak % 2 ^ bits
      else sample dst width j i := by
  unfold interior at hint
  unfold non_maximum_suppression
  show (fun b : Buf => b (j * width + i)) _ = _
  refine (forLoop_at (fun b : Buf => b (j * width + i)) 1 (height - 1) j _
    (fun x => if is_direction (sample dir width j i) ∧ strict_maximum dir src width j i then
      min (sample src width j i) peak % 2 ^ bits else x) dst (by omega) (by omega) ?_ ?_)
  · intro v s _ _ hne
    refine forLoop_frame (fun b : Buf => b (j * width + i)) 1 (width - 1) _ s ?_
    intro u t hu0 huw
    exact nms_body_other bits dir src width peak v u t _
      (Ne.symm (raster_ne_row width v u j i (by omega) (by omega) (by omega) (by omega) hne))
  · intro s
    refine forLoop_at (fun b : Buf => b (j * width + i)) 1 (width - 1) i _
      (fun x => if is_direction (sample dir width j i) ∧ strict_maximum dir src width j i then
        min (sample src width j i) peak % 2 ^ bits else x) s (by omega) (by omega) ?_ ?_
    · intro u t _ _ hne
      exact nms_body_other bits dir src width peak j u t _
        (Ne.symm (raster_ne_col width j u i hne))
    · intro t
      simp only [nms_body_gen bits dir src width peak j i t]
      split_ifs
      · exact Function.update_same _ _ _
      · rfl

/-- The neighbours that suppression compares a deep interior pixel with are interior. -/
theorem suppression_neighbours_interior (width height row col : Int) (v : Nat)
    (h : deep_interior width height row col) :
    interior width height (row + (suppression_neighbours v).1.1)
        (col + (suppression_neighbours v).1.2) ∧
      interior width height (row + (suppression_neighbours v).2.1)
        (col + (suppression_neighbours v).2.2) := by
  unfold deep_interior at h
  unfold interior suppression_neighbours
  split_ifs <;> simp only <;> omega

/-- C17, refuted as stated: the 3x3 magnitude buffers grad_a and grad_b agree on the
only interior pixel and differ on the border pixel (0, 1) alone, yet with the same
VERTICAL directions, zeroed destination and peak non_maximum_suppression stores 5 at
(1, 1) for the first and nothing for the second. -/
theorem suppression_reads_border :
    (∀ r c : Int, interior 3 3 r c → sample grad_a 3 r c = sample grad_b 3 r c) ∧
      sample (non_maximum_suppression 8 zero_buf (fun _ => DIRECTION_VERTICAL) grad_a 3 3 255)
        3 1 1 = 5 ∧
      sample (non_maximum_suppression 8 zero_buf (fun _ => DIRECTION_VERTICAL) grad_b 3 3 255)
        3 1 1 = 0 := by
  refine ⟨fun r c h => ?_, by decide, by decide⟩
  unfold interior at h
  have hr : r = 1 := by omega
  have hc : c = 1 := by omega
  subst hr hc
  decide

/-- C17, amended. For any two magnitude buffers that agree on every interior pixel,
with the same destination, direction buffer and peak, non_maximum_suppression produces
the same output at every border pixel and at every pixel at least two rows and columns
away from the edge; only the interior pixels next to the border depend on the border
magnitudes. -/
theorem suppression_border_independence (bits : Nat) (dst dir src1 src2 : Buf)
    (width height : Int) (peak : Nat) (i j : Int) (hi : 0 ≤ i ∧ i < width)
    (hagree : ∀ r c, interior width height r c → sample src1 width r c = sample src2 width r c)
    (hpix : ¬ interior width height j i ∨ deep_interior width height j i) :
    sample (non_maximum_suppression bits dst dir src1 width height peak) width j i =
      sample (non_maximum_suppression bits dst dir src2 width height peak) width j i := by
  rcases hpix with hb | hdeep
  · rw [nms_read_border bits dst dir src1 width height peak i j hi hb,
      nms_read_border bits dst dir src2 width height peak i j hi hb]
  · have hint : interior width height j i := by
      unfold deep_interior at hdeep
      unfold interior
      omega
    obtain ⟨hn1, hn2⟩ := suppression_neighbours_interior width height j i
      (sample dir width j i) hdeep
    rw [nms_read_interior_gen bits dst dir src1 width height peak i j hint,
      nms_read_interior_gen bits dst dir src2 width height peak i j hint]
    simp only [strict_maximum, hagree j i hint, hagree _ _ hn1, hagree _ _ hn2]

/-- C17 amended, on grad_a and grad_b: the border pixel (0, 1) of the output is the
same for both. -/
theorem suppression_border_independence_witness :
    ((0 : Int) ≤ 1 ∧ (1 : Int) < 3) ∧ ¬ interior 3 3 0 1 ∧
      sample (non_maximum_suppression 8 zero_buf (fun _ => DIRECTION_VERTICAL) grad_a 3 3 255)
        3 0 1 =
      sample (non_maximum_suppression 8 zero_buf (fun _ => DIRECTION_VERTICAL) grad_b 3 3 255)
        3 0 1 :=
  ⟨by decide, by decide,
    suppression_border_independence 8 zero_buf (fun _ => DIRECTION_VERTICAL) grad_a grad_b
      3 3 255 1 0 (by decide)
      (fun r c h => by
        unfold interior at h
        have hr : r = 1 := by omega
        have hc : c = 1 := by omega
        subst hr hc
        decide)
      (Or.inl (by decide))⟩

/-! ## edge_width on a step edge -/

/-- The walk in direction -(dX, dY), entered with counter k0, leaves its loop with
counter K if it stays in the plane and keeps descending up to step K and then
either has used up its iterations or meets a local extremum. -/
theorem edge_width_neg_some (src : Buf) (i j : Int) (dir : Nat) (w h : Int) (n : Nat) :
    ∀ k0 K : Int, k0 ≤ K → K ≤ k0 + n →
      (∀ k1, k0 ≤ k1 → k1 < K →
        ¬ outside w h (i - (k1 + 1) * edge_dX dir) (j - (k1 + 1) * edge_dY dir) ∧
          slope_neg src i j dir w k1 > 0) →
      (K = k0 + n ∨
        (¬ outside w h (i - (K + 1) * edge_dX dir) (j - (K + 1) * edge_dY dir) ∧
          slope_neg src i j dir w K ≤ 0)) →
      edge_width_neg src i j (edge_dX dir) (edge_dY dir) w h (edge_sign src i j dir w) n k0 =
        some K := by
  induction n with
  | zero =>
    intro k0 K h1 h2 _ _
    have : K = k0 := by simp at h2; omega
    subst this
    rfl
  | succ n ih =>
    intro k0 K h1 h2 hgo hstop
    unfold edge_width_neg
    simp only
    have ex : i - k0 * edge_dX dir - edge_dX dir = i - (k0 + 1) * edge_dX dir := by ring
    have ey : j - k0 * edge_dY dir - edge_dY dir = j - (k0 + 1) * edge_dY dir := by ring
    rw [ex, ey]
    by_cases hk : K = k0
    · subst hk
      rcases hstop with hK | ⟨hin, hle⟩
      · exfalso
        push_cast at hK
        omega
      · have hin2 : ¬(i - (K + 1) * edge_dX dir < 0 ∨ i - (K + 1) * edge_dX dir ≥ w ∨
            j - (K + 1) * edge_dY dir < 0 ∨ j - (K + 1) * edge_dY dir ≥ h) := hin
        rw [if_neg hin2]
        unfold slope_neg sample at hle
        rw [if_pos hle]
    · obtain ⟨hin, hgt⟩ := hgo k0 le_rfl (by omega)
      have hin2 : ¬(i - (k0 + 1) * edge_dX dir < 0 ∨ i - (k0 + 1) * edge_dX dir ≥ w ∨
          j - (k0 + 1) * edge_dY dir < 0 ∨ j - (k0 + 1) * edge_dY dir ≥ h) := hin
      rw [if_neg hin2]
      unfold slope_neg sample at hgt
      rw [if_neg (not_le.mpr hgt)]
      refine ih (k0 + 1) K (by omega) (by push_cast at h2; omega)
        (fun k1 hk1 hk1K => hgo k1 (by omega) hk1K) ?_
      rcases hstop with hK | hs
      · left
        push_cast at hK
        omega
      · exact Or.inr hs

/-- The same for the walk in direction +(dX, dY), which keeps going while the signed
difference is negative. -/
theorem edge_width_pos_some (src : Buf) (i j : Int) (dir : Nat) (w h : Int) (n : Nat) :
    ∀ k0 K : Int, k0 ≤ K → K ≤ k0 + n →
      (∀ k1, k0 ≤ k1 → k1 < K →
        ¬ outside w h (i + (k1 + 1) * edge_dX dir) (j + (k1 + 1) * edge_dY dir) ∧
          slope_pos src i j dir w k1 < 0) →
      (K = k0 + n ∨
        (¬ outside w h (i + (K + 1) * edge_dX dir) (j + (K + 1) * edge_dY dir) ∧
          slope_pos src i j dir w K ≥ 0)) →
      edge_width_pos src i j (edge_dX dir) (edge_dY dir) w h (edge_sign src i j dir w) n k0 =
        some K := by
  induction n with
  | zero =>
    intro k0 K h1 h2 _ _
    have : K = k0 := by simp at h2; omega
    subst this
    rfl
  | succ n ih =>
    intro k0 K h1 h2 hgo hstop
    unfold edge_width_pos
    simp only
    have ex : i + k0 * edge_dX dir + edge_dX dir = i + (k0 + 1) * edge_dX dir := by ring
    have ey : j + k0 * edge_dY dir + edge_dY dir = j + (k0 + 1) * edge_dY dir := by ring
    rw [ex, ey]
    by_cases hk : K = k0
    · subst hk
      rcases hstop with hK | ⟨hin, hle⟩
      · exfalso
        push_cast at hK
        omega
      · have hin2 : ¬(i + (K + 1) * edge_dX dir < 0 ∨ i + (K + 1) * edge_dX dir ≥ w ∨
            j + (K + 1) * edge_dY dir < 0 ∨ j + (K + 1) * edge_dY dir ≥ h) := hin
        rw [if_neg hin2]
        unfold slope_pos sample at hle
        rw [if_pos hle]
    · obtain ⟨hin, hgt⟩ := hgo k0 le_rfl (by omega)
      have hin2 : ¬(i + (k0 + 1) * edge_dX dir < 0 ∨ i + (k0 + 1) * edge_dX dir ≥ w ∨
          j + (k0 + 1) * edge_dY dir < 0 ∨ j + (k0 + 1) * edge_dY dir ≥ h) := hin
      rw [if_neg hin2]
      unfold slope_pos sample at hgt
      rw [if_neg (not_le.mpr hgt)]
      refine ih (k0 + 1) K (by omega) (by push_cast at h2; omega)
        (fun k1 hk1 hk1K => hgo k1 (by omega) hk1K) ?_
      rcases hstop with hK | hs
      · left
        push_cast at hK
        omega
      · exact Or.inr hs

/-- The edge width of a pixel on a ramp: if row j has the profile v, flat on the
columns <= a, strictly increasing on a..b and flat on the columns >= b, every pixel
(i, j) with a < i <= b has the HORIZONTAL edge width b - a. -/
theorem edge_width_on_ramp (src : Buf) (v : Int → Nat) (w h a b i j radius : Int)
    (hrow : ∀ c, 0 ≤ c ∧ c < w → sample src w j c = v c)
    (hleft : ∀ c, 0 ≤ c → c ≤ a → v c = v a)
    (hinc : ∀ c c2, a ≤ c → c < c2 → c2 ≤ b → v c < v c2)
    (hright : ∀ c, b ≤ c → c < w → v c = v b)
    (hab : 1 ≤ a ∧ a < b ∧ b ≤ w - 2)
    (hj : 0 ≤ j ∧ j < h) (hi : a < i ∧ i ≤ b) (hrad : b - a ≤ radius) :
    edge_width src i j DIRECTION_HORIZONTAL w h radius = ((b - a : Int) : ℚ) := by
  have hdx : edge_dX DIRECTION_HORIZONTAL = 1 := rfl
  have hdy : edge_dY DIRECTION_HORIZONTAL = 0 := rfl
  have hv : ∀ c, 0 ≤ c ∧ c < w → src (j * w + c) = v c := fun c hc => hrow c hc
  have hsign : edge_sign src i j DIRECTION_HORIZONTAL w = 1 := by
    unfold edge_sign
    rw [hdx, hdy]
    have e : (j - 0) * w + i - 1 = j * w + (i - 1) := by ring
    rw [e, hv i (by omega), hv (i - 1) (by omega),
      if_pos (hinc (i - 1) i (by omega) (by omega) hi.2)]
  have hsn : ∀ k, 0 ≤ k → k ≤ i - a →
      slope_neg src i j DIRECTION_HORIZONTAL w k = (v (i - k) : Int) - (v (i - k - 1) : Int) := by
    intro k hk0 hk
    unfold slope_neg sample
    rw [hsign, hdx, hdy]
    have e1 : (j - k * 0) * w + (i - k * 1) = j * w + (i - k) := by ring
    have e2 : (j - (k + 1) * 0) * w + (i - (k + 1) * 1) = j * w + (i - k - 1) := by ring
    rw [e1, e2, hv (i - k) (by omega), hv (i - k - 1) (by omega), mul_one]
  have hsp : ∀ k, 0 ≤ k → k ≤ b - i →
      slope_pos src i j DIRECTION_HORIZONTAL w k = (v (i + k) : Int) - (v (i + k + 1) : Int) := by
    intro k hk0 hk
    unfold slope_pos sample
    rw [hsign, hdx, hdy]
    have e1 : (j + k * 0) * w + (i + k * 1) = j * w + (i + k) := by ring
    have e2 : (j + (k + 1) * 0) * w + (i + (k + 1) * 1) = j * w + (i + k + 1) := by ring
    rw [e1, e2, hv (i + k) (by omega), hv (i + k + 1) (by omega), mul_one]
  have hneg := edge_width_neg_some src i j DIRECTION_HORIZONTAL w h radius.toNat 0 (i - a)
    (by omega) (by omega)
    (fun k hk0 hk => by
      refine ⟨?_, ?_⟩
      · rw [hdx, hdy]
        unfold outside
        omega
      · rw [hsn k hk0 (by omega)]
        have := hinc (i - k - 1) (i - k) (by omega) (by omega) (by omega)
        omega)
    (Or.inr (by
      refine ⟨?_, ?_⟩
      · rw [hdx, hdy]
        unfold outside
        omega
      · rw [hsn (i - a) (by omega) le_rfl]
        have e1 : i - (i - a) = a := by ring
        rw [e1, hleft (a - 1) (by omega) (by omega)]
        omega))
  have hpos := edge_width_pos_some src i j DIRECTION_HORIZONTAL w h radius.toNat 0 (b - i)
    (by omega) (by omega)
    (fun k hk0 hk => by
      refine ⟨?_, ?_⟩
      · rw [hdx, hdy]
        unfold outside
        omega
      · rw [hsp k hk0 (by omega)]
        have := hinc (i + k) (i + k + 1) (by omega) (by omega) (by omega)
        omega)
    (Or.inr (by
      refine ⟨?_, ?_⟩
      · rw [hdx, hdy]
        unfold outside
        omega
      · rw [hsp (b - i) (by omega) le_rfl]
        have e1 : i + (b - i) = b := by ring
        rw [e1, hright (b + 1) (by omega) (by omega)]
        omega))
  unfold edge_width
  simp only [hneg, hpos]
  rw [if_neg (by decide)]
  push_cast
  ring

/-- C14. edge_width on a vertical step edge: every row of the plane has the profile v,
constant on the columns <= a, strictly increasing on the columns a..b and constant on
the columns >= b, with 1 <= a < b <= w - 2.  Then for every row j, every column i with
a < i <= b, direction HORIZONTAL and every radius >= b - a, edge_width returns exactly
b - a. -/
theorem edge_width_step_edge (src : Buf) (v : Int → Nat) (w h a b i j radius : Int)
    (hrow : ∀ r c, 0 ≤ r ∧ r < h → 0 ≤ c ∧ c < w → sample src w r c = v c)
    (hleft : ∀ c, 0 ≤ c → c ≤ a → v c = v a)
    (hinc : ∀ c c2, a ≤ c → c < c2 → c2 ≤ b → v c < v c2)
    (hright : ∀ c, b ≤ c → c < w → v c = v b)
    (hab : 1 ≤ a ∧ a < b ∧ b ≤ w - 2)
    (hj : 0 ≤ j ∧ j < h) (hi : a < i ∧ i ≤ b) (hrad : b - a ≤ radius) :
    edge_width src i j DIRECTION_HORIZONTAL w h radius = ((b - a : Int) : ℚ) :=
  edge_width_on_ramp src v w h a b i j radius (fun c hc => hrow j c hj hc) hleft hinc hright
    hab hj hi hrad

/-- C14, on plane_d (ramp between the columns 1 and 4): the pixel (3, 1) has width 3. -/
theorem edge_width_step_edge_witness :
    ((1 : Int) ≤ 1 ∧ (1 : Int) < 4 ∧ (4 : Int) ≤ 8 - 2) ∧ ((1 : Int) < 3 ∧ (3 : Int) ≤ 4) ∧
      edge_width plane_d 3 1 DIRECTION_HORIZONTAL 8 3 50 = (((4 : Int) - 1 : Int) : ℚ) :=
  ⟨by decide, by decide,
    edge_width_step_edge plane_d (fun c => plane_d c) 8 3 1 4 3 1 50
      (fun r c _ hc => by
        unfold sample plane_d
        have e : (r * 8 + c) % 8 = c % 8 := by omega
        simp only [e])
      (fun c h0 h1 => by
        have : c = 0 ∨ c = 1 := by omega
        rcases this with rfl | rfl <;> decide)
      (fun c c2 h0 h1 h2 => by
        have hc : c = 1 ∨ c = 2 ∨ c = 3 := by omega
        have hc2 : c2 = 2 ∨ c2 = 3 ∨ c2 = 4 := by omega
        rcases hc with rfl | rfl | rfl <;> rcases hc2 with rfl | rfl | rfl <;>
          first | decide | (exfalso; omega))
      (fun c h0 h1 => by
        have : c = 4 ∨ c = 5 ∨ c = 6 ∨ c = 7 := by omega
        rcases this with rfl | rfl | rfl | rfl <;> decide)
      (by decide) (by decide) (by decide) (by decide)⟩

/-! ## The reads of stage 5 -/

/-- The pixels of the blocks lie in the plane: with blk a block index below
size / bsize (truncating division) and inn an offset inside the block, the coordinate
blk * bsize + inn lies in [0, size). -/
theorem block_pixel_in_plane (size bsize blk inn : Int) (h0 : 0 ≤ blk)
    (h1 : blk < Int.tdiv size bsize) (h2 : 0 ≤ inn) (h3 : inn < bsize) :
    0 ≤ blk * bsize + inn ∧ blk * bsize + inn < size := by
  have hb : 0 < bsize := by omega
  have hs : 0 ≤ size := by
    by_contra hneg
    have h := Int.tdiv_nonneg (by omega : 0 ≤ -size) hb.le
    rw [Int.neg_tdiv] at h
    omega
  rw [Int.tdiv_eq_ediv hs hb.le] at h1
  have h4 : size / bsize * bsize ≤ size := Int.ediv_mul_le size (by omega)
  have h5 : (blk + 1) * bsize ≤ size / bsize * bsize :=
    Int.mul_le_mul_of_nonneg_right (by omega) hb.le
  have h6 : 0 ≤ blk * bsize := mul_nonneg h0 hb.le
  constructor
  · omega
  · have : (blk + 1) * bsize = blk * bsize + bsize := by ring
    omega

/-- Every pixel calculate_blur visits lies in the plane. -/
theorem visits_in_plane (d : blurdetect) (width height : Int) :
    ∀ p ∈ calculate_blur_visits d width height, ¬ outside width height p.1 p.2 := by
  unfold calculate_blur_visits
  refine forLoop_inv (fun acc : List (Int × Int) => ∀ p ∈ acc, ¬ outside width height p.1 p.2)
    _ _ _ _ ?_ (by simp)
  intro blkj acc1 hj0 hj1 h1
  refine forLoop_inv (fun acc : List (Int × Int) => ∀ p ∈ acc, ¬ outside width height p.1 p.2)
    _ _ _ _ ?_ h1
  intro blki acc2 hi0 hi1 h2
  refine forLoop_inv (fun acc : List (Int × Int) => ∀ p ∈ acc, ¬ outside width height p.1 p.2)
    _ _ _ _ ?_ h2
  intro inj acc3 hn0 hn1 h3
  refine forLoop_inv (fun acc : List (Int × Int) => ∀ p ∈ acc, ¬ outside width height p.1 p.2)
    _ _ _ _ ?_ h3
  intro ini acc4 hm0 hm1 h4 p hp
  rw [List.mem_append, List.mem_singleton] at hp
  rcases hp with hp | rfl
  · exact h4 p hp
  · have hx := block_pixel_in_plane width _ blki ini hi0 hi1 hm0 hm1
    have hy := block_pixel_in_plane height _ blkj inj hj0 hj1 hn0 hn1
    unfold outside
    simp only
    omega

/-- The loop in direction -(dX, dY) reads only samples of the plane, provided its
current position is in the plane when it is entered. -/
theorem edge_reads_neg_in_plane (src : Buf) (i j dX dY w h sign : Int) (n : Nat) :
    ∀ k : Int, ¬ outside w h (i - k * dX) (j - k * dY) →
      ∀ p ∈ edge_reads_neg src i j dX dY w h sign n k, ¬ outside w h p.1 p.2 := by
  induction n with
  | zero =>
    intro k _ p hp
    simp [edge_reads_neg] at hp
  | succ n ih =>
    intro k hk p hp
    unfold edge_reads_neg at hp
    simp only at hp
    split_ifs at hp with ho ht
    · simp at hp
    · simp only [List.mem_cons, List.not_mem_nil, or_false] at hp
      rcases hp with rfl | rfl
      · exact hk
      · exact ho
    · simp only [List.mem_cons] at hp
      rcases hp with rfl | rfl | hp
      · exact hk
      · exact ho
      · refine ih (k + 1) ?_ p hp
        have ex : i - (k + 1) * dX = i - k * dX - dX := by ring
        have ey : j - (k + 1) * dY = j - k * dY - dY := by ring
        rw [ex, ey]
        exact ho

/-- The same for the loop in direction +(dX, dY). -/
theorem edge_reads_pos_in_plane (src : Buf) (i j dX dY w h sign : Int) (n : Nat) :
    ∀ k : Int, ¬ outside w h (i + k * dX) (j + k * dY) →
      ∀ p ∈ edge_reads_pos src i j dX dY w h sign n k, ¬ outside w h p.1 p.2 := by
  induction n with
  | zero =>
    intro k _ p hp
    simp [edge_reads_pos] at hp
  | succ n ih =>
    intro k hk p hp
    unfold edge_reads_pos at hp
    simp only at hp
    split_ifs at hp with ho ht
    · simp at hp
    · simp only [List.mem_cons, List.not_mem_nil, or_false] at hp
      rcases hp with rfl | rfl
      · exact hk
      · exact ho
    · simp only [List.mem_cons] at hp
      rcases hp with rfl | rfl | hp
      · exact hk
      · exact ho
      · refine ih (k + 1) ?_ p hp
        have ex : i + (k + 1) * dX = i + k * dX + dX := by ring
        have ey : j + (k + 1) * dY = j + k * dY + dY := by ring
        rw [ex, ey]
        exact ho

/-- The steps chosen by the switch of edge_width are at most one pixel long. -/
theorem edge_step_bounds (dir : Nat) :
    (edge_dX dir = 0 ∨ edge_dX dir = 1) ∧
      (edge_dY dir = -1 ∨ edge_dY dir = 0 ∨ edge_dY dir = 1) := by
  unfold edge_dX edge_dY
  split_ifs <;> simp

/-- Called on an interior pixel, edge_width reads only samples of the plane. -/
theorem edge_width_reads_in_plane (src : Buf) (i j : Int) (dir : Nat) (w h radius : Int)
    (hint : interior w h j i) :
    ∀ p ∈ edge_width_reads src i j dir w h radius, ¬ outside w h p.1 p.2 := by
  unfold interior at hint
  have hself : ¬ outside w h i j := by unfold outside; omega
  obtain ⟨hx, hy⟩ := edge_step_bounds dir
  intro p hp
  unfold edge_width_reads at hp
  simp only [List.mem_append, List.mem_cons, List.not_mem_nil, or_false, List.cons_append,
    List.nil_append] at hp
  rcases hp with rfl | rfl | hp | hp
  · exact hself
  · unfold outside
    omega
  · exact edge_reads_neg_in_plane src i j _ _ w h _ _ 0 (by simpa using hself) p hp
  · cases hneg : edge_width_neg src i j (edge_dX dir) (edge_dY dir) w h
        (edge_sign src i j dir w) radius.toNat 0 with
    | none => rw [hneg] at hp; simp at hp
    | some k =>
      rw [hneg] at hp
      exact edge_reads_pos_in_plane src i j _ _ w h _ _ 0 (by simpa using hself) p hp

/-- A pixel that is non-zero after suppression into a zeroed buffer and in-place
thresholding is interior. -/
theorem thresholded_pos_interior (bits : Nat) (dir grad : Buf) (d : blurdetect)
    (width height i j : Int) (hi : 0 ≤ i ∧ i < width) (hj : 0 ≤ j ∧ j < height)
    (hpos : sample (double_threshold_inplace
      (non_maximum_suppression bits zero_buf dir grad width height d.peak) d width height)
      width j i > 0) :
    interior width height j i := by
  rw [double_threshold_inplace_sample _ d width height i j hi hj] at hpos
  unfold threshold_value at hpos
  by_contra hb
  rw [nms_read_border bits zero_buf dir grad width height d.peak i j hi hb] at hpos
  unfold sample zero_buf at hpos
  simp at hpos

/-- The walk in direction -(dX, dY) depends only on the samples listed by
edge_reads_neg. -/
theorem edge_width_neg_congr (src src2 : Buf) (i j dX dY w h sign : Int) (n : Nat) (k : Int)
    (hag : ∀ p ∈ edge_reads_neg src i j dX dY w h sign n k,
      sample src2 w p.2 p.1 = sample src w p.2 p.1) :
    edge_width_neg src2 i j dX dY w h sign n k = edge_width_neg src i j dX dY w h sign n k := by
  induction n generalizing k with
  | zero => rfl
  | succ n ih =>
    unfold edge_width_neg
    unfold edge_reads_neg at hag
    simp only at hag ⊢
    by_cases hout : i - k * dX - dX < 0 ∨ i - k * dX - dX ≥ w ∨ j - k * dY - dY < 0 ∨
        j - k * dY - dY ≥ h
    · rw [if_pos hout, if_pos hout]
    · rw [if_neg hout] at hag
      rw [if_neg hout, if_neg hout]
      have h1 := hag (i - k * dX, j - k * dY) (List.mem_cons_self _ _)
      have h2 := hag (i - k * dX - dX, j - k * dY - dY)
        (List.mem_cons_of_mem _ (List.mem_cons_self _ _))
      unfold sample at h1 h2
      simp only at h1 h2
      rw [h1, h2]
      by_cases ht : ((src ((j - k * dY) * w + (i - k * dX)) : Int) -
          (src ((j - k * dY - dY) * w + (i - k * dX - dX)) : Int)) * sign ≤ 0
      · rw [if_pos ht, if_pos ht]
      · rw [if_neg ht, if_neg ht]
        rw [if_neg ht] at hag
        exact ih (k + 1) (fun p hp =>
          hag p (List.mem_cons_of_mem _ (List.mem_cons_of_mem _ hp)))

/-- The walk in direction +(dX, dY) depends only on the samples listed by
edge_reads_pos. -/
theorem edge_width_pos_congr (src src2 : Buf) (i j dX dY w h sign : Int) (n : Nat) (k : Int)
    (hag : ∀ p ∈ edge_reads_pos src i j dX dY w h sign n k,
      sample src2 w p.2 p.1 = sample src w p.2 p.1) :
    edge_width_pos src2 i j dX dY w h sign n k = edge_width_pos src i j dX dY w h sign n k := by
  induction n generalizing k with
  | zero => rfl
  | succ n ih =>
    unfold edge_width_pos
    unfold edge_reads_pos at hag
    simp only at hag ⊢
    by_cases hout : i + k * dX + dX < 0 ∨ i + k * dX + dX ≥ w ∨ j + k * dY + dY < 0 ∨
        j + k * dY + dY ≥ h
    · rw [if_pos hout, if_pos hout]
    · rw [if_neg hout] at hag
      rw [if_neg hout, if_neg hout]
      have h1 := hag (i + k * dX, j + k * dY) (List.mem_cons_self _ _)
      have h2 := hag (i + k * dX + dX, j + k * dY + dY)
        (List.mem_cons_of_mem _ (List.mem_cons_self _ _))
      unfold sample at h1 h2
      simp only at h1 h2
      rw [h1, h2]
      by_cases ht : ((src ((j + k * dY) * w + (i + k * dX)) : Int) -
          (src ((j + k * dY + dY) * w + (i + k * dX + dX)) : Int)) * sign ≥ 0
      · rw [if_pos ht, if_pos ht]
      · rw [if_neg ht, if_neg ht]
        rw [if_neg ht] at hag
        exact ih (k + 1) (fun p hp =>
          hag p (List.mem_cons_of_mem _ (List.mem_cons_of_mem _ hp)))

/-- The samples listed by edge_width_reads are all that edge_width reads: a plane that
agrees with src at the listed positions gives the same edge width. -/
theorem edge_width_reads_determine (src src2 : Buf) (i j : Int) (dir : Nat) (w h radius : Int)
    (hag : ∀ p ∈ edge_width_reads src i j dir w h radius,
      sample src2 w p.2 p.1 = sample src w p.2 p.1) :
    edge_width src2 i j dir w h radius = edge_width src i j dir w h radius := by
  unfold edge_width_reads at hag
  simp only at hag
  have h1 := hag (i, j) (by simp)
  have h2 := hag (i - edge_dX dir, j - edge_dY dir) (by simp)
  unfold sample at h1 h2
  simp only at h1 h2
  have hsign : edge_sign src2 i j dir w = edge_sign src i j dir w := by
    unfold edge_sign
    have e : (j - edge_dY dir) * w + i - edge_dX dir =
        (j - edge_dY dir) * w + (i - edge_dX dir) := by ring
    rw [e, h1, h2]
  have hneg := edge_width_neg_congr src src2 i j (edge_dX dir) (edge_dY dir) w h
    (edge_sign src i j dir w) radius.toNat 0
    (fun p hp => hag p (List.mem_append_left _ (List.mem_append_right _ hp)))
  unfold edge_width
  simp only
  rw [hsign, hneg]
  cases hn : edge_width_neg src i j (edge_dX dir) (edge_dY dir) w h (edge_sign src i j dir w)
      radius.toNat 0 with
  | none => rfl
  | some k1 =>
    rw [hn] at hag
    have hpos := edge_width_pos_congr src src2 i j (edge_dX dir) (edge_dY dir) w h
      (edge_sign src i j dir w) radius.toNat 0
      (fun p hp => hag p (List.mem_append_right _ hp))
    simp only
    rw [hpos]

/-- C18. Stage 5 never reads outside the plane: every pixel coordinate calculate_blur
visits lies inside the plane; and in the pipeline (suppression into a zeroed buffer,
then in-place double_threshold) every pixel of the grid whose thresholded value is > 0
is interior, so that every sample edge_width reads for it (the two reads of the initial
slope test and each p1 / p2 read of both walks) has coordinates inside
[0, w) x [0, h).  The listed reads are all that edge_width reads: its result is the
same on every plane that agrees with src at the listed positions. -/
theorem stage5_reads_in_plane (bits : Nat) (dir grad src : Buf) (d : blurdetect)
    (width height : Int) :
    (∀ p ∈ calculate_blur_visits d width height, ¬ outside width height p.1 p.2) ∧
    (∀ i j : Int, 0 ≤ i ∧ i < width → 0 ≤ j ∧ j < height →
      sample (double_threshold_inplace
        (non_maximum_suppression bits zero_buf dir grad width height d.peak) d width height)
        width j i > 0 →
      interior width height j i ∧
        (∀ p ∈ edge_width_reads src i j (sample dir width j i) width height d.radius,
          ¬ outside width height p.1 p.2) ∧
        (∀ src2 : Buf,
          (∀ p ∈ edge_width_reads src i j (sample dir width j i) width height d.radius,
            sample src2 width p.2 p.1 = sample src width p.2 p.1) →
          edge_width src2 i j (sample dir width j i) width height d.radius =
            edge_width src i j (sample dir width j i) width height d.radius)) := by
  refine ⟨visits_in_plane d width height, fun i j hi hj hpos => ?_⟩
  have hint := thresholded_pos_interior bits dir grad d width height i j hi hj hpos
  exact ⟨hint, edge_width_reads_in_plane src i j _ width height d.radius hint,
    fun src2 hag => edge_width_reads_determine src src2 i j _ width height d.radius hag⟩

/-- The pixel (3, 1) of the magnitude buffer edges_d survives suppression along the
row and thresholding with the value 200. -/
theorem thresholded_edges_d :
    sample (double_threshold_inplace
      (non_maximum_suppression 8 zero_buf (fun _ => DIRECTION_HORIZONTAL) edges_d 8 3
        config_a.peak) config_a 8 3) 8 1 3 = 200 := by
  have hs : sample (non_maximum_suppression 8 zero_buf (fun _ => DIRECTION_HORIZONTAL)
      edges_d 8 3 config_a.peak) 8 1 3 = 200 := by
    rw [nms_sample 8 zero_buf (fun _ => DIRECTION_HORIZONTAL) edges_d 8 3 config_a.peak 3 1
      (by decide) (fun _ _ => rfl) (by decide)]
    decide
  rw [double_threshold_inplace_sample _ config_a 8 3 3 1 (by decide) (by decide)]
  unfold threshold_value
  have hk : threshold_keeps (non_maximum_suppression 8 zero_buf
      (fun _ => DIRECTION_HORIZONTAL) edges_d 8 3 config_a.peak) config_a 8 3 1 3 := by
    unfold threshold_keeps
    rw [hs]
    exact Or.inl (by decide)
  rw [if_pos hk, hs]

/-- C18, for the default configuration on the 8x3 ramp plane_d with the gradient
magnitude 200 at the pixel (3, 1) and the direction HORIZONTAL: the pixel survives
thresholding, it is interior, edge_width reads the twelve listed samples of row 1 for
it, from column 0 to column 5, and all of them lie in the plane. -/
theorem stage5_reads_in_plane_witness :
    sample (double_threshold_inplace
        (non_maximum_suppression 8 zero_buf (fun _ => DIRECTION_HORIZONTAL) edges_d 8 3
          config_a.peak) config_a 8 3) 8 1 3 > 0 ∧
      interior 8 3 1 3 ∧
      edge_width_reads plane_d 3 1 DIRECTION_HORIZONTAL 8 3 config_a.radius =
        [(3, 1), (2, 1), (3, 1), (2, 1), (2, 1), (1, 1), (1, 1), (0, 1), (3, 1), (4, 1),
          (4, 1), (5, 1)] ∧
      ∀ p ∈ edge_width_reads plane_d 3 1 DIRECTION_HORIZONTAL 8 3 config_a.radius,
        ¬ outside 8 3 p.1 p.2 :=
  have hpos : sample (double_threshold_inplace
      (non_maximum_suppression 8 zero_buf (fun _ => DIRECTION_HORIZONTAL) edges_d 8 3
        config_a.peak) config_a 8 3) 8 1 3 > 0 := by
    rw [thresholded_edges_d]
    decide
  ⟨hpos,
    ((stage5_reads_in_plane 8 (fun _ => DIRECTION_HORIZONTAL) edges_d plane_d config_a 8 3).2
      3 1 (by decide) (by decide) hpos).1,
    by decide,
    ((stage5_reads_in_plane 8 (fun _ => DIRECTION_HORIZONTAL) edges_d plane_d config_a 8 3).2
      3 1 (by decide) (by decide) hpos).2.1⟩

/-! ## The pipeline on a uniform plane -/

/-- On a neighbourhood of equal samples v the kernel-weighted sum is 159 * v. -/
theorem neighbourhood_sum_uniform (src : Buf) (pitch row col : Int) (v : Nat)
    (h : ∀ dy dx : Nat, dy < 5 → dx < 5 →
      sample src pitch (row + (dy : Int) - 2) (col + (dx : Int) - 2) = v) :
    neighbourhood_sum src pitch row col = 159 * v := by
  unfold neighbourhood_sum
  have e : (List.range 5).map (fun dy => ((List.range 5).map (fun dx =>
      kernel_weight dy dx *
        sample src pitch (row + (dy : Int) - 2) (col + (dx : Int) - 2))).sum) =
      (List.range 5).map (fun dy => ((List.range 5).map (fun dx =>
        kernel_weight dy dx * v)).sum) := by
    apply List.map_congr_left
    intro dy hdy
    congr 1
    apply List.map_congr_left
    intro dx hdx
    rw [h dy dx (List.mem_range.mp hdy) (List.mem_range.mp hdx)]
  rw [e]
  simp only [List.range_succ, List.range_zero, List.nil_append, List.cons_append, List.map_cons,
    List.map_nil, List.sum_cons, List.sum_nil, kernel_weight, gaussian_kernel,
    List.getD_cons_zero, List.getD_cons_succ]
  ring

/-- Smoothing a plane of equal samples leaves every sample unchanged. -/
theorem gaussian_uniform (bits : Nat) (dst src : Buf) (src_pitch width height : Int) (v : Nat)
    (hw : 5 ≤ width) (hh : 5 ≤ height) (hv : v < 2 ^ bits)
    (huni : ∀ r c, 0 ≤ r ∧ r < height → 0 ≤ c ∧ c < width → sample src src_pitch r c = v)
    (r c : Int) (hr : 0 ≤ r ∧ r < height) (hc : 0 ≤ c ∧ c < width) :
    sample (gaussian_blur bits dst src src_pitch width height) width r c = v := by
  rw [gaussian_read bits dst src src_pitch width height r c (by omega) (by omega) hc hr]
  split_ifs with hin
  · rw [gaussian_sum_eq, neighbourhood_sum_uniform src src_pitch r c v
      (fun dy dx hdy hdx => huni _ _ (by omega) (by omega))]
    rw [Nat.mul_div_cancel_left v (by norm_num), Nat.mod_eq_of_lt hv]
  · exact huni r c hr hc

/-- The direction of a zero gradient is VERTICAL, and every direction the classifier
returns is one of the four enumerators. -/
theorem get_rounded_direction_enumerated (gx gy : Int) (d : blurdetect) :
    is_direction (get_rounded_direction gx gy d) := by
  have key : ∀ (c1 c2 c3 : Prop) [Decidable c1] [Decidable c2] [Decidable c3],
      is_direction (if c1 then DIRECTION_45UP else if c2 then DIRECTION_HORIZONTAL
        else if c3 then DIRECTION_45DOWN else DIRECTION_VERTICAL) := by
    intro c1 c2 c3 _ _ _
    split_ifs <;> decide
  unfold get_rounded_direction
  by_cases h : gx ≠ 0
  · rw [if_pos h]
    exact key _ _ _
  · rw [if_neg h]
    decide

/-- On a plane of equal samples sobel, run on zeroed buffers, leaves magnitude 0 at
every pixel of the grid and an enumerated direction. -/
theorem sobel_uniform (src : Buf) (d : blurdetect) (width height : Int) (v : Nat)
    (huni : ∀ r c, 0 ≤ r ∧ r < height → 0 ≤ c ∧ c < width → sample src width r c = v)
    (r c : Int) (hc : 0 ≤ c ∧ c < width) :
    sample (sobel zero_buf zero_buf src d width height).1 width r c = 0 ∧
      is_direction (sample (sobel zero_buf zero_buf src d width height).2 width r c) := by
  by_cases hint : interior width height r c
  · have hread := sobel_read_interior zero_buf zero_buf src d width height c r hint
    obtain ⟨hx, hy⟩ := sobel_responses src width c r
    unfold interior at hint
    rw [huni (r - 1) (c - 1) (by omega) (by omega), huni (r - 1) (c + 1) (by omega) (by omega),
      huni r (c - 1) (by omega) (by omega), huni r (c + 1) (by omega) (by omega),
      huni (r + 1) (c - 1) (by omega) (by omega),
      huni (r + 1) (c + 1) (by omega) (by omega)] at hx
    rw [huni (r - 1) (c - 1) (by omega) (by omega), huni (r - 1) (c + 1) (by omega) (by omega),
      huni (r - 1) c (by omega) (by omega), huni (r + 1) c (by omega) (by omega),
      huni (r + 1) (c - 1) (by omega) (by omega),
      huni (r + 1) (c + 1) (by omega) (by omega)] at hy
    have hx0 : sobel_gx src (r * width) width c = 0 := by rw [hx]; ring
    have hy0 : sobel_gy src (r * width) width c = 0 := by rw [hy]; ring
    rw [hx0, hy0] at hread
    have h1 := congrArg Prod.fst hread
    have h2 := congrArg Prod.snd hread
    simp only at h1 h2
    refine ⟨by rw [h1]; simp, ?_⟩
    rw [h2]
    exact get_rounded_direction_enumerated 0 0 d
  · have hread := sobel_read_border zero_buf zero_buf src d width height c r hc hint
    have h1 := congrArg Prod.fst hread
    have h2 := congrArg Prod.snd hread
    simp only at h1 h2
    refine ⟨by rw [h1]; rfl, ?_⟩
    rw [h2]
    exact Or.inl rfl

/-- Membership in the grid of blocks. -/
theorem mem_block_grid (d : blurdetect) (width height : Int) (b : Int × Int)
    (hb : b ∈ block_grid d width height) :
    (0 ≤ b.1 ∧ b.1 < Int.tdiv height (eff_block_height d height)) ∧
      (0 ≤ b.2 ∧ b.2 < Int.tdiv width (eff_block_width d width)) := by
  unfold block_grid at hb
  rw [List.mem_flatMap] at hb
  obtain ⟨blkj, hj, hb⟩ := hb
  rw [List.mem_map] at hb
  obtain ⟨blki, hi, rfl⟩ := hb
  rw [List.mem_range] at hi hj
  simp only
  omega

/-- When every sample of the thresholded plane is 0, no block has an edge width. -/
theorem block_widths_zero (dir dst src : Buf) (d : blurdetect) (width height : Int)
    (hz : ∀ r c, 0 ≤ r ∧ r < height → 0 ≤ c ∧ c < width → sample dst width r c = 0)
    (b : Int × Int) (hb : b ∈ block_grid d width height) :
    block_widths dir dst src d width height b.1 b.2 = [] := by
  obtain ⟨hb1, hb2⟩ := mem_block_grid d width height b hb
  unfold block_widths
  rw [List.filter_eq_nil_iff]
  intro x hx
  rw [List.mem_flatMap] at hx
  obtain ⟨inj, hinj, hx⟩ := hx
  rw [List.mem_map] at hx
  obtain ⟨ini, hini, rfl⟩ := hx
  rw [List.mem_range] at hinj hini
  have hxp := block_pixel_in_plane width (eff_block_width d width) b.2 ini hb2.1 hb2.2
    (by omega) (by omega)
  have hyp := block_pixel_in_plane height (eff_block_height d height) b.1 inj hb1.1 hb1.2
    (by omega) (by omega)
  unfold pixel_width
  rw [hz _ _ hyp hxp]
  simp

/-- When every sample of the thresholded plane is 0, calculate_blur returns 0. -/
theorem calculate_blur_zero (dir dst src : Buf) (d : blurdetect) (width height : Int)
    (hplane : 0 ≤ width ∧ 0 ≤ height)
    (hblock : 0 < eff_block_width d width ∧ 0 < eff_block_height d height)
    (hz : ∀ r c, 0 ≤ r ∧ r < height → 0 ≤ c ∧ c < width → sample dst width r c = 0) :
    calculate_blur dir dst src d width height = some 0 := by
  rw [calculate_blur_some dir dst src d width height hplane hblock]
  have hnil : qualifying_values dir dst src d width height = [] := by
    rw [qualifying_values_nil_iff]
    intro b hb hq
    exact hq.1 (block_widths_zero dir dst src d width height hz b hb)
  unfold stored_values
  rw [hnil]
  unfold pool_blocks
  simp [kept_count_zero]

/-- C13. The pipeline (gaussian_blur, sobel, non_maximum_suppression on a zeroed
buffer, in-place double_threshold, calculate_blur) on a plane with width >= 5 and
height >= 5 whose samples all equal a value v of the sample type, for every valid
configuration: every gradient magnitude is 0, no pixel survives suppression or
thresholding, and the returned score is 0. -/
theorem uniform_plane_score (bits : Nat) (src : Buf) (src_pitch width height : Int)
    (d : blurdetect) (v : Nat) (hw : 5 ≤ width) (hh : 5 ≤ height) (hcfg : valid_config d)
    (hv : v < 2 ^ bits)
    (huni : ∀ r c, 0 ≤ r ∧ r < height → 0 ≤ c ∧ c < width → sample src src_pitch r c = v) :
    (∀ r c, 0 ≤ r ∧ r < height → 0 ≤ c ∧ c < width →
      sample (stage_sobel bits src src_pitch width height d).1 width r c = 0 ∧
      sample (stage_suppressed bits src src_pitch width height d) width r c = 0 ∧
      sample (stage_thresholded bits src src_pitch width height d) width r c = 0) ∧
    plane_score bits src src_pitch width height d = some 0 := by
  have hF : ∀ r c, 0 ≤ r ∧ r < height → 0 ≤ c ∧ c < width →
      sample (stage_filterbuf bits src src_pitch width height) width r c = v :=
    fun r c hr hc => gaussian_uniform bits zero_buf src src_pitch width height v hw hh hv huni
      r c hr hc
  have hS : ∀ r c, 0 ≤ c ∧ c < width →
      sample (stage_sobel bits src src_pitch width height d).1 width r c = 0 ∧
      is_direction (sample (stage_sobel bits src src_pitch width height d).2 width r c) :=
    fun r c hc => sobel_uniform (stage_filterbuf bits src src_pitch width height) d width
      height v hF r c hc
  have hN : ∀ r c, 0 ≤ r ∧ r < height → 0 ≤ c ∧ c < width →
      sample (stage_suppressed bits src src_pitch width height d) width r c = 0 := by
    intro r c _ hc
    unfold stage_suppressed
    rw [nms_sample bits zero_buf _ _ width height d.peak c r hc (fun _ _ => rfl) (hS r c hc).2]
    split_ifs with hmax
    · exfalso
      have h0 := hmax.2.1
      rw [(hS r c hc).1] at h0
      exact Nat.not_lt_zero _ h0
    · rfl
  have hT : ∀ r c, 0 ≤ r ∧ r < height → 0 ≤ c ∧ c < width →
      sample (stage_thresholded bits src src_pitch width height d) width r c = 0 := by
    intro r c hr hc
    unfold stage_thresholded
    rw [double_threshold_inplace_sample _ d width height c r hc hr]
    unfold threshold_value
    rw [hN r c hr hc]
    split_ifs <;> rfl
  refine ⟨fun r c hr hc => ⟨(hS r c hc).1, hN r c hr hc, hT r c hr hc⟩, ?_⟩
  unfold plane_score
  obtain ⟨_, _, _, _, hbw, hbh⟩ := hcfg
  refine calculate_blur_zero _ _ _ d width height ⟨by omega, by omega⟩ ⟨?_, ?_⟩ hT
  · unfold eff_block_width
    split_ifs <;> omega
  · unfold eff_block_height
    split_ifs <;> omega

/-- C13, on the 5x5 plane of constant value 77 with the default configuration. -/
theorem uniform_plane_score_witness :
    ((5 : Int) ≤ 5) ∧ valid_config config_a ∧ 77 < 2 ^ 8 ∧
      plane_score 8 (fun _ => 77) 5 5 5 config_a = some 0 :=
  ⟨by decide, by decide, by decide,
    (uniform_plane_score 8 (fun _ => 77) 5 5 5 config_a 77 (by decide) (by decide)
      (by decide) (by decide) (fun _ _ _ _ => rfl)).2⟩

/-! ## The score as a function of block_pct -/

/-- C15, the failing input: the configuration with block_width = 0 (thresholds at
their defaults 1/17 and 2/17) passes every range check of Create_blurdetect, its
effective block width is 0, and calculate_blur fails on the division by it, whatever
the plane. -/
theorem zero_block_width_accepted (dir dst src : Buf) (width height : Int) :
    Create_blurdetect_check (1 / 17) (2 / 17) config_zero = none ∧
      eff_block_width config_zero width = 0 ∧
      calculate_blur dir dst src config_zero width height = none := by
  refine ⟨?_, rfl, ?_⟩
  · unfold Create_blurdetect_check
    norm_num [config_zero, config_a]
  · unfold calculate_blur
    have h : eff_block_width config_zero width = 0 := rfl
    rw [h]
    simp

/-- Two rational bounds of the square root of 2. -/
theorem sqrt_two_bounds : (1.41421356 : ℝ) < Real.sqrt 2 ∧ Real.sqrt 2 < (1.41421357 : ℝ) := by
  constructor
  · rw [Real.lt_sqrt (by norm_num)]
    norm_num
  · rw [Real.sqrt_lt' (by norm_num)]
    norm_num

/-- Rounding a real that lies within 1/2 of an integer. -/
theorem round_eq_of_bounds (x : ℝ) (n : Int) (h1 : (n : ℝ) - 1 / 2 ≤ x)
    (h2 : x < (n : ℝ) + 1 / 2) : round x = n := by
  rw [round_eq, Int.floor_eq_iff]
  constructor <;> linarith

/-- The scale coefficients of the profiles that agree with their documented formula:
scale_coef = 2 ^ (16 - (b - 8)) for every depth b, scale_coef1 = round((sqrt 2 - 1) *
scale_coef) for every depth, scale_coef2 = round((sqrt 2 + 1) * scale_coef) for the
depths 8, 10, 14 and 16. -/
theorem profile_coefficients_rounded (d : blurdetect) (b : Int)
    (hb : b = 8 ∨ b = 10 ∨ b = 12 ∨ b = 14 ∨ b = 16) :
    (Create_blurdetect_profile b d).scale_coef = 2 ^ (16 - (b - 8)).toNat ∧
      round ((Real.sqrt 2 - 1) * ((Create_blurdetect_profile b d).scale_coef : ℝ)) =
        (Create_blurdetect_profile b d).scale_coef1 ∧
      (b ≠ 12 →
        round ((Real.sqrt 2 + 1) * ((Create_blurdetect_profile b d).scale_coef : ℝ)) =
          (Create_blurdetect_profile b d).scale_coef2) := by
  obtain ⟨hlo, hhi⟩ := sqrt_two_bounds
  rcases hb with rfl | rfl | rfl | rfl | rfl
  all_goals
    refine ⟨rfl, ?_, fun h12 => ?_⟩
    · simp only [Create_blurdetect_profile]
      norm_num
      apply round_eq_of_bounds <;> norm_num <;> linarith
    · first
        | exact absurd rfl h12
        | (simp only [Create_blurdetect_profile]
           norm_num
           apply round_eq_of_bounds <;> norm_num <;> linarith)

/-- C16, the failing input: for the bit depth 12 the profile has scale_coef = 2 ^ 12
and scale_coef2 = 9887, whereas round((sqrt 2 + 1) * 2 ^ 12) = 9889. -/
theorem profile_12_scale_coef2 (d : blurdetect) :
    (Create_blurdetect_profile 12 d).scale_coef = 2 ^ 12 ∧
      (Create_blurdetect_profile 12 d).scale_coef2 = 9887 ∧
      round ((Real.sqrt 2 + 1) * ((Create_blurdetect_profile 12 d).scale_coef : ℝ)) = 9889 := by
  obtain ⟨hlo, hhi⟩ := sqrt_two_bounds
  refine ⟨rfl, rfl, ?_⟩
  simp only [Create_blurdetect_profile]
  norm_num
  apply round_eq_of_bounds <;> norm_num <;> linarith

/-! ## The integer range of the angle classification -/

/-- A product of a coefficient 0 <= c with a value of absolute value at most B stays
below 2 ^ 31 in absolute value when c * B does. -/
theorem abs_coef_mul_lt (c a B : Int) (hc : 0 ≤ c) (ha : |a| ≤ B) (hcB : c * B < 2 ^ 31) :
    |c * a| < 2 ^ 31 := by
  rw [abs_mul, abs_of_nonneg hc]
  exact lt_of_le_of_lt (mul_le_mul_of_nonneg_left ha hc) hcB

/-- For each profile built by Create_blurdetect, a gradient whose components are at
most 4 * peak in absolute value lies in the no-overflow range. -/
theorem profile_no_overflow (bits_per_component : Int) (d0 : blurdetect) (gx gy : Int)
    (hx : |gx| ≤ 4 * ((Create_blurdetect_profile bits_per_component d0).peak : Int))
    (hy : |gy| ≤ 4 * ((Create_blurdetect_profile bits_per_component d0).peak : Int)) :
    no_overflow gx gy (Create_blurdetect_profile bits_per_component d0) := by
  unfold no_overflow
  unfold Create_blurdetect_profile at hx hy ⊢
  split_ifs at hx hy ⊢ <;> simp only [Nat.cast_ofNat] at hx hy ⊢ <;>
    refine ⟨lt_of_le_of_lt hx (by norm_num), lt_of_le_of_lt hy (by norm_num), ?_,
      abs_coef_mul_lt _ _ _ (by norm_num) hx (by norm_num),
      abs_coef_mul_lt _ _ _ (by norm_num) hx (by norm_num)⟩ <;>
    (rw [mul_comm]; exact abs_coef_mul_lt _ _ _ (by norm_num) hy (by norm_num))

/-- In the no-overflow range every value that get_rounded_direction computes is below
2 ^ 31 in absolute value. -/
theorem values_in_range (gx gy : Int) (d : blurdetect) (hno : no_overflow gx gy d) :
    ∀ v ∈ get_rounded_direction_values gx gy d, |v| < 2 ^ 31 := by
  obtain ⟨h1, h2, h3, h4, h5⟩ := hno
  have wnx := wrap32_eq (-gx) (by rwa [abs_neg])
  have wny := wrap32_eq (-gy) (by rwa [abs_neg])
  have w4 := wrap32_eq _ h4
  have w5 := wrap32_eq _ h5
  have m3 : |-gy * d.scale_coef| < 2 ^ 31 := by rwa [neg_mul, abs_neg]
  have m4 : |d.scale_coef1 * -gx| < 2 ^ 31 := by rwa [mul_neg, abs_neg]
  have m5 : |d.scale_coef2 * -gx| < 2 ^ 31 := by rwa [mul_neg, abs_neg]
  have v4 := wrap32_eq _ m4
  have v5 := wrap32_eq _ m5
  intro v hv
  unfold get_rounded_direction_values at hv
  by_cases h0 : gx = 0
  · simp [h0] at hv
  · by_cases hneg : gx < 0
    · simp only [h0, hneg, ne_eq, not_false_eq_true, if_true, wnx, wny, v4, v5,
        List.cons_append, List.nil_append, List.mem_cons, List.not_mem_nil, or_false] at hv
      rcases hv with rfl | rfl | rfl | rfl | rfl | rfl | rfl
      · rwa [abs_neg]
      · rwa [abs_neg]
      · exact m3
      · exact m4
      · exact m5
      · rwa [abs_neg]
      · rwa [abs_neg]
    · simp only [h0, hneg, ne_eq, not_false_eq_true, if_true, if_false, w4, w5,
        List.nil_append, List.mem_cons, List.not_mem_nil, or_false] at hv
      rcases hv with rfl | rfl | rfl | rfl | rfl
      · exact h3
      · exact h4
      · exact h5
      · rwa [abs_neg]
      · rwa [abs_neg]

/-- C21. Fixed-point angle classification never overflows 32-bit signed arithmetic:
for the profile of every bit depth (8, 10, 12, 14, 16 in particular), every plane whose
samples are at most the peak of the profile and every interior pixel, the Sobel
responses satisfy |gx| <= 4 * peak and |gy| <= 4 * peak, the products gy * scale_coef,
scale_coef1 * gx and scale_coef2 * gx have absolute value below 2 ^ 31, and so has
every value that get_rounded_direction computes from (gx, gy), sign flips and
negations included. -/
theorem direction_arithmetic_in_range (bits_per_component : Int) (d0 : blurdetect)
    (src : Buf) (width height i j : Int) (hint : interior width height j i)
    (hs : ∀ r c, 0 ≤ r ∧ r < height → 0 ≤ c ∧ c < width →
      sample src width r c ≤ (Create_blurdetect_profile bits_per_component d0).peak) :
    |sobel_gx src (j * width) width i| ≤
        4 * ((Create_blurdetect_profile bits_per_component d0).peak : Int) ∧
      |sobel_gy src (j * width) width i| ≤
        4 * ((Create_blurdetect_profile bits_per_component d0).peak : Int) ∧
      |sobel_gy src (j * width) width i *
        (Create_blurdetect_profile bits_per_component d0).scale_coef| < 2 ^ 31 ∧
      |(Create_blurdetect_profile bits_per_component d0).scale_coef1 *
        sobel_gx src (j * width) width i| < 2 ^ 31 ∧
      |(Create_blurdetect_profile bits_per_component d0).scale_coef2 *
        sobel_gx src (j * width) width i| < 2 ^ 31 ∧
      ∀ v ∈ get_rounded_direction_values (sobel_gx src (j * width) width i)
        (sobel_gy src (j * width) width i)
        (Create_blurdetect_profile bits_per_component d0), |v| < 2 ^ 31 := by
  obtain ⟨hx, hy⟩ := sobel_component_bound src width height
    ((Create_blurdetect_profile bits_per_component d0).peak : Int) i j hint
    (fun r c hr hc => by exact_mod_cast hs r c hr hc)
  have hno := profile_no_overflow bits_per_component d0 _ _ hx hy
  exact ⟨hx, hy, hno.2.2.1, hno.2.2.2.1, hno.2.2.2.2, values_in_range _ _ _ hno⟩

/-- C21, for the 8-bit profile on plane_e at the pixel (1, 1), where gx = gy = 765:
both responses are within [-1020, 1020] and scale_coef2 * gx is below 2 ^ 31. -/
theorem direction_arithmetic_in_range_witness :
    interior 3 3 1 1 ∧
      |sobel_gx plane_e (1 * 3) 3 1| ≤ 4 * 255 ∧ |sobel_gy plane_e (1 * 3) 3 1| ≤ 4 * 255 ∧
      |158218 * sobel_gx plane_e (1 * 3) 3 1| < 2 ^ 31 :=
  ⟨by decide,
    (direction_arithmetic_in_range 8 config_a plane_e 3 3 1 1 (by decide)
      (fun r c _ _ => by
        show sample plane_e 3 r c ≤ 255
        unfold sample plane_e; split_ifs <;> decide)).1,
    (direction_arithmetic_in_range 8 config_a plane_e 3 3 1 1 (by decide)
      (fun r c _ _ => by
        show sample plane_e 3 r c ≤ 255
        unfold sample plane_e; split_ifs <;> decide)).2.1,
    (direction_arithmetic_in_range 8 config_a plane_e 3 3 1 1 (by decide)
      (fun r c _ _ => by
        show sample plane_e 3 r c ≤ 255
        unfold sample plane_e; split_ifs <;> decide)).2.2.2.2.1⟩

end BlurDetect
